import Mathlib

/-!
# docker-coredns-sync: the filter and the reconciler

A shallow embedding of `internal/core/reconciliation.go`
(`shouldReplaceExisting`, `shouldReplaceAllExisting`, `FilterRecordIntents`,
`ReconcileAndValidate`) and of `SyncEngine.handleEvent` of
`internal/core/engine.go`, and the properties of their specification.

Go maps are enumerated in an unspecified order.  Every place where the source
enumerates a map (`PeekNameTypeRecords`, `GetAllValues`, the final conversion of
`toAddMap` and `toRemoveMap` to slices) takes its order from an `IterOrder`, and
the theorems that quantify over an `IterOrder` hold for every such order.
-/

namespace dns

/-- Modelled from the spec: the `dns.Record` values, "a discriminated value;
exactly one variant": `A { name, value }` or `CNAME { name, value }`.  In the
source these are the Go types `*dns.ARecord` and `*dns.CNAMERecord`. -/
inductive Record where
  | ARecord (name value : String)
  | CNAMERecord (name value : String)
  deriving DecidableEq, Repr

/-- Modelled from the spec: accessor `GetName` of the record surface
`{name, type, value, key()}`. -/
def Record.GetName : Record → String
  | .ARecord n _ => n
  | .CNAMERecord n _ => n

/-- Modelled from the spec: accessor `GetValue`. -/
def Record.GetValue : Record → String
  | .ARecord _ v => v
  | .CNAMERecord _ v => v

/-- Modelled from the spec: accessor `GetType`, the strings the source uses as
the second level of the nested map (`"A"`, `"CNAME"`). -/
def Record.GetType : Record → String
  | .ARecord _ _ => "A"
  | .CNAMERecord _ _ => "CNAME"

/-- Modelled from the spec: `Key()` is the stable string
`"<type>:<name>:<value>"`, used as map key. -/
def Record.Key (r : Record) : String :=
  r.GetType ++ ":" ++ r.GetName ++ ":" ++ r.GetValue

end dns

namespace intent

/-- Modelled from the spec: `intent.RecordIntent`, a record with its
provenance.  `Created` is the instant of the container's creation (the source
only compares it with `time.Time.Before`). -/
structure RecordIntent where
  Record : dns.Record
  Hostname : String
  ContainerName : String
  ContainerID : String
  Created : Int
  Force : Bool
  deriving DecidableEq, Repr

/-- Modelled from the spec: `Key()` on the intent is `record.Key()`. -/
def RecordIntent.Key (ri : RecordIntent) : String := ri.Record.Key

/-- Modelled from the spec: `Equal`, "same record key and same provenance
(hostname, containerName, containerId, created, force)". -/
def RecordIntent.Equal (a b : RecordIntent) : Bool :=
  decide (a.Key = b.Key ∧ a.Hostname = b.Hostname ∧ a.ContainerName = b.ContainerName ∧
    a.ContainerID = b.ContainerID ∧ a.Created = b.Created ∧ a.Force = b.Force)

end intent

namespace core

open intent

/-- An enumeration order for Go maps: call number `i` lists the values of a map
whose values are `l` as `enum i l`, some permutation of `l`. -/
structure IterOrder where
  enum : Nat → List RecordIntent → List RecordIntent
  perm : ∀ i l, (enum i l).Perm l

/-- The order that lists every map in the order its entries were last written. -/
def IterOrder.insertion : IterOrder := ⟨fun _ l => l, fun _ l => List.Perm.refl l⟩

/-- The order that lists every map backwards. -/
def IterOrder.reversed : IterOrder := ⟨fun _ l => l.reverse, fun _ l => List.reverse_perm l⟩

/-- One leaf of the nested map: the intent stored under `name`, `recordType`, `value`. -/
structure Leaf where
  name : String
  recordType : String
  value : String
  intent : RecordIntent
  deriving DecidableEq, Repr

/-- Modelled from the spec: `NestedRecordMap`, "conceptually a map
`name → (type → (value → RecordIntent))`, preserving the last inserted intent
at each leaf".  The leaves are kept in a list with at most one leaf per
`(name, type, value)`. -/
abbrev NestedRecordMap := List Leaf

/-- Modelled from the spec: `NewNestedRecordMap`, the empty map. -/
def NewNestedRecordMap : NestedRecordMap := []

/-- Whether a leaf sits under `name` and `recordType`. -/
def Leaf.at (e : Leaf) (name recordType : String) : Prop :=
  e.name = name ∧ e.recordType = recordType

instance (e : Leaf) (name recordType : String) : Decidable (e.at name recordType) := by
  unfold Leaf.at; exact inferInstance

/-- Whether a leaf sits under `name`, `recordType` and `value`. -/
def Leaf.atValue (e : Leaf) (name recordType value : String) : Prop :=
  e.name = name ∧ e.recordType = recordType ∧ e.value = value

instance (e : Leaf) (name recordType value : String) :
    Decidable (e.atValue name recordType value) := by
  unfold Leaf.atValue; exact inferInstance

/-- Modelled from the spec: `Get(name).Get(type).Set(value, intent)`, which
overwrites the leaf at `(name, type, value)` or creates it. -/
def NestedRecordMap.Set (m : NestedRecordMap) (name recordType value : String)
    (ri : RecordIntent) : NestedRecordMap :=
  m.filter (fun e => decide (¬ e.atValue name recordType value)) ++ [⟨name, recordType, value, ri⟩]

/-- Modelled from the spec: `PeekNameTypeRecord(name, type, value)`, the intent
at one leaf, if the leaf exists. -/
def NestedRecordMap.PeekNameTypeRecord (m : NestedRecordMap) (name recordType value : String) :
    Option RecordIntent :=
  (m.find? (fun e => decide (e.atValue name recordType value))).map Leaf.intent

/-- Modelled from the spec: `PeekNameTypeRecords(name, type)`, "all intents
under that name+type", listed in the order `en`.  The source's second result
(`exists`) is true exactly when the list is not empty. -/
def NestedRecordMap.PeekNameTypeRecords (en : List RecordIntent → List RecordIntent)
    (m : NestedRecordMap) (name recordType : String) : List RecordIntent :=
  en ((m.filter (fun e => decide (e.at name recordType))).map Leaf.intent)

/-- Modelled from the spec: `DeleteNameType(name, type)`, which drops every
leaf under that name and type. -/
def NestedRecordMap.DeleteNameType (m : NestedRecordMap) (name recordType : String) :
    NestedRecordMap :=
  m.filter (fun e => decide (¬ e.at name recordType))

/-- Modelled from the spec: `GetAllValues()`, the flattened intent list, in the
order `en`. -/
def NestedRecordMap.GetAllValues (en : List RecordIntent → List RecordIntent)
    (m : NestedRecordMap) : List RecordIntent :=
  en (m.map Leaf.intent)

/-- `shouldReplaceExisting` of the source: the pairwise policy. -/
def shouldReplaceExisting (new existing : RecordIntent) : Bool :=
  if new.Force = true ∧ existing.Force = false then true
  else if new.Force = false ∧ existing.Force = true then false
  else if new.Created < existing.Created then true
  else false

/-- The five flags `shouldReplaceAllExisting` computes in its loop. -/
structure ReplaceFlags where
  anyForce : Bool
  allForce : Bool
  allNonForce : Bool
  newCreatedBeforeAllOldWithForce : Bool
  newCreatedBeforeAll : Bool
  deriving DecidableEq, Repr

/-- One iteration of the loop of `shouldReplaceAllExisting`. -/
def replaceFlagsStep (new : RecordIntent) (f : ReplaceFlags) (ri : RecordIntent) : ReplaceFlags :=
  let newCreatedBeforeExisting : Bool := decide (new.Created < ri.Created)
  let f1 : ReplaceFlags :=
    if ri.Force = true then
      { f with
        anyForce := true
        allNonForce := false
        newCreatedBeforeAllOldWithForce :=
          if newCreatedBeforeExisting = false then false else f.newCreatedBeforeAllOldWithForce }
    else
      { f with allForce := false }
  if newCreatedBeforeExisting = false then { f1 with newCreatedBeforeAll := false } else f1

/-- `shouldReplaceAllExisting` of the source: a CNAME against the A records of its name. -/
def shouldReplaceAllExisting (new : RecordIntent) (existing : List RecordIntent) : Bool :=
  if existing.length = 0 then true
  else
    let f := existing.foldl (replaceFlagsStep new) ⟨false, true, true, true, true⟩
    if f.anyForce = true ∧ new.Force = false then false
    else if new.Force = true ∧ f.allNonForce = true then true
    else if new.Force = true ∧ f.allForce = false then
      (if f.newCreatedBeforeAllOldWithForce = true then true else false)
    else if f.newCreatedBeforeAll = true then true
    else false

/-- The body of the loop of `FilterRecordIntents`, for one incoming intent.
`existing[0]` of the source is the head of the enumerated list, which exists
whenever `PeekNameTypeRecords` reports records. -/
def filterStep (en : List RecordIntent → List RecordIntent) (m : NestedRecordMap)
    (ri : RecordIntent) : NestedRecordMap :=
  let name := ri.Record.GetName
  let value := ri.Record.GetValue
  let existingARecordIntents := m.PeekNameTypeRecords en name "A"
  let existingCNAMERecordIntents := m.PeekNameTypeRecords en name "CNAME"
  match ri.Record with
  | .ARecord _ _ =>
    match existingCNAMERecordIntents with
    | existingCNAMERecordIntent :: _ =>
      if shouldReplaceExisting ri existingCNAMERecordIntent = true then
        (m.DeleteNameType name "CNAME").Set name "A" value ri
      else m
    | [] =>
      match m.PeekNameTypeRecord name "A" value with
      | some existingARecordIntent =>
        if shouldReplaceExisting ri existingARecordIntent = true then
          m.Set name "A" value ri
        else m
      | none => m.Set name "A" value ri
  | .CNAMERecord _ _ =>
    match existingARecordIntents with
    | _ :: _ =>
      if shouldReplaceAllExisting ri existingARecordIntents = true then
        (m.DeleteNameType name "A").Set name "CNAME" value ri
      else m
    | [] =>
      match existingCNAMERecordIntents with
      | existingCNAMERecordIntent :: _ =>
        if shouldReplaceExisting ri existingCNAMERecordIntent = true then
          m.Set name "CNAME" value ri
        else m
      | [] => m.Set name "CNAME" value ri

/-- The loop of `FilterRecordIntents`; iteration `i` enumerates with `o.enum i`. -/
def filterLoop (o : IterOrder) : Nat → List RecordIntent → NestedRecordMap → NestedRecordMap
  | _, [], m => m
  | i, ri :: rest, m => filterLoop o (i + 1) rest (filterStep (o.enum i) m ri)

/-- `FilterRecordIntents` of the source. -/
def FilterRecordIntents (o : IterOrder) (recordIntents : List RecordIntent) : List RecordIntent :=
  (filterLoop o 0 recordIntents NewNestedRecordMap).GetAllValues (o.enum recordIntents.length)

/-- A Go `map[string]*intent.RecordIntent`, as a list with at most one entry per key. -/
abbrev IntentMap := List (String × RecordIntent)

/-- The assignment `m[key] = ri`. -/
def IntentMap.set (m : IntentMap) (key : String) (ri : RecordIntent) : IntentMap :=
  m.filter (fun kv => decide (kv.1 ≠ key)) ++ [(key, ri)]

/-- The keys of a map. -/
def IntentMap.keys (m : IntentMap) : List String := m.map Prod.fst

/-- The values of a map. -/
def IntentMap.values (m : IntentMap) : List RecordIntent := m.map Prod.snd

/-- The loop `for k, v := range src { dst[k] = v }`. -/
def IntentMap.merge (dst src : IntentMap) : IntentMap :=
  src.foldl (fun acc kv => acc.set kv.1 kv.2) dst

/-- The external `ValidateRecord(intent, simulated)`: `true` stands for `err == nil`. -/
abbrev Validator := RecordIntent → List RecordIntent → Bool

/-- Step 1 of `ReconcileAndValidate` for one actual intent: a stale record goes
to `toRemoveMap`, any other is indexed in `actualByNameType`. -/
def staleStep (desiredSet : List String) (st : IntentMap × NestedRecordMap) (ri : RecordIntent) :
    IntentMap × NestedRecordMap :=
  if ri.Key ∈ desiredSet then
    (st.1, st.2.Set ri.Record.GetName ri.Record.GetType ri.Record.GetValue ri)
  else
    (st.1.set ri.Key ri, st.2)

/-- Step 1 of `ReconcileAndValidate`: `(toRemoveMap, actualByNameType)` after the first loop. -/
def staleAndIndex (desired actual : List RecordIntent) : IntentMap × NestedRecordMap :=
  actual.foldl (staleStep (desired.map RecordIntent.Key)) ([], NewNestedRecordMap)

/-- The loops `for i, ri := range actualRecordIntents { evictions[ri.Key()] = ri }`. -/
def evictAll (actualRecordIntents : List RecordIntent) : IntentMap :=
  actualRecordIntents.foldl (fun ev ri => ev.set ri.Key ri) []

/-- Step 2 of `ReconcileAndValidate` for one desired intent: `none` is the
source's `continue`, `some evictions` goes on to validation. -/
def reconcileDecision (en : List RecordIntent → List RecordIntent)
    (actualByNameType : NestedRecordMap) (desiredRecordIntent : RecordIntent) :
    Option IntentMap :=
  let name := desiredRecordIntent.Record.GetName
  let value := desiredRecordIntent.Record.GetValue
  match desiredRecordIntent.Record with
  | .ARecord _ _ =>
    match actualByNameType.PeekNameTypeRecords en name "CNAME" with
    | actualRecordIntent :: rest =>
      if desiredRecordIntent.Force = true then some (evictAll (actualRecordIntent :: rest))
      else if desiredRecordIntent.Created < actualRecordIntent.Created then
        some (evictAll (actualRecordIntent :: rest))
      else none
    | [] =>
      match actualByNameType.PeekNameTypeRecord name "A" value with
      | some actualRecordIntent =>
        if actualRecordIntent.Equal desiredRecordIntent = true then none
        else if desiredRecordIntent.Force = true then
          some (IntentMap.set [] actualRecordIntent.Key actualRecordIntent)
        else if desiredRecordIntent.Created < actualRecordIntent.Created then
          some (IntentMap.set [] actualRecordIntent.Key actualRecordIntent)
        else none
      | none => some []
  | .CNAMERecord _ _ =>
    match actualByNameType.PeekNameTypeRecords en name "A" with
    | actualRecordIntent :: rest =>
      let desiredOlderThanAllActual : Bool :=
        (actualRecordIntent :: rest).foldl
          (fun b ri => b && decide (desiredRecordIntent.Created < ri.Created)) true
      if desiredRecordIntent.Force = true then some (evictAll (actualRecordIntent :: rest))
      else if desiredOlderThanAllActual = true then some (evictAll (actualRecordIntent :: rest))
      else none
    | [] =>
      match actualByNameType.PeekNameTypeRecords en name "CNAME" with
      | actualRecordIntent :: rest =>
        if actualRecordIntent.Equal desiredRecordIntent = true then none
        else if desiredRecordIntent.Force = true then some (evictAll (actualRecordIntent :: rest))
        else if desiredRecordIntent.Created < actualRecordIntent.Created then
          some (evictAll (actualRecordIntent :: rest))
        else none
      | [] => some []

/-- The two maps `ReconcileAndValidate` fills. -/
structure PlanState where
  toAddMap : IntentMap
  toRemoveMap : IntentMap
  deriving DecidableEq, Repr

/-- Step 3 of `ReconcileAndValidate`: the actual intents whose key is neither
in `toRemoveMap` nor in `evictions`. -/
def simulate (actual : List RecordIntent) (toRemoveMap evictions : IntentMap) :
    List RecordIntent :=
  actual.filter (fun ri => decide (ri.Key ∉ toRemoveMap.keys ++ evictions.keys))

/-- Steps 2 to 4 of `ReconcileAndValidate` for one desired intent. -/
def reconcileStep (en : List RecordIntent → List RecordIntent) (validate : Validator)
    (actual : List RecordIntent) (actualByNameType : NestedRecordMap) (st : PlanState)
    (desiredRecordIntent : RecordIntent) : PlanState :=
  match reconcileDecision en actualByNameType desiredRecordIntent with
  | none => st
  | some evictions =>
    if validate desiredRecordIntent (simulate actual st.toRemoveMap evictions) = true then
      { toAddMap := st.toAddMap.set desiredRecordIntent.Record.Key desiredRecordIntent
        toRemoveMap := st.toRemoveMap.merge evictions }
    else st

/-- The second loop of `ReconcileAndValidate`; iteration `i` enumerates with `o.enum i`. -/
def reconcileLoop (o : IterOrder) (validate : Validator) (actual : List RecordIntent)
    (actualByNameType : NestedRecordMap) : Nat → List RecordIntent → PlanState → PlanState
  | _, [], st => st
  | i, d :: rest, st =>
    reconcileLoop o validate actual actualByNameType (i + 1) rest
      (reconcileStep (o.enum i) validate actual actualByNameType st d)

/-- The state of `ReconcileAndValidate` when its second loop ends. -/
def reconcileFinal (o : IterOrder) (validate : Validator) (desired actual : List RecordIntent) :
    PlanState :=
  reconcileLoop o validate actual (staleAndIndex desired actual).2 0 desired
    ⟨[], (staleAndIndex desired actual).1⟩

/-- `ReconcileAndValidate` of the source: `(toAdd, toRemove)`. -/
def ReconcileAndValidate (o : IterOrder) (validate : Validator)
    (desired actual : List RecordIntent) : List RecordIntent × List RecordIntent :=
  let st := reconcileFinal o validate desired actual
  (o.enum desired.length st.toAddMap.values, o.enum (desired.length + 1) st.toRemoveMap.values)

/-! ## The event handler of the engine (`internal/core/engine.go`) -/

/-- Modelled from the spec: a `ContainerEvent` "carries id, name, status,
created, labels". -/
structure ContainerEvent where
  ID : String
  Name : String
  Status : String
  Created : Int
  Labels : List (String × String)
  deriving DecidableEq, Repr

/-- Modelled from the spec: `ContainerState`, held by the StateTracker per
container id: `name`, `created`, `status ∈ {running, removed}`, `intents`. -/
structure ContainerState where
  name : String
  created : Int
  status : String
  intents : List RecordIntent
  deriving DecidableEq, Repr

/-- Modelled from the spec: the `StateTracker`, a map from container id to
`ContainerState`, as a list with at most one entry per id. -/
abbrev StateTracker := List (String × ContainerState)

/-- Modelled from the spec: `NewStateTracker`, the empty tracker. -/
def NewStateTracker : StateTracker := []

/-- Modelled from the spec: `Upsert(id, name, created, intents, status)`
"atomically replaces the container's entry". -/
def StateTracker.Upsert (t : StateTracker) (id name : String) (created : Int)
    (intents : List RecordIntent) (status : String) : StateTracker :=
  t.filter (fun kv => decide (kv.1 ≠ id)) ++ [(id, ⟨name, created, status, intents⟩)]

/-- Modelled from the spec: `MarkRemoved(id)` "sets status to `removed`; no-op
if absent". -/
def StateTracker.MarkRemoved (t : StateTracker) (id : String) : StateTracker :=
  t.map (fun kv => if kv.1 = id then (kv.1, { kv.2 with status := "removed" }) else kv)

/-- The entry of a container id, if the tracker has one. -/
def StateTracker.Get (t : StateTracker) (id : String) : Option ContainerState :=
  (t.find? (fun kv => decide (kv.1 = id))).map Prod.snd

/-- `SyncEngine.handleEvent` of the source, on the state tracker of the
engine.  `GetContainerRecordIntents` is the external builder of the intents of
a container (with the configuration of the engine); `Except.error` stands for
`err != nil`. -/
def handleEvent (GetContainerRecordIntents : ContainerEvent → Except String (List RecordIntent))
    (stateTracker : StateTracker) (evt : ContainerEvent) : StateTracker :=
  if evt.ID = "" then stateTracker
  else if evt.Status = "start" then
    match GetContainerRecordIntents evt with
    | .error _ => stateTracker
    | .ok intents =>
      if intents.length > 0 then
        stateTracker.Upsert evt.ID evt.Name evt.Created intents "running"
      else stateTracker
  else stateTracker.MarkRemoved evt.ID

/-! ## Definitions used by the statements and the proofs -/

/-- The type string of the other record variant. -/
def otherType : dns.Record → String
  | .ARecord _ _ => "CNAME"
  | .CNAMERecord _ _ => "A"

/-- Every leaf is stored under the name, type and value of its own record. -/
def Coherent (m : NestedRecordMap) : Prop :=
  ∀ e ∈ m, e.name = e.intent.Record.GetName ∧ e.recordType = e.intent.Record.GetType ∧
    e.value = e.intent.Record.GetValue

/-- No name holds both an `"A"` leaf and a `"CNAME"` leaf. -/
def NoCoexist (m : NestedRecordMap) : Prop :=
  ∀ a ∈ m, ∀ c ∈ m, a.recordType = "A" → c.recordType = "CNAME" → a.name ≠ c.name

/-- At most one leaf per name, type and value. -/
def LeafUnique (m : NestedRecordMap) : Prop :=
  ∀ e1 ∈ m, ∀ e2 ∈ m, e1.name = e2.name → e1.recordType = e2.recordType →
    e1.value = e2.value → e1 = e2

/-- The three invariants of the map `FilterRecordIntents` builds. -/
structure FilterInv (m : NestedRecordMap) : Prop where
  coherent : Coherent m
  noCoexist : NoCoexist m
  leafUnique : LeafUnique m

/-- An A intent of container `container`, for the concrete inputs below. -/
def sampleA (name value container : String) (created : Int) (force : Bool) : RecordIntent :=
  ⟨.ARecord name value, "host1", container, container, created, force⟩

/-- A CNAME intent of container `container`, for the concrete inputs below. -/
def sampleCNAME (name value container : String) (created : Int) (force : Bool) : RecordIntent :=
  ⟨.CNAMERecord name value, "host1", container, container, created, force⟩

/-- The validator that accepts every intent. -/
def acceptAll : Validator := fun _ _ => true

/-- The validator that rejects every intent. -/
def rejectAll : Validator := fun _ _ => false

/-- Every entry of a map is stored under the key of its own intent. -/
def OwnKeyed (m : IntentMap) : Prop := ∀ kv ∈ m, kv.1 = kv.2.Key

/-- Keys identify records on `l`: two intents of `l` with the same key have the
same record (type, name and value).  This is the contract of `Key()`; it holds
whenever the names are domain names, which contain no colon. -/
def KeysFaithful (l : List RecordIntent) : Prop :=
  ∀ x ∈ l, ∀ y ∈ l, x.Key = y.Key → x.Record = y.Record

/-- A conflict-free list: pairwise distinct keys, no name holding both an A
and a CNAME, at most one CNAME per name. -/
def ConflictFree (l : List RecordIntent) : Prop :=
  (l.map RecordIntent.Key).Nodup ∧
  (∀ a ∈ l, ∀ c ∈ l, a.Record.GetType = "A" → c.Record.GetType = "CNAME" →
    a.Record.GetName ≠ c.Record.GetName) ∧
  (∀ c1 ∈ l, ∀ c2 ∈ l, c1.Record.GetType = "CNAME" → c2.Record.GetType = "CNAME" →
    c1.Record.GetName = c2.Record.GetName → c1 = c2)

/-- The outcome of `ValidateRecord` in iteration `i` of the second loop of
`ReconcileAndValidate`: `none` when the iteration does not exist or ends in
`continue`, otherwise the validator's verdict on the simulated set built for
the desired intent number `i`. -/
def validationAt (o : IterOrder) (validate : Validator) (desired actual : List RecordIntent)
    (i : Nat) : Option Bool :=
  match desired[i]? with
  | none => none
  | some d =>
    match reconcileDecision (o.enum i) (staleAndIndex desired actual).2 d with
    | none => none
    | some evictions =>
      some (validate d (simulate actual
        (reconcileLoop o validate actual (staleAndIndex desired actual).2 0 (desired.take i)
          ⟨[], (staleAndIndex desired actual).1⟩).toRemoveMap evictions))

instance (l : List RecordIntent) : Decidable (KeysFaithful l) := by
  unfold KeysFaithful; exact inferInstance

instance (l : List RecordIntent) : Decidable (ConflictFree l) := by
  unfold ConflictFree; exact inferInstance

/-- The validator that rejects exactly the intents of the DNS name `name`. -/
def rejectName (name : String) : Validator := fun ri _ => decide (ri.Record.GetName ≠ name)

/-- The last intent of `l` that satisfies `p`, or `acc` when there is none. -/
def lastWith (p : RecordIntent → Bool) (acc : Option RecordIntent) (l : List RecordIntent) :
    Option RecordIntent :=
  l.foldl (fun acc a => if p a = true then some a else acc) acc

/-- Modelled from the spec: the registry's records after the engine applied a
plan, removes before adds (`SyncEngine.Run`): `actual` without every intent
whose key is the key of a `toRemove` entry, followed by `toAdd`. -/
def applyPlan (actual : List RecordIntent) (plan : List RecordIntent × List RecordIntent) :
    List RecordIntent :=
  actual.filter (fun a => decide (a.Key ∉ plan.2.map RecordIntent.Key)) ++ plan.1

/-- CNAME intents of `l` that share a DNS name also share their value. -/
def CnameSameValue (l : List RecordIntent) : Prop :=
  ∀ c1 ∈ l, ∀ c2 ∈ l, c1.Record.GetType = "CNAME" → c2.Record.GetType = "CNAME" →
    c1.Record.GetName = c2.Record.GetName → c1.Record.GetValue = c2.Record.GetValue

instance (l : List RecordIntent) : Decidable (CnameSameValue l) := by
  unfold CnameSameValue; exact inferInstance

/-- The priority order of the specification, in its words: `a` has strictly
higher priority than `b` when `a` has `force` and `b` has not, or when their
force flags agree and `a` was created strictly before `b`. -/
def HigherPriority (a b : RecordIntent) : Prop :=
  (a.Force = true ∧ b.Force = false) ∨ (a.Force = b.Force ∧ a.Created < b.Created)

instance (a b : RecordIntent) : Decidable (HigherPriority a b) := by
  unfold HigherPriority; exact inferInstance

/-- The intent kept when `ri` meets the incumbent `acc` of its record: the
overwrite-or-drop of the same-record branches of `FilterRecordIntents`. -/
def pickBest (acc : Option RecordIntent) (ri : RecordIntent) : Option RecordIntent :=
  match acc with
  | none => some ri
  | some x => if shouldReplaceExisting ri x = true then some ri else some x

/-- The intent that survives when the intents of `l` with record `r` meet one
after the other, starting from the incumbent `acc`. -/
def bestOf (r : dns.Record) (acc : Option RecordIntent) (l : List RecordIntent) :
    Option RecordIntent :=
  l.foldl (fun acc a => if a.Record = r then pickBest acc a else acc) acc

/-- Every intent of `l` only meets intents of its own record: no DNS name of
`l` holds both an A and a CNAME intent, and the CNAME intents of one name share
their value. -/
def SlotWise (l : List RecordIntent) : Prop :=
  (∀ a ∈ l, ∀ c ∈ l, a.Record.GetType = "A" → c.Record.GetType = "CNAME" →
    a.Record.GetName ≠ c.Record.GetName) ∧ CnameSameValue l

instance (l : List RecordIntent) : Decidable (SlotWise l) := by
  unfold SlotWise; exact inferInstance

/-- No two different intents of one record tie: intents of `l` with the same
record, the same force flag and the same `created` are the same intent. -/
def NoTies (l : List RecordIntent) : Prop :=
  ∀ x ∈ l, ∀ y ∈ l, x.Record = y.Record → x.Force = y.Force → x.Created = y.Created → x = y

instance (l : List RecordIntent) : Decidable (NoTies l) := by
  unfold NoTies; exact inferInstance

/-! ## The nested map -/

theorem mem_Set_iff (m : NestedRecordMap) (n t v : String) (ri : RecordIntent) (e : Leaf) :
    e ∈ m.Set n t v ri ↔ (e ∈ m ∧ ¬ e.atValue n t v) ∨ e = ⟨n, t, v, ri⟩ := by
  simp [NestedRecordMap.Set, List.mem_filter]

theorem mem_DeleteNameType_iff (m : NestedRecordMap) (n t : String) (e : Leaf) :
    e ∈ m.DeleteNameType n t ↔ e ∈ m ∧ ¬ e.at n t := by
  simp [NestedRecordMap.DeleteNameType, List.mem_filter]

theorem mem_PeekNameTypeRecords_iff {en : List RecordIntent → List RecordIntent}
    (hen : ∀ l, (en l).Perm l) (m : NestedRecordMap) (n t : String) (x : RecordIntent) :
    x ∈ m.PeekNameTypeRecords en n t ↔ ∃ e ∈ m, e.at n t ∧ e.intent = x := by
  unfold NestedRecordMap.PeekNameTypeRecords
  rw [(hen _).mem_iff]
  simp [List.mem_map, List.mem_filter, and_assoc]

theorem PeekNameTypeRecords_eq_nil {en : List RecordIntent → List RecordIntent}
    (hen : ∀ l, (en l).Perm l) {m : NestedRecordMap} {n t : String}
    (h : m.PeekNameTypeRecords en n t = []) : ∀ e ∈ m, ¬ e.at n t := by
  intro e he hat
  have : e.intent ∈ m.PeekNameTypeRecords en n t :=
    (mem_PeekNameTypeRecords_iff hen m n t e.intent).2 ⟨e, he, hat, rfl⟩
  rw [h] at this
  exact absurd this (List.not_mem_nil _)

theorem PeekNameTypeRecord_eq_some {m : NestedRecordMap} {n t v : String} {x : RecordIntent}
    (h : m.PeekNameTypeRecord n t v = some x) : ∃ e ∈ m, e.atValue n t v ∧ e.intent = x := by
  unfold NestedRecordMap.PeekNameTypeRecord at h
  rw [Option.map_eq_some'] at h
  obtain ⟨e, hfind, hx⟩ := h
  refine ⟨e, List.mem_of_find?_eq_some hfind, ?_, hx⟩
  simpa using List.find?_some hfind

theorem PeekNameTypeRecord_eq_none {m : NestedRecordMap} {n t v : String}
    (h : m.PeekNameTypeRecord n t v = none) : ∀ e ∈ m, ¬ e.atValue n t v := by
  unfold NestedRecordMap.PeekNameTypeRecord at h
  rw [Option.map_eq_none'] at h
  intro e he
  simpa using List.find?_eq_none.1 h e he

/-! ## The loop of `FilterRecordIntents` -/

theorem filterStep_mem {en : List RecordIntent → List RecordIntent} (hen : ∀ l, (en l).Perm l)
    (m : NestedRecordMap) (ri : RecordIntent) :
    filterStep en m ri = m ∨
    ∀ e, e ∈ filterStep en m ri ↔
      (e ∈ m ∧ ¬ e.at ri.Record.GetName (otherType ri.Record) ∧
        ¬ e.atValue ri.Record.GetName ri.Record.GetType ri.Record.GetValue) ∨
      e = ⟨ri.Record.GetName, ri.Record.GetType, ri.Record.GetValue, ri⟩ := by
  unfold filterStep
  cases hr : ri.Record with
  | ARecord n v =>
    simp only [dns.Record.GetName, dns.Record.GetValue, dns.Record.GetType, otherType]
    split
    · split
      · right
        intro e
        rw [mem_Set_iff, mem_DeleteNameType_iff, and_assoc]
      · left; rfl
    · rename_i hnil
      have hno := PeekNameTypeRecords_eq_nil hen hnil
      have hset : ∀ e, e ∈ m.Set n "A" v ri ↔
          (e ∈ m ∧ ¬ e.at n "CNAME" ∧ ¬ e.atValue n "A" v) ∨ e = ⟨n, "A", v, ri⟩ := by
        intro e
        rw [mem_Set_iff]
        constructor
        · rintro (⟨h1, h2⟩ | h)
          · exact Or.inl ⟨h1, hno e h1, h2⟩
          · exact Or.inr h
        · rintro (⟨h1, _, h2⟩ | h)
          · exact Or.inl ⟨h1, h2⟩
          · exact Or.inr h
      split
      · split
        · exact Or.inr hset
        · left; rfl
      · exact Or.inr hset
  | CNAMERecord n v =>
    simp only [dns.Record.GetName, dns.Record.GetValue, dns.Record.GetType, otherType]
    split
    · split
      · right
        intro e
        rw [mem_Set_iff, mem_DeleteNameType_iff, and_assoc]
      · left; rfl
    · rename_i hnil
      have hno := PeekNameTypeRecords_eq_nil hen hnil
      have hset : ∀ e, e ∈ m.Set n "CNAME" v ri ↔
          (e ∈ m ∧ ¬ e.at n "A" ∧ ¬ e.atValue n "CNAME" v) ∨ e = ⟨n, "CNAME", v, ri⟩ := by
        intro e
        rw [mem_Set_iff]
        constructor
        · rintro (⟨h1, h2⟩ | h)
          · exact Or.inl ⟨h1, hno e h1, h2⟩
          · exact Or.inr h
        · rintro (⟨h1, _, h2⟩ | h)
          · exact Or.inl ⟨h1, h2⟩
          · exact Or.inr h
      split
      · split
        · exact Or.inr hset
        · left; rfl
      · exact Or.inr hset

theorem GetType_cases (r : dns.Record) :
    (r.GetType = "A" ∧ otherType r = "CNAME") ∨ (r.GetType = "CNAME" ∧ otherType r = "A") := by
  cases r <;> simp [dns.Record.GetType, otherType]

theorem filterStep_Coherent {en : List RecordIntent → List RecordIntent}
    (hen : ∀ l, (en l).Perm l) (m : NestedRecordMap) (ri : RecordIntent) (h : Coherent m) :
    Coherent (filterStep en m ri) := by
  rcases filterStep_mem hen m ri with heq | hmem
  · rw [heq]; exact h
  · intro e he
    rcases (hmem e).1 he with ⟨he, _, _⟩ | rfl
    · exact h e he
    · exact ⟨rfl, rfl, rfl⟩

theorem filterStep_NoCoexist {en : List RecordIntent → List RecordIntent}
    (hen : ∀ l, (en l).Perm l) (m : NestedRecordMap) (ri : RecordIntent) (h : NoCoexist m) :
    NoCoexist (filterStep en m ri) := by
  rcases filterStep_mem hen m ri with heq | hmem
  · rw [heq]; exact h
  · intro a ha c hc hta htc hname
    rcases (hmem a).1 ha with ⟨ha, hao, _⟩ | rfl <;> rcases (hmem c).1 hc with ⟨hc, hco, _⟩ | rfl
    · exact h a ha c hc hta htc hname
    · simp only at htc hname
      rcases GetType_cases ri.Record with ⟨h1, _⟩ | ⟨_, h2⟩
      · rw [h1] at htc; exact absurd htc (by decide)
      · exact hao ⟨hname, by rw [h2]; exact hta⟩
    · simp only at hta hname
      rcases GetType_cases ri.Record with ⟨_, h2⟩ | ⟨h1, _⟩
      · exact hco ⟨hname.symm, by rw [h2]; exact htc⟩
      · rw [h1] at hta; exact absurd hta (by decide)
    · simp only at hta htc
      rw [hta] at htc; exact absurd htc (by decide)

theorem filterStep_LeafUnique {en : List RecordIntent → List RecordIntent}
    (hen : ∀ l, (en l).Perm l) (m : NestedRecordMap) (ri : RecordIntent) (h : LeafUnique m) :
    LeafUnique (filterStep en m ri) := by
  rcases filterStep_mem hen m ri with heq | hmem
  · rw [heq]; exact h
  · intro a ha c hc hn ht hv
    rcases (hmem a).1 ha with ⟨ha, _, hav⟩ | rfl <;> rcases (hmem c).1 hc with ⟨hc, _, hcv⟩ | rfl
    · exact h a ha c hc hn ht hv
    · exact absurd ⟨hn, ht, hv⟩ hav
    · exact absurd ⟨hn.symm, ht.symm, hv.symm⟩ hcv
    · rfl

theorem FilterInv_empty : FilterInv NewNestedRecordMap :=
  ⟨fun _ h => absurd h (List.not_mem_nil _), fun _ h => absurd h (List.not_mem_nil _),
    fun _ h => absurd h (List.not_mem_nil _)⟩

theorem filterStep_FilterInv {en : List RecordIntent → List RecordIntent}
    (hen : ∀ l, (en l).Perm l) (m : NestedRecordMap) (ri : RecordIntent) (h : FilterInv m) :
    FilterInv (filterStep en m ri) :=
  ⟨filterStep_Coherent hen m ri h.coherent, filterStep_NoCoexist hen m ri h.noCoexist,
    filterStep_LeafUnique hen m ri h.leafUnique⟩

theorem filterLoop_FilterInv (o : IterOrder) (l : List RecordIntent) :
    ∀ (i : Nat) (m : NestedRecordMap), FilterInv m → FilterInv (filterLoop o i l m) := by
  induction l with
  | nil => intro i m h; exact h
  | cons ri rest ih =>
    intro i m h
    exact ih (i + 1) _ (filterStep_FilterInv (o.perm i) m ri h)

theorem mem_GetAllValues_iff {en : List RecordIntent → List RecordIntent}
    (hen : ∀ l, (en l).Perm l) (m : NestedRecordMap) (x : RecordIntent) :
    x ∈ m.GetAllValues en ↔ ∃ e ∈ m, e.intent = x := by
  unfold NestedRecordMap.GetAllValues
  rw [(hen _).mem_iff]
  simp [List.mem_map]

/-- C1: for every input list, the output of `FilterRecordIntents` never holds
both an A intent and a CNAME intent with the same DNS name. -/
theorem filter_never_A_and_CNAME (o : IterOrder) (recordIntents : List RecordIntent) :
    ∀ a ∈ FilterRecordIntents o recordIntents, ∀ c ∈ FilterRecordIntents o recordIntents,
      a.Record.GetType = "A" → c.Record.GetType = "CNAME" →
      a.Record.GetName ≠ c.Record.GetName := by
  intro a ha c hc hta htc
  have hinv := filterLoop_FilterInv o recordIntents 0 _ FilterInv_empty
  obtain ⟨ea, hea, rfl⟩ := (mem_GetAllValues_iff (o.perm _) _ a).1 ha
  obtain ⟨ec, hec, rfl⟩ := (mem_GetAllValues_iff (o.perm _) _ c).1 hc
  have h1 := hinv.coherent ea hea
  have h2 := hinv.coherent ec hec
  rw [← h1.1, ← h2.1]
  exact hinv.noCoexist ea hea ec hec (h1.2.1.trans hta) (h2.2.1.trans htc)

/-- Witness for C1: an A intent and a CNAME intent of different names both
survive the filter, while the CNAME that shares the name of the A is dropped. -/
theorem filter_never_A_and_CNAME_witness :
    sampleA "api.x" "10.0.0.1" "c1" 1 false ∈
        FilterRecordIntents IterOrder.insertion
          [sampleA "api.x" "10.0.0.1" "c1" 1 false, sampleCNAME "web.x" "svc.y" "c2" 2 false,
            sampleCNAME "api.x" "svc.y" "c3" 3 false] ∧
      sampleCNAME "web.x" "svc.y" "c2" 2 false ∈
        FilterRecordIntents IterOrder.insertion
          [sampleA "api.x" "10.0.0.1" "c1" 1 false, sampleCNAME "web.x" "svc.y" "c2" 2 false,
            sampleCNAME "api.x" "svc.y" "c3" 3 false] ∧
      (sampleA "api.x" "10.0.0.1" "c1" 1 false).Record.GetName ≠
        (sampleCNAME "web.x" "svc.y" "c2" 2 false).Record.GetName :=
  ⟨by decide, by decide,
    filter_never_A_and_CNAME IterOrder.insertion
      [sampleA "api.x" "10.0.0.1" "c1" 1 false, sampleCNAME "web.x" "svc.y" "c2" 2 false,
        sampleCNAME "api.x" "svc.y" "c3" 3 false]
      _ (by decide) _ (by decide) (by decide) (by decide)⟩

/-! ## Enumeration orders -/

theorem IterOrder.enum_nil (o : IterOrder) (i : Nat) : o.enum i [] = [] :=
  (o.perm i []).eq_nil

theorem IterOrder.enum_singleton (o : IterOrder) (i : Nat) (x : RecordIntent) :
    o.enum i [x] = [x] :=
  List.perm_singleton.1 (o.perm i [x])

theorem IterOrder.mem_enum (o : IterOrder) (i : Nat) (l : List RecordIntent) (x : RecordIntent) :
    x ∈ o.enum i l ↔ x ∈ l :=
  (o.perm i l).mem_iff

/-- Code at the failing input of C2: two CNAME intents for one name with
different values both survive `FilterRecordIntents`, in every enumeration order. -/
theorem filter_keeps_two_CNAMEs_of_one_name (o : IterOrder) :
    sampleCNAME "api.x" "a.y" "c1" 5 false ∈
        FilterRecordIntents o
          [sampleCNAME "api.x" "a.y" "c1" 5 false, sampleCNAME "api.x" "b.y" "c2" 1 false] ∧
      sampleCNAME "api.x" "b.y" "c2" 1 false ∈
        FilterRecordIntents o
          [sampleCNAME "api.x" "a.y" "c1" 5 false, sampleCNAME "api.x" "b.y" "c2" 1 false] := by
  have h : filterLoop o 0
      [sampleCNAME "api.x" "a.y" "c1" 5 false, sampleCNAME "api.x" "b.y" "c2" 1 false]
      NewNestedRecordMap =
      [⟨"api.x", "CNAME", "a.y", sampleCNAME "api.x" "a.y" "c1" 5 false⟩,
        ⟨"api.x", "CNAME", "b.y", sampleCNAME "api.x" "b.y" "c2" 1 false⟩] := by
    simp [filterLoop, filterStep, NewNestedRecordMap, NestedRecordMap.PeekNameTypeRecords,
      NestedRecordMap.Set, sampleCNAME, dns.Record.GetName, dns.Record.GetValue,
      IterOrder.enum_nil, IterOrder.enum_singleton, shouldReplaceExisting, Leaf.at, Leaf.atValue]
  unfold FilterRecordIntents NestedRecordMap.GetAllValues
  rw [h]
  simp [IterOrder.mem_enum]

/-! ## The maps of `ReconcileAndValidate` -/

theorem IntentMap.mem_set_iff (m : IntentMap) (k : String) (x : RecordIntent)
    (kv : String × RecordIntent) :
    kv ∈ m.set k x ↔ (kv ∈ m ∧ kv.1 ≠ k) ∨ kv = (k, x) := by
  simp [IntentMap.set, List.mem_filter]

theorem IntentMap.mem_keys_iff (m : IntentMap) (k : String) :
    k ∈ m.keys ↔ ∃ x, (k, x) ∈ m := by
  simp [IntentMap.keys]

theorem IntentMap.mem_values_iff (m : IntentMap) (x : RecordIntent) :
    x ∈ m.values ↔ ∃ k, (k, x) ∈ m := by
  simp [IntentMap.values]

theorem IntentMap.mem_keys_set (m : IntentMap) (k : String) (x : RecordIntent) (k' : String) :
    k' ∈ (m.set k x).keys ↔ k' ∈ m.keys ∨ k' = k := by
  simp only [IntentMap.mem_keys_iff, IntentMap.mem_set_iff]
  constructor
  · rintro ⟨y, ⟨h, _⟩ | h⟩
    · exact Or.inl ⟨y, h⟩
    · exact Or.inr (congrArg Prod.fst h)
  · rintro (⟨y, h⟩ | h)
    · by_cases hk : k' = k
      · exact ⟨x, Or.inr (by rw [hk])⟩
      · exact ⟨y, Or.inl ⟨h, hk⟩⟩
    · exact ⟨x, Or.inr (by rw [h])⟩

theorem IntentMap.mem_keys_merge (src : IntentMap) :
    ∀ (dst : IntentMap) (k : String), k ∈ (dst.merge src).keys ↔ k ∈ dst.keys ∨ k ∈ src.keys := by
  induction src with
  | nil => intro dst k; simp [IntentMap.merge, IntentMap.keys]
  | cons kv rest ih =>
    intro dst k
    have := ih (dst.set kv.1 kv.2) k
    simp only [IntentMap.merge, List.foldl_cons] at this ⊢
    rw [this, IntentMap.mem_keys_set]
    simp only [IntentMap.keys, List.map_cons, List.mem_cons]
    tauto

theorem IntentMap.mem_merge (src : IntentMap) :
    ∀ (dst : IntentMap) (kv : String × RecordIntent), kv ∈ dst.merge src → kv ∈ dst ∨ kv ∈ src := by
  induction src with
  | nil => intro dst kv h; exact Or.inl h
  | cons e rest ih =>
    intro dst kv h
    simp only [IntentMap.merge, List.foldl_cons] at h
    rcases ih (dst.set e.1 e.2) kv h with h | h
    · rcases (IntentMap.mem_set_iff dst e.1 e.2 kv).1 h with ⟨h, _⟩ | h
      · exact Or.inl h
      · exact Or.inr (by rw [h]; exact List.mem_cons_self _ _)
    · exact Or.inr (List.mem_cons_of_mem _ h)

theorem mem_evictAll_aux (l : List RecordIntent) :
    ∀ (ev : IntentMap) (kv : String × RecordIntent),
      kv ∈ l.foldl (fun ev ri => IntentMap.set ev ri.Key ri) ev →
      kv ∈ ev ∨ (kv.2 ∈ l ∧ kv.1 = kv.2.Key) := by
  induction l with
  | nil => intro ev kv h; exact Or.inl h
  | cons a rest ih =>
    intro ev kv h
    rcases ih _ kv h with h | ⟨h1, h2⟩
    · rcases (IntentMap.mem_set_iff ev a.Key a kv).1 h with ⟨h, _⟩ | h
      · exact Or.inl h
      · exact Or.inr ⟨by rw [h]; exact List.mem_cons_self _ _, by rw [h]⟩
    · exact Or.inr ⟨List.mem_cons_of_mem _ h1, h2⟩

theorem mem_evictAll {l : List RecordIntent} {kv : String × RecordIntent} (h : kv ∈ evictAll l) :
    kv.2 ∈ l ∧ kv.1 = kv.2.Key := by
  rcases mem_evictAll_aux l [] kv h with h | h
  · exact absurd h (List.not_mem_nil _)
  · exact h

theorem mem_keys_evictAll_aux (l : List RecordIntent) :
    ∀ (ev : IntentMap) (k : String),
      k ∈ IntentMap.keys (l.foldl (fun ev ri => IntentMap.set ev ri.Key ri) ev) ↔
      k ∈ ev.keys ∨ ∃ a ∈ l, a.Key = k := by
  induction l with
  | nil => intro ev k; simp
  | cons a rest ih =>
    intro ev k
    simp only [List.foldl_cons, List.mem_cons]
    rw [ih, IntentMap.mem_keys_set]
    constructor
    · rintro ((h | h) | ⟨b, hb, h⟩)
      · exact Or.inl h
      · exact Or.inr ⟨a, Or.inl rfl, h.symm⟩
      · exact Or.inr ⟨b, Or.inr hb, h⟩
    · rintro (h | ⟨b, rfl | hb, h⟩)
      · exact Or.inl (Or.inl h)
      · exact Or.inl (Or.inr h.symm)
      · exact Or.inr ⟨b, hb, h⟩

theorem mem_keys_evictAll (l : List RecordIntent) (k : String) :
    k ∈ (evictAll l).keys ↔ ∃ a ∈ l, a.Key = k := by
  unfold evictAll
  rw [mem_keys_evictAll_aux]
  simp [IntentMap.keys]

/-- Keys of `toRemoveMap` are never lost by a step of the second loop. -/
theorem reconcileStep_keys_mono (en : List RecordIntent → List RecordIntent) (v : Validator)
    (actual : List RecordIntent) (abnt : NestedRecordMap) (st : PlanState) (d : RecordIntent)
    (k : String) (h : k ∈ st.toRemoveMap.keys) :
    k ∈ (reconcileStep en v actual abnt st d).toRemoveMap.keys := by
  unfold reconcileStep
  split
  · exact h
  · split
    · exact (IntentMap.mem_keys_merge _ _ k).2 (Or.inl h)
    · exact h

theorem reconcileLoop_keys_mono (o : IterOrder) (v : Validator) (actual : List RecordIntent)
    (abnt : NestedRecordMap) (ds : List RecordIntent) :
    ∀ (i : Nat) (st : PlanState) (k : String), k ∈ st.toRemoveMap.keys →
      k ∈ (reconcileLoop o v actual abnt i ds st).toRemoveMap.keys := by
  induction ds with
  | nil => intro i st k h; exact h
  | cons d rest ih =>
    intro i st k h
    exact ih (i + 1) _ k (reconcileStep_keys_mono _ v actual abnt st d k h)

theorem OwnKeyed_set {m : IntentMap} (h : OwnKeyed m) (x : RecordIntent) :
    OwnKeyed (m.set x.Key x) := by
  intro kv hkv
  rcases (IntentMap.mem_set_iff m x.Key x kv).1 hkv with ⟨hkv, _⟩ | rfl
  · exact h kv hkv
  · rfl

theorem OwnKeyed_merge {dst src : IntentMap} (h1 : OwnKeyed dst) (h2 : OwnKeyed src) :
    OwnKeyed (dst.merge src) := by
  intro kv hkv
  rcases IntentMap.mem_merge src dst kv hkv with h | h
  · exact h1 kv h
  · exact h2 kv h

theorem OwnKeyed_evictAll (l : List RecordIntent) : OwnKeyed (evictAll l) :=
  fun _ h => (mem_evictAll h).2

theorem OwnKeyed_nil : OwnKeyed [] := fun _ h => absurd h (List.not_mem_nil _)

/-! ## Step 2 of `ReconcileAndValidate` -/

theorem foldl_and_older (c : Int) (l : List RecordIntent) :
    ∀ b : Bool, l.foldl (fun b ri => b && decide (c < ri.Created)) b = true ↔
      b = true ∧ ∀ ri ∈ l, c < ri.Created := by
  induction l with
  | nil => intro b; simp
  | cons a rest ih =>
    intro b
    simp only [List.foldl_cons, List.mem_cons, forall_eq_or_imp]
    rw [ih]
    simp only [Bool.and_eq_true, decide_eq_true_eq]
    tauto

/-- Step 2 for a desired A record, with the two age tests merged with the force test. -/
theorem reconcileDecision_ARecord {en : List RecordIntent → List RecordIntent}
    {abnt : NestedRecordMap} {d : RecordIntent} {n v : String}
    (hr : d.Record = dns.Record.ARecord n v) :
    reconcileDecision en abnt d =
      match abnt.PeekNameTypeRecords en n "CNAME" with
      | a0 :: rest =>
        if d.Force = true ∨ d.Created < a0.Created then some (evictAll (a0 :: rest)) else none
      | [] =>
        match abnt.PeekNameTypeRecord n "A" v with
        | some a =>
          if a.Equal d = true then none
          else if d.Force = true ∨ d.Created < a.Created then some (IntentMap.set [] a.Key a)
          else none
        | none => some [] := by
  unfold reconcileDecision
  simp only [hr, dns.Record.GetName, dns.Record.GetValue]
  cases abnt.PeekNameTypeRecords en n "CNAME" with
  | cons a0 rest =>
    simp only
    by_cases hf : d.Force = true <;> by_cases hc : d.Created < a0.Created <;> simp [hf, hc]
  | nil =>
    simp only
    cases abnt.PeekNameTypeRecord n "A" v with
    | none => rfl
    | some a =>
      simp only
      by_cases he : a.Equal d = true <;> by_cases hf : d.Force = true <;>
        by_cases hc : d.Created < a.Created <;> simp [he, hf, hc]

/-- Step 2 for a desired CNAME record, with the two age tests merged with the force test. -/
theorem reconcileDecision_CNAMERecord {en : List RecordIntent → List RecordIntent}
    {abnt : NestedRecordMap} {d : RecordIntent} {n v : String}
    (hr : d.Record = dns.Record.CNAMERecord n v) :
    reconcileDecision en abnt d =
      match abnt.PeekNameTypeRecords en n "A" with
      | a0 :: rest =>
        if d.Force = true ∨ ∀ ri ∈ a0 :: rest, d.Created < ri.Created then
          some (evictAll (a0 :: rest))
        else none
      | [] =>
        match abnt.PeekNameTypeRecords en n "CNAME" with
        | a0 :: rest =>
          if a0.Equal d = true then none
          else if d.Force = true ∨ d.Created < a0.Created then some (evictAll (a0 :: rest))
          else none
        | [] => some [] := by
  unfold reconcileDecision
  simp only [hr, dns.Record.GetName, dns.Record.GetValue]
  cases abnt.PeekNameTypeRecords en n "A" with
  | cons a0 rest =>
    simp only
    have hold := foldl_and_older d.Created (a0 :: rest) true
    simp only [true_and] at hold
    by_cases hf : d.Force = true
    · simp [hf]
    · by_cases hc : ∀ ri ∈ a0 :: rest, d.Created < ri.Created
      · rw [if_neg hf, if_pos (hold.2 hc), if_pos (Or.inr hc)]
      · rw [if_neg hf, if_neg (fun h => hc (hold.1 h)), if_neg (fun h => h.elim hf hc)]
  | nil =>
    simp only
    cases abnt.PeekNameTypeRecords en n "CNAME" with
    | nil => rfl
    | cons a0 rest =>
      simp only
      by_cases he : a0.Equal d = true <;> by_cases hf : d.Force = true <;>
        by_cases hc : d.Created < a0.Created <;> simp [he, hf, hc]

theorem reconcileDecision_OwnKeyed {en : List RecordIntent → List RecordIntent}
    {abnt : NestedRecordMap} {d : RecordIntent} {ev : IntentMap}
    (h : reconcileDecision en abnt d = some ev) : OwnKeyed ev := by
  cases hr : d.Record with
  | ARecord n v =>
    rw [reconcileDecision_ARecord hr] at h
    split at h
    · split at h
      · cases h; exact OwnKeyed_evictAll _
      · exact Option.noConfusion h
    · split at h
      · split at h
        · exact Option.noConfusion h
        · split at h
          · cases h; exact OwnKeyed_set OwnKeyed_nil _
          · exact Option.noConfusion h
      · cases h; exact OwnKeyed_nil
  | CNAMERecord n v =>
    rw [reconcileDecision_CNAMERecord hr] at h
    split at h
    · split at h
      · cases h; exact OwnKeyed_evictAll _
      · exact Option.noConfusion h
    · split at h
      · split at h
        · exact Option.noConfusion h
        · split at h
          · cases h; exact OwnKeyed_evictAll _
          · exact Option.noConfusion h
      · cases h; exact OwnKeyed_nil

theorem reconcileStep_OwnKeyed {en : List RecordIntent → List RecordIntent} (v : Validator)
    (actual : List RecordIntent) (abnt : NestedRecordMap) (st : PlanState) (d : RecordIntent)
    (h : OwnKeyed st.toRemoveMap) :
    OwnKeyed (reconcileStep en v actual abnt st d).toRemoveMap := by
  unfold reconcileStep
  split
  · exact h
  · rename_i ev hev
    split
    · exact OwnKeyed_merge h (reconcileDecision_OwnKeyed hev)
    · exact h

theorem reconcileLoop_OwnKeyed (o : IterOrder) (v : Validator) (actual : List RecordIntent)
    (abnt : NestedRecordMap) (ds : List RecordIntent) :
    ∀ (i : Nat) (st : PlanState), OwnKeyed st.toRemoveMap →
      OwnKeyed (reconcileLoop o v actual abnt i ds st).toRemoveMap := by
  induction ds with
  | nil => intro i st h; exact h
  | cons d rest ih =>
    intro i st h
    exact ih (i + 1) _ (reconcileStep_OwnKeyed v actual abnt st d h)

/-! ## Step 1 of `ReconcileAndValidate`: stale records -/

/-- What the first loop of `ReconcileAndValidate` leaves in `toRemoveMap`. -/
theorem staleStep_foldl_fst (ds : List String) (actual : List RecordIntent) :
    ∀ (st : IntentMap × NestedRecordMap) (kv : String × RecordIntent),
      kv ∈ (actual.foldl (staleStep ds) st).1 →
      kv ∈ st.1 ∨ (kv.2 ∈ actual ∧ kv.1 = kv.2.Key ∧ kv.1 ∉ ds) := by
  induction actual with
  | nil => intro st kv h; exact Or.inl h
  | cons a rest ih =>
    intro st kv h
    rcases ih _ kv h with h | ⟨h1, h2, h3⟩
    · unfold staleStep at h
      split at h
      · exact Or.inl h
      · rename_i hstale
        rcases (IntentMap.mem_set_iff st.1 a.Key a kv).1 h with ⟨h, _⟩ | rfl
        · exact Or.inl h
        · exact Or.inr ⟨List.mem_cons_self _ _, rfl, hstale⟩
    · exact Or.inr ⟨List.mem_cons_of_mem _ h1, h2, h3⟩

theorem staleStep_foldl_keys (ds : List String) (actual : List RecordIntent) :
    ∀ (st : IntentMap × NestedRecordMap) (k : String),
      k ∈ (actual.foldl (staleStep ds) st).1.keys ↔
      k ∈ st.1.keys ∨ ∃ a ∈ actual, a.Key ∉ ds ∧ a.Key = k := by
  induction actual with
  | nil => intro st k; simp
  | cons a rest ih =>
    intro st k
    simp only [List.foldl_cons, List.mem_cons]
    rw [ih]
    have hstep : k ∈ (staleStep ds st a).1.keys ↔ k ∈ st.1.keys ∨ (a.Key ∉ ds ∧ a.Key = k) := by
      unfold staleStep
      split
      · rename_i hin
        simp [hin]
      · rename_i hstale
        rw [IntentMap.mem_keys_set]
        simp only [hstale, not_false_eq_true, true_and]
        exact or_congr Iff.rfl eq_comm
    rw [hstep]
    constructor
    · rintro ((h | ⟨h1, h2⟩) | ⟨b, hb, h⟩)
      · exact Or.inl h
      · exact Or.inr ⟨a, Or.inl rfl, h1, h2⟩
      · exact Or.inr ⟨b, Or.inr hb, h⟩
    · rintro (h | ⟨b, rfl | hb, h⟩)
      · exact Or.inl (Or.inl h)
      · exact Or.inl (Or.inr h)
      · exact Or.inr ⟨b, hb, h⟩

theorem staleAndIndex_OwnKeyed (desired actual : List RecordIntent) :
    OwnKeyed (staleAndIndex desired actual).1 := by
  intro kv h
  rcases staleStep_foldl_fst _ actual _ kv h with h | ⟨_, h, _⟩
  · exact absurd h (List.not_mem_nil _)
  · exact h

theorem mem_keys_staleAndIndex (desired actual : List RecordIntent) (k : String) :
    k ∈ (staleAndIndex desired actual).1.keys ↔
      ∃ a ∈ actual, a.Key ∉ desired.map RecordIntent.Key ∧ a.Key = k := by
  unfold staleAndIndex
  rw [staleStep_foldl_keys]
  simp [IntentMap.keys]

theorem reconcileFinal_OwnKeyed (o : IterOrder) (v : Validator)
    (desired actual : List RecordIntent) :
    OwnKeyed (reconcileFinal o v desired actual).toRemoveMap :=
  reconcileLoop_OwnKeyed o v actual _ desired 0 _ (staleAndIndex_OwnKeyed desired actual)

theorem mem_toRemove_iff (o : IterOrder) (v : Validator) (desired actual : List RecordIntent)
    (r : RecordIntent) :
    r ∈ (ReconcileAndValidate o v desired actual).2 ↔
      (r.Key, r) ∈ (reconcileFinal o v desired actual).toRemoveMap := by
  simp only [ReconcileAndValidate, IterOrder.mem_enum, IntentMap.mem_values_iff]
  constructor
  · rintro ⟨k, hk⟩
    have := reconcileFinal_OwnKeyed o v desired actual _ hk
    simp only at this
    rw [← this]; exact hk
  · intro h; exact ⟨_, h⟩

theorem exists_toRemove_of_key (o : IterOrder) (v : Validator) (desired actual : List RecordIntent)
    (k : String) (h : k ∈ (reconcileFinal o v desired actual).toRemoveMap.keys) :
    ∃ r ∈ (ReconcileAndValidate o v desired actual).2, r.Key = k := by
  obtain ⟨x, hx⟩ := (IntentMap.mem_keys_iff _ k).1 h
  have hk := reconcileFinal_OwnKeyed o v desired actual _ hx
  simp only at hk
  refine ⟨x, ?_, hk.symm⟩
  rw [mem_toRemove_iff, ← hk]
  exact hx

/-- C3: every actual intent whose key is the key of no desired intent has its
key in `toRemove`, for every validator; with no desired intent at all, `toAdd`
is empty and `toRemove` covers every actual key. -/
theorem stale_actual_is_removed (o : IterOrder) (v : Validator)
    (desired actual : List RecordIntent) :
    (∀ a ∈ actual, (∀ d ∈ desired, d.Key ≠ a.Key) →
        ∃ r ∈ (ReconcileAndValidate o v desired actual).2, r.Key = a.Key) ∧
      ((ReconcileAndValidate o v [] actual).1 = [] ∧
        ∀ a ∈ actual, ∃ r ∈ (ReconcileAndValidate o v [] actual).2, r.Key = a.Key) := by
  have main : ∀ (desired : List RecordIntent), ∀ a ∈ actual, (∀ d ∈ desired, d.Key ≠ a.Key) →
      ∃ r ∈ (ReconcileAndValidate o v desired actual).2, r.Key = a.Key := by
    intro desired a ha hstale
    apply exists_toRemove_of_key
    apply reconcileLoop_keys_mono
    rw [mem_keys_staleAndIndex]
    refine ⟨a, ha, ?_, rfl⟩
    simp only [List.mem_map, not_exists, not_and]
    exact hstale
  refine ⟨main desired, ?_, ?_⟩
  · simp [ReconcileAndValidate, reconcileFinal, reconcileLoop, IntentMap.values,
      IterOrder.enum_nil]
  · intro a ha
    exact main [] a ha (fun d hd => absurd hd (List.not_mem_nil _))

/-- Witness for C3, scenario "basic stale": with nothing desired, the actual A
at `api.x` has its key in `toRemove`. -/
theorem stale_actual_is_removed_witness :
    ∃ r ∈ (ReconcileAndValidate IterOrder.insertion acceptAll []
        [sampleA "api.x" "10.0.0.1" "c1" 1 false]).2,
      r.Key = (sampleA "api.x" "10.0.0.1" "c1" 1 false).Key :=
  (stale_actual_is_removed IterOrder.insertion acceptAll []
    [sampleA "api.x" "10.0.0.1" "c1" 1 false]).2.2 _ (by decide)

/-! ## Conflict-free desired lists -/

theorem Record_eq_of_parts {r s : dns.Record} (ht : r.GetType = s.GetType)
    (hn : r.GetName = s.GetName) (hv : r.GetValue = s.GetValue) : r = s := by
  cases r <;> cases s <;>
    simp_all [dns.Record.GetType, dns.Record.GetName, dns.Record.GetValue]

theorem staleStep_foldl_snd (ds : List String) (actual : List RecordIntent) :
    ∀ (st : IntentMap × NestedRecordMap) (e : Leaf),
      e ∈ (actual.foldl (staleStep ds) st).2 →
      e ∈ st.2 ∨ (e.intent ∈ actual ∧ e.intent.Key ∈ ds ∧
        e.name = e.intent.Record.GetName ∧ e.recordType = e.intent.Record.GetType ∧
        e.value = e.intent.Record.GetValue) := by
  induction actual with
  | nil => intro st e h; exact Or.inl h
  | cons a rest ih =>
    intro st e h
    rcases ih _ e h with h | ⟨h1, h2⟩
    · unfold staleStep at h
      split at h
      · rename_i hin
        rcases (mem_Set_iff _ _ _ _ _ e).1 h with ⟨h, _⟩ | rfl
        · exact Or.inl h
        · exact Or.inr ⟨List.mem_cons_self _ _, hin, rfl, rfl, rfl⟩
      · exact Or.inl h
    · exact Or.inr ⟨List.mem_cons_of_mem _ h1, h2⟩

/-- What the first loop of `ReconcileAndValidate` indexes: actual intents whose
key is a desired key, each under its own name, type and value. -/
theorem mem_index (desired actual : List RecordIntent) (e : Leaf)
    (h : e ∈ (staleAndIndex desired actual).2) :
    e.intent ∈ actual ∧ (∃ d ∈ desired, d.Key = e.intent.Key) ∧
      e.name = e.intent.Record.GetName ∧ e.recordType = e.intent.Record.GetType ∧
      e.value = e.intent.Record.GetValue := by
  rcases staleStep_foldl_snd _ actual _ e h with h | ⟨h1, h2, h3⟩
  · exact absurd h (List.not_mem_nil _)
  · exact ⟨h1, by simpa using h2, h3⟩

/-- A leaf of the index at the name of a desired intent of a conflict-free
list holds the record of that desired intent, when the leaf has its type and
value (for an A) or just its type (for a CNAME); no leaf of the other type
exists at that name. -/
theorem index_leaf_at_desired {desired actual : List RecordIntent}
    (hcf : ConflictFree desired) (hkf : KeysFaithful (desired ++ actual))
    {d : RecordIntent} (hd : d ∈ desired) {e : Leaf}
    (he : e ∈ (staleAndIndex desired actual).2) (hname : e.name = d.Record.GetName) :
    e.recordType = d.Record.GetType ∧
      (e.recordType = "CNAME" ∨ e.value = d.Record.GetValue → e.intent.Record = d.Record) := by
  obtain ⟨hact, ⟨d2, hd2, hkey⟩, hn, ht, hv⟩ := mem_index desired actual e he
  have hrec : d2.Record = e.intent.Record :=
    hkf d2 (List.mem_append_left _ hd2) e.intent (List.mem_append_right _ hact) hkey
  have hn2 : d2.Record.GetName = d.Record.GetName := by rw [hrec, ← hn, hname]
  have ht2 : e.recordType = d2.Record.GetType := by rw [hrec, ht]
  have htype : d2.Record.GetType = d.Record.GetType := by
    rcases GetType_cases d2.Record with ⟨h2, _⟩ | ⟨h2, _⟩ <;>
      rcases GetType_cases d.Record with ⟨h1, _⟩ | ⟨h1, _⟩
    · rw [h1, h2]
    · exact absurd hn2 (hcf.2.1 d2 hd2 d hd h2 h1)
    · exact absurd hn2.symm (hcf.2.1 d hd d2 hd2 h1 h2)
    · rw [h1, h2]
  refine ⟨ht2.trans htype, ?_⟩
  rintro (hc | hval)
  · have h2c : d2.Record.GetType = "CNAME" := by rw [← ht2]; exact hc
    have : d2 = d := hcf.2.2 d2 hd2 d hd h2c (htype ▸ h2c) hn2
    rw [← hrec, this]
  · rw [← hrec]
    exact Record_eq_of_parts htype hn2 (by rw [hrec, ← hv, hval])

theorem Key_eq_of_Record_eq {x y : RecordIntent} (h : x.Record = y.Record) : x.Key = y.Key := by
  unfold RecordIntent.Key; rw [h]

/-- For a conflict-free desired list, a desired intent only proposes to evict
actual intents that hold its own record. -/
theorem reconcileDecision_evicts_own {desired actual : List RecordIntent}
    (hcf : ConflictFree desired) (hkf : KeysFaithful (desired ++ actual))
    {en : List RecordIntent → List RecordIntent} (hen : ∀ l, (en l).Perm l)
    {d : RecordIntent} (hd : d ∈ desired) {ev : IntentMap}
    (h : reconcileDecision en (staleAndIndex desired actual).2 d = some ev) :
    ∀ kv ∈ ev, kv.1 = d.Key ∧ kv.2.Record = d.Record ∧ kv.2 ∈ actual := by
  have hleaf : ∀ (t : String) (x : RecordIntent),
      x ∈ NestedRecordMap.PeekNameTypeRecords en (staleAndIndex desired actual).2
        d.Record.GetName t →
      t = d.Record.GetType ∧ (t = "CNAME" → x.Record = d.Record) ∧ x ∈ actual := by
    intro t x hx
    obtain ⟨e, he, hat, rfl⟩ := (mem_PeekNameTypeRecords_iff hen _ _ _ x).1 hx
    have h1 := index_leaf_at_desired hcf hkf hd he hat.1
    have h2 := mem_index desired actual e he
    exact ⟨hat.2.symm.trans h1.1, fun hc => h1.2 (Or.inl (hat.2.trans hc)), h2.1⟩
  cases hr : d.Record with
  | ARecord n v =>
    have hn : d.Record.GetName = n := by rw [hr]; rfl
    have ht : d.Record.GetType = "A" := by rw [hr]; rfl
    have hv : d.Record.GetValue = v := by rw [hr]; rfl
    rw [reconcileDecision_ARecord hr] at h
    split at h
    · rename_i a0 rest hp
      have := (hleaf "CNAME" a0 (by rw [hn, hp]; exact List.mem_cons_self _ _)).1
      rw [ht] at this
      exact absurd this (by decide)
    · split at h
      · rename_i a hp
        obtain ⟨e, he, hat, rfl⟩ := PeekNameTypeRecord_eq_some hp
        have h1 := index_leaf_at_desired hcf hkf hd he (hat.1.trans hn.symm)
        have hrec : e.intent.Record = d.Record := h1.2 (Or.inr (hat.2.2.trans hv.symm))
        have hact := (mem_index desired actual e he).1
        split at h
        · exact Option.noConfusion h
        · split at h
          · cases h
            intro kv hkv
            rcases (IntentMap.mem_set_iff [] _ _ kv).1 hkv with ⟨hkv, _⟩ | rfl
            · exact absurd hkv (List.not_mem_nil _)
            · exact ⟨Key_eq_of_Record_eq hrec, hrec.trans hr, hact⟩
          · exact Option.noConfusion h
      · cases h
        intro kv hkv; exact absurd hkv (List.not_mem_nil _)
  | CNAMERecord n v =>
    have hn : d.Record.GetName = n := by rw [hr]; rfl
    have ht : d.Record.GetType = "CNAME" := by rw [hr]; rfl
    rw [reconcileDecision_CNAMERecord hr] at h
    split at h
    · rename_i a0 rest hp
      have := (hleaf "A" a0 (by rw [hn, hp]; exact List.mem_cons_self _ _)).1
      rw [ht] at this
      exact absurd this (by decide)
    · split at h
      · rename_i a0 rest hp
        split at h
        · exact Option.noConfusion h
        · split at h
          · cases h
            intro kv hkv
            obtain ⟨hmem, hkey⟩ := mem_evictAll hkv
            have hx := hleaf "CNAME" kv.2 (by rw [hn, hp]; exact hmem)
            exact ⟨hkey.trans (Key_eq_of_Record_eq (hx.2.1 rfl)), (hx.2.1 rfl).trans hr, hx.2.2⟩
          · exact Option.noConfusion h
      · cases h
        intro kv hkv; exact absurd hkv (List.not_mem_nil _)

theorem reconcileLoop_append (o : IterOrder) (v : Validator) (actual : List RecordIntent)
    (abnt : NestedRecordMap) (l1 l2 : List RecordIntent) :
    ∀ (i : Nat) (st : PlanState),
      reconcileLoop o v actual abnt i (l1 ++ l2) st =
        reconcileLoop o v actual abnt (i + l1.length) l2 (reconcileLoop o v actual abnt i l1 st) := by
  induction l1 with
  | nil => intro i st; rfl
  | cons a rest ih =>
    intro i st
    show reconcileLoop o v actual abnt (i + 1) (rest ++ l2)
        (reconcileStep (o.enum i) v actual abnt st a) =
      reconcileLoop o v actual abnt (i + (rest.length + 1)) l2
        (reconcileLoop o v actual abnt (i + 1) rest (reconcileStep (o.enum i) v actual abnt st a))
    rw [ih, show i + 1 + rest.length = i + (rest.length + 1) by omega]

/-- One step of the second loop adds at most the keys of the evictions to
`toRemoveMap` and at most the key of the desired intent to `toAddMap`. -/
theorem reconcileStep_keys_bound {en : List RecordIntent → List RecordIntent} (v : Validator)
    (actual : List RecordIntent) (abnt : NestedRecordMap) (st : PlanState) (d : RecordIntent)
    (hown : ∀ ev, reconcileDecision en abnt d = some ev → ∀ kv ∈ ev, kv.1 = d.Key) (k : String) :
    (k ∈ (reconcileStep en v actual abnt st d).toRemoveMap.keys →
        k ∈ st.toRemoveMap.keys ∨ k = d.Key) ∧
      (k ∈ (reconcileStep en v actual abnt st d).toAddMap.keys →
        k ∈ st.toAddMap.keys ∨ k = d.Key) := by
  unfold reconcileStep
  split
  · exact ⟨Or.inl, Or.inl⟩
  · rename_i ev hev
    split
    · constructor
      · intro h
        rcases (IntentMap.mem_keys_merge _ _ k).1 h with h | h
        · exact Or.inl h
        · obtain ⟨x, hx⟩ := (IntentMap.mem_keys_iff _ k).1 h
          exact Or.inr (hown ev hev _ hx)
      · intro h
        rcases (IntentMap.mem_keys_set _ _ _ k).1 h with h | h
        · exact Or.inl h
        · exact Or.inr h
    · exact ⟨Or.inl, Or.inl⟩

theorem reconcileLoop_keys_bound (o : IterOrder) (v : Validator) (actual : List RecordIntent)
    (abnt : NestedRecordMap) (ds : List RecordIntent)
    (hown : ∀ d ∈ ds, ∀ i ev, reconcileDecision (o.enum i) abnt d = some ev →
      ∀ kv ∈ ev, kv.1 = d.Key) :
    ∀ (i : Nat) (st : PlanState) (k : String),
      (k ∈ (reconcileLoop o v actual abnt i ds st).toRemoveMap.keys →
          k ∈ st.toRemoveMap.keys ∨ ∃ d ∈ ds, d.Key = k) ∧
        (k ∈ (reconcileLoop o v actual abnt i ds st).toAddMap.keys →
          k ∈ st.toAddMap.keys ∨ ∃ d ∈ ds, d.Key = k) := by
  induction ds with
  | nil => intro i st k; exact ⟨Or.inl, Or.inl⟩
  | cons d rest ih =>
    intro i st k
    have hrest := ih (fun d hd => hown d (List.mem_cons_of_mem _ hd)) (i + 1)
      (reconcileStep (o.enum i) v actual abnt st d) k
    have hstep := reconcileStep_keys_bound v actual abnt st d
      (hown d (List.mem_cons_self _ _) i) k
    constructor
    · intro h
      rcases hrest.1 h with h | ⟨x, hx, h⟩
      · rcases hstep.1 h with h | h
        · exact Or.inl h
        · exact Or.inr ⟨d, List.mem_cons_self _ _, h.symm⟩
      · exact Or.inr ⟨x, List.mem_cons_of_mem _ hx, h⟩
    · intro h
      rcases hrest.2 h with h | ⟨x, hx, h⟩
      · rcases hstep.2 h with h | h
        · exact Or.inl h
        · exact Or.inr ⟨d, List.mem_cons_self _ _, h.symm⟩
      · exact Or.inr ⟨x, List.mem_cons_of_mem _ hx, h⟩

/-- Every entry of `toAddMap` is a desired intent stored under its own key. -/
theorem reconcileLoop_toAdd_own (o : IterOrder) (v : Validator) (actual : List RecordIntent)
    (abnt : NestedRecordMap) (ds : List RecordIntent) :
    ∀ (i : Nat) (st : PlanState) (kv : String × RecordIntent),
      kv ∈ (reconcileLoop o v actual abnt i ds st).toAddMap →
      kv ∈ st.toAddMap ∨ (kv.2 ∈ ds ∧ kv.1 = kv.2.Key) := by
  induction ds with
  | nil => intro i st kv h; exact Or.inl h
  | cons d rest ih =>
    intro i st kv h
    rcases ih (i + 1) _ kv h with h | ⟨h1, h2⟩
    · unfold reconcileStep at h
      split at h
      · exact Or.inl h
      · split at h
        · rcases (IntentMap.mem_set_iff _ _ _ kv).1 h with ⟨h, _⟩ | rfl
          · exact Or.inl h
          · exact Or.inr ⟨List.mem_cons_self _ _, rfl⟩
        · exact Or.inl h
    · exact Or.inr ⟨List.mem_cons_of_mem _ h1, h2⟩

theorem mem_toAdd_iff (o : IterOrder) (v : Validator) (desired actual : List RecordIntent)
    (x : RecordIntent) :
    x ∈ (ReconcileAndValidate o v desired actual).1 ↔
      (x.Key, x) ∈ (reconcileFinal o v desired actual).toAddMap := by
  simp only [ReconcileAndValidate, IterOrder.mem_enum, IntentMap.mem_values_iff]
  constructor
  · rintro ⟨k, hk⟩
    rcases reconcileLoop_toAdd_own o v actual _ desired 0 _ _ hk with h | ⟨_, h⟩
    · exact absurd h (List.not_mem_nil _)
    · simp only at h
      rw [← h]; exact hk
  · intro h; exact ⟨_, h⟩

/-- The state of the second loop after an iteration that is not committed
(a `continue` or a rejected validation) is the state before it. -/
theorem reconcileStep_of_not_accepted {en : List RecordIntent → List RecordIntent}
    (v : Validator) (actual : List RecordIntent) (abnt : NestedRecordMap) (st : PlanState)
    (d : RecordIntent)
    (h : ∀ ev, reconcileDecision en abnt d = some ev →
      v d (simulate actual st.toRemoveMap ev) = false) :
    reconcileStep en v actual abnt st d = st := by
  unfold reconcileStep
  split
  · rfl
  · rename_i ev hev
    rw [h ev hev]
    rfl

/-- For a conflict-free desired list, an iteration of the second loop that is
not committed leaves the key of its desired intent out of both maps. -/
theorem reconcileFinal_keys_of_not_accepted (o : IterOrder) (v : Validator)
    (pre post actual : List RecordIntent) (d : RecordIntent)
    (hcf : ConflictFree (pre ++ d :: post))
    (hkf : KeysFaithful ((pre ++ d :: post) ++ actual))
    (h : ∀ ev, reconcileDecision (o.enum pre.length)
        (staleAndIndex (pre ++ d :: post) actual).2 d = some ev →
      v d (simulate actual
        (reconcileLoop o v actual (staleAndIndex (pre ++ d :: post) actual).2 0 pre
          ⟨[], (staleAndIndex (pre ++ d :: post) actual).1⟩).toRemoveMap ev) = false) :
    d.Key ∉ (reconcileFinal o v (pre ++ d :: post) actual).toRemoveMap.keys ∧
      d.Key ∉ (reconcileFinal o v (pre ++ d :: post) actual).toAddMap.keys := by
  have hfinal : reconcileFinal o v (pre ++ d :: post) actual =
      reconcileLoop o v actual (staleAndIndex (pre ++ d :: post) actual).2 (pre.length + 1) post
        (reconcileLoop o v actual (staleAndIndex (pre ++ d :: post) actual).2 0 pre
          ⟨[], (staleAndIndex (pre ++ d :: post) actual).1⟩) := by
    unfold reconcileFinal
    rw [reconcileLoop_append]
    simp only [reconcileLoop, Nat.zero_add]
    rw [reconcileStep_of_not_accepted v actual _ _ d h]
  have hown : ∀ x ∈ pre ++ d :: post, ∀ i ev,
      reconcileDecision (o.enum i) (staleAndIndex (pre ++ d :: post) actual).2 x = some ev →
      ∀ kv ∈ ev, kv.1 = x.Key :=
    fun x hx i ev hev kv hkv => (reconcileDecision_evicts_own hcf hkf (o.perm i) hx hev kv hkv).1
  have hpre := reconcileLoop_keys_bound o v actual (staleAndIndex (pre ++ d :: post) actual).2 pre
    (fun x hx => hown x (List.mem_append_left _ hx)) 0
    ⟨[], (staleAndIndex (pre ++ d :: post) actual).1⟩ d.Key
  have hpost := reconcileLoop_keys_bound o v actual (staleAndIndex (pre ++ d :: post) actual).2
    post (fun x hx => hown x (List.mem_append_right _ (List.mem_cons_of_mem _ hx)))
    (pre.length + 1)
    (reconcileLoop o v actual (staleAndIndex (pre ++ d :: post) actual).2 0 pre
      ⟨[], (staleAndIndex (pre ++ d :: post) actual).1⟩) d.Key
  have hnodup := hcf.1
  rw [List.map_append, List.map_cons, List.nodup_append] at hnodup
  obtain ⟨_, hnd, hdisj⟩ := hnodup
  have hnotpre : ¬ ∃ x ∈ pre, x.Key = d.Key := by
    rintro ⟨x, hx, hk⟩
    exact hdisj (List.mem_map_of_mem _ hx) (by rw [hk]; exact List.mem_cons_self _ _)
  have hnotpost : ¬ ∃ x ∈ post, x.Key = d.Key := by
    rintro ⟨x, hx, hk⟩
    exact (List.nodup_cons.1 hnd).1 (by rw [← hk]; exact List.mem_map_of_mem _ hx)
  have hnotstale : d.Key ∉ (staleAndIndex (pre ++ d :: post) actual).1.keys := by
    rw [mem_keys_staleAndIndex]
    rintro ⟨a, _, hno, hk⟩
    apply hno
    rw [hk]
    exact List.mem_map_of_mem _ (List.mem_append_right _ (List.mem_cons_self _ _))
  rw [hfinal]
  constructor
  · intro hk
    rcases hpost.1 hk with hk | hk
    · rcases hpre.1 hk with hk | hk
      · exact hnotstale hk
      · exact hnotpre hk
    · exact hnotpost hk
  · intro hk
    rcases hpost.2 hk with hk | hk
    · rcases hpre.2 hk with hk | hk
      · exact absurd hk (List.not_mem_nil _)
      · exact hnotpre hk
    · exact hnotpost hk

/-- C4: for a conflict-free desired list whose keys identify records, when the
validator rejects the desired intent `d` (number `i` of the list) on the
simulated set built for it, `toAdd` holds no intent with the key of `d`,
`toRemove` holds no intent with the key of `d`, and none of the actual intents
`d` proposed to evict is in `toRemove`. -/
theorem rejected_desired_commits_nothing (o : IterOrder) (v : Validator)
    (desired actual : List RecordIntent) (i : Nat) (d : RecordIntent)
    (hcf : ConflictFree desired) (hkf : KeysFaithful (desired ++ actual))
    (hd : desired[i]? = some d) (hrej : validationAt o v desired actual i = some false) :
    (∀ x ∈ (ReconcileAndValidate o v desired actual).1, x.Key ≠ d.Key) ∧
      (∀ r ∈ (ReconcileAndValidate o v desired actual).2, r.Key ≠ d.Key) ∧
      (∀ ev, reconcileDecision (o.enum i) (staleAndIndex desired actual).2 d = some ev →
        ∀ kv ∈ ev, kv.2 ∉ (ReconcileAndValidate o v desired actual).2) := by
  obtain ⟨hi, hget⟩ := List.getElem?_eq_some_iff.1 hd
  have hsplit : desired = desired.take i ++ d :: desired.drop (i + 1) := by
    rw [← hget, ← List.drop_eq_getElem_cons hi, List.take_append_drop]
  have hlen : (desired.take i).length = i := by
    rw [List.length_take]; omega
  have hstep : ∀ ev, reconcileDecision (o.enum i) (staleAndIndex desired actual).2 d = some ev →
      v d (simulate actual
        (reconcileLoop o v actual (staleAndIndex desired actual).2 0 (desired.take i)
          ⟨[], (staleAndIndex desired actual).1⟩).toRemoveMap ev) = false := by
    intro ev hev
    unfold validationAt at hrej
    rw [hd] at hrej
    simp only [hev, Option.some.injEq] at hrej
    exact hrej
  have hkeys : d.Key ∉ (reconcileFinal o v desired actual).toRemoveMap.keys ∧
      d.Key ∉ (reconcileFinal o v desired actual).toAddMap.keys := by
    have := reconcileFinal_keys_of_not_accepted o v (desired.take i) (desired.drop (i + 1))
      actual d (hsplit ▸ hcf) (hsplit ▸ hkf) (by rw [hlen, ← hsplit]; exact hstep)
    rw [← hsplit] at this
    exact this
  have hrem : ∀ r ∈ (ReconcileAndValidate o v desired actual).2, r.Key ≠ d.Key := by
    intro r hr hk
    rw [mem_toRemove_iff] at hr
    exact hkeys.1 ((IntentMap.mem_keys_iff _ _).2 ⟨r, hk ▸ hr⟩)
  refine ⟨?_, hrem, ?_⟩
  · intro x hx hk
    rw [mem_toAdd_iff] at hx
    exact hkeys.2 ((IntentMap.mem_keys_iff _ _).2 ⟨x, hk ▸ hx⟩)
  · intro ev hev kv hkv hmem
    have hdmem : d ∈ desired := hget ▸ List.getElem_mem hi
    have h1 := reconcileDecision_evicts_own hcf hkf (o.perm i) hdmem hev kv hkv
    exact hrem kv.2 hmem (Key_eq_of_Record_eq h1.2.1)

/-! ## Keys and records -/

theorem append_cons_cancel {c : Char} :
    ∀ (l1 l2 r1 r2 : List Char), c ∉ l1 → c ∉ l2 → l1 ++ c :: r1 = l2 ++ c :: r2 →
      l1 = l2 ∧ r1 = r2 := by
  intro l1
  induction l1 with
  | nil =>
    intro l2 r1 r2 _ h2 h
    cases l2 with
    | nil => simpa using h
    | cons b l2 =>
      simp only [List.nil_append, List.cons_append, List.cons.injEq] at h
      exact absurd (h.1 ▸ List.mem_cons_self _ _) h2
  | cons a l1 ih =>
    intro l2 r1 r2 h1 h2 h
    cases l2 with
    | nil =>
      simp only [List.nil_append, List.cons_append, List.cons.injEq] at h
      exact absurd (h.1 ▸ List.mem_cons_self _ _) h1
    | cons b l2 =>
      simp only [List.cons_append, List.cons.injEq] at h
      obtain ⟨h3, h4⟩ := ih l2 r1 r2 (fun hc => h1 (List.mem_cons_of_mem _ hc))
        (fun hc => h2 (List.mem_cons_of_mem _ hc)) h.2
      exact ⟨by rw [h.1, h3], h4⟩

/-- The key `"<type>:<name>:<value>"` determines the record when the names
hold no colon. -/
theorem Record_eq_of_Key_eq {r s : dns.Record} (hr : ':' ∉ r.GetName.data)
    (hs : ':' ∉ s.GetName.data) (h : r.Key = s.Key) : r = s := by
  have hd := congrArg String.data h
  simp only [dns.Record.Key, String.data_append] at hd
  cases r with
  | ARecord n v =>
    cases s with
    | ARecord n2 v2 =>
      simp only [dns.Record.GetType, dns.Record.GetName, dns.Record.GetValue] at hd hr hs
      have h1 : n.data ++ ':' :: v.data = n2.data ++ ':' :: v2.data := by
        simpa using hd
      obtain ⟨h2, h3⟩ := append_cons_cancel _ _ _ _ hr hs h1
      rw [String.ext h2, String.ext h3]
    | CNAMERecord n2 v2 =>
      simp [dns.Record.GetType] at hd
  | CNAMERecord n v =>
    cases s with
    | ARecord n2 v2 =>
      simp [dns.Record.GetType] at hd
    | CNAMERecord n2 v2 =>
      simp only [dns.Record.GetType, dns.Record.GetName, dns.Record.GetValue] at hd hr hs
      have h1 : n.data ++ ':' :: v.data = n2.data ++ ':' :: v2.data := by
        simpa using hd
      obtain ⟨h2, h3⟩ := append_cons_cancel _ _ _ _ hr hs h1
      rw [String.ext h2, String.ext h3]

/-- Keys identify records on every list of intents whose names hold no colon. -/
theorem KeysFaithful_of_names_without_colon (l : List RecordIntent)
    (h : ∀ x ∈ l, ':' ∉ x.Record.GetName.data) : KeysFaithful l :=
  fun x hx y hy hk => Record_eq_of_Key_eq (h x hx) (h y hy) hk

/-- Keys never confuse an A record with a CNAME record. -/
theorem Key_ne_of_GetType_ne {r s : dns.Record} (h : r.GetType ≠ s.GetType) : r.Key ≠ s.Key := by
  intro hk
  have hd := congrArg String.data hk
  simp only [dns.Record.Key, String.data_append] at hd
  cases r <;> cases s <;> simp [dns.Record.GetType] at hd h

/-- Witness for C4: the validator rejects the desired A at `api.x`, which
proposed to evict the younger actual A at `api.x`, and accepts the desired A at
`web.x`; the plan adds and evicts at `web.x` only. -/
theorem rejected_desired_commits_nothing_witness :
    validationAt IterOrder.insertion (rejectName "api.x")
        [sampleA "api.x" "10.0.0.1" "c1" 1 false, sampleA "web.x" "10.0.0.2" "c1" 1 false]
        [sampleA "api.x" "10.0.0.1" "c2" 5 false, sampleA "web.x" "10.0.0.2" "c2" 5 false]
        0 = some false ∧
      ReconcileAndValidate IterOrder.insertion (rejectName "api.x")
        [sampleA "api.x" "10.0.0.1" "c1" 1 false, sampleA "web.x" "10.0.0.2" "c1" 1 false]
        [sampleA "api.x" "10.0.0.1" "c2" 5 false, sampleA "web.x" "10.0.0.2" "c2" 5 false] =
        ([sampleA "web.x" "10.0.0.2" "c1" 1 false], [sampleA "web.x" "10.0.0.2" "c2" 5 false]) ∧
      ((∀ x ∈ (ReconcileAndValidate IterOrder.insertion (rejectName "api.x")
          [sampleA "api.x" "10.0.0.1" "c1" 1 false, sampleA "web.x" "10.0.0.2" "c1" 1 false]
          [sampleA "api.x" "10.0.0.1" "c2" 5 false, sampleA "web.x" "10.0.0.2" "c2" 5 false]).1,
          x.Key ≠ (sampleA "api.x" "10.0.0.1" "c1" 1 false).Key) ∧
        (∀ r ∈ (ReconcileAndValidate IterOrder.insertion (rejectName "api.x")
          [sampleA "api.x" "10.0.0.1" "c1" 1 false, sampleA "web.x" "10.0.0.2" "c1" 1 false]
          [sampleA "api.x" "10.0.0.1" "c2" 5 false, sampleA "web.x" "10.0.0.2" "c2" 5 false]).2,
          r.Key ≠ (sampleA "api.x" "10.0.0.1" "c1" 1 false).Key) ∧
        (∀ ev, reconcileDecision (IterOrder.insertion.enum 0)
            (staleAndIndex
              [sampleA "api.x" "10.0.0.1" "c1" 1 false, sampleA "web.x" "10.0.0.2" "c1" 1 false]
              [sampleA "api.x" "10.0.0.1" "c2" 5 false,
                sampleA "web.x" "10.0.0.2" "c2" 5 false]).2
            (sampleA "api.x" "10.0.0.1" "c1" 1 false) = some ev →
          ∀ kv ∈ ev, kv.2 ∉ (ReconcileAndValidate IterOrder.insertion (rejectName "api.x")
            [sampleA "api.x" "10.0.0.1" "c1" 1 false, sampleA "web.x" "10.0.0.2" "c1" 1 false]
            [sampleA "api.x" "10.0.0.1" "c2" 5 false,
              sampleA "web.x" "10.0.0.2" "c2" 5 false]).2)) :=
  ⟨by decide, by decide,
    rejected_desired_commits_nothing IterOrder.insertion (rejectName "api.x")
      [sampleA "api.x" "10.0.0.1" "c1" 1 false, sampleA "web.x" "10.0.0.2" "c1" 1 false]
      [sampleA "api.x" "10.0.0.1" "c2" 5 false, sampleA "web.x" "10.0.0.2" "c2" 5 false]
      0 (sampleA "api.x" "10.0.0.1" "c1" 1 false) (by decide) (by decide) (by decide)
      (by decide)⟩

/-! ## A desired record against a stale conflicting record -/

theorem PeekNameTypeRecords_empty (o : IterOrder) (i : Nat) (n t : String) :
    NestedRecordMap.PeekNameTypeRecords (o.enum i) [] n t = [] := by
  simp [NestedRecordMap.PeekNameTypeRecords, IterOrder.enum_nil]

/-- With an empty index, step 2 finds no conflict and proposes no eviction. -/
theorem reconcileDecision_empty_index (o : IterOrder) (i : Nat) (d : RecordIntent) :
    reconcileDecision (o.enum i) [] d = some [] := by
  cases hr : d.Record with
  | ARecord n v =>
    rw [reconcileDecision_ARecord hr, PeekNameTypeRecords_empty]
    rfl
  | CNAMERecord n v =>
    rw [reconcileDecision_CNAMERecord hr, PeekNameTypeRecords_empty, PeekNameTypeRecords_empty]

/-- Counterexample to C5: the validator rejects the desired A at `api.x`, and
the actual CNAME at `api.x` is in `toRemove` all the same. -/
theorem conflicting_CNAME_removed_despite_rejection :
    sampleCNAME "api.x" "svc.y" "c2" 5 false ∈
      (ReconcileAndValidate IterOrder.insertion rejectAll
        [sampleA "api.x" "10.0.0.1" "c1" 1 false]
        [sampleCNAME "api.x" "svc.y" "c2" 5 false]).2 := by
  decide

/-- C5, amended: for an A intent `d` that the validator rejects (on the empty
simulated set the reconciler builds for it) and a CNAME intent `c` of the same
DNS name, `ReconcileAndValidate [d] [c]` adds nothing and removes `c`: the key
of `c` is not a desired key, so step 1 removes it as a stale record before any
validation. -/
theorem conflicting_CNAME_is_stale (o : IterOrder) (v : Validator) (d c : RecordIntent)
    (hd : d.Record.GetType = "A") (hc : c.Record.GetType = "CNAME")
    (_hname : d.Record.GetName = c.Record.GetName) (hrej : v d [] = false) :
    ReconcileAndValidate o v [d] [c] = ([], [c]) := by
  have hne : c.Key ≠ d.Key :=
    Key_ne_of_GetType_ne (by rw [hd, hc]; decide)
  have hstale : staleAndIndex [d] [c] = ([(c.Key, c)], []) := by
    simp [staleAndIndex, staleStep, hne, IntentMap.set, NewNestedRecordMap]
  have hsim : simulate [c] [(c.Key, c)] [] = [] := by
    simp [simulate, IntentMap.keys]
  have hfinal : reconcileFinal o v [d] [c] = ⟨[], [(c.Key, c)]⟩ := by
    simp only [reconcileFinal, hstale, reconcileLoop, reconcileStep,
      reconcileDecision_empty_index, hsim, hrej]
    rfl
  simp only [ReconcileAndValidate, hfinal, IntentMap.values, List.map_nil, List.map_cons,
    IterOrder.enum_nil, IterOrder.enum_singleton]

/-- Witness for the amended C5, at the input of the counterexample. -/
theorem conflicting_CNAME_is_stale_witness :
    ReconcileAndValidate IterOrder.insertion rejectAll
        [sampleA "api.x" "10.0.0.1" "c1" 1 false]
        [sampleCNAME "api.x" "svc.y" "c2" 5 false] =
      ([], [sampleCNAME "api.x" "svc.y" "c2" 5 false]) :=
  conflicting_CNAME_is_stale IterOrder.insertion rejectAll
    (sampleA "api.x" "10.0.0.1" "c1" 1 false) (sampleCNAME "api.x" "svc.y" "c2" 5 false)
    (by decide) (by decide) (by decide) (by decide)

/-! ## Reconcile idempotence -/

theorem PeekNameTypeRecord_Set (m : NestedRecordMap) (n' t' v' : String) (x : RecordIntent)
    (n t v : String) :
    (m.Set n' t' v' x).PeekNameTypeRecord n t v =
      if n' = n ∧ t' = t ∧ v' = v then some x else m.PeekNameTypeRecord n t v := by
  unfold NestedRecordMap.PeekNameTypeRecord NestedRecordMap.Set
  induction m with
  | nil =>
    by_cases h : n' = n ∧ t' = t ∧ v' = v
    · simp [h, Leaf.atValue]
    · simp only [List.filter_nil, List.nil_append, if_neg h, List.find?_nil, Option.map_none']
      rw [List.find?_cons_of_neg]
      · rfl
      · simpa [Leaf.atValue] using h
  | cons e m ih =>
    by_cases he' : e.atValue n' t' v'
    · have hfilter : List.filter (fun e => decide (¬ e.atValue n' t' v')) (e :: m) =
          List.filter (fun e => decide (¬ e.atValue n' t' v')) m := by
        rw [List.filter_cons_of_neg]; simpa using he'
      rw [hfilter, ih]
      by_cases h : n' = n ∧ t' = t ∧ v' = v
      · rw [if_pos h, if_pos h]
      · rw [if_neg h, if_neg h]
        have : ¬ e.atValue n t v := by
          intro h2
          exact h ⟨he'.1.symm.trans h2.1, he'.2.1.symm.trans h2.2.1, he'.2.2.symm.trans h2.2.2⟩
        rw [List.find?_cons_of_neg]
        simpa using this
    · have hfilter : List.filter (fun e => decide (¬ e.atValue n' t' v')) (e :: m) =
          e :: List.filter (fun e => decide (¬ e.atValue n' t' v')) m := by
        rw [List.filter_cons_of_pos]; simpa using he'
      rw [hfilter, List.cons_append]
      by_cases he : e.atValue n t v
      · have hne : ¬ (n' = n ∧ t' = t ∧ v' = v) := by
          intro h
          exact he' ⟨he.1.trans h.1.symm, he.2.1.trans h.2.1.symm, he.2.2.trans h.2.2.symm⟩
        rw [if_neg hne, List.find?_cons_of_pos, List.find?_cons_of_pos]
        · simpa using he
        · simpa using he
      · rw [List.find?_cons_of_neg, List.find?_cons_of_neg, ih]
        · simpa using he
        · simpa using he

/-- The leaf the first loop of `ReconcileAndValidate` ends with at `(n, t, v)`
holds the last actual intent with a desired key and that name, type and value. -/
theorem index_peek (ds : List String) (n t v : String) (act : List RecordIntent) :
    ∀ (st : IntentMap × NestedRecordMap),
      (act.foldl (staleStep ds) st).2.PeekNameTypeRecord n t v =
        lastWith (fun a => decide (a.Key ∈ ds ∧ a.Record.GetName = n ∧ a.Record.GetType = t ∧
          a.Record.GetValue = v)) (st.2.PeekNameTypeRecord n t v) act := by
  induction act with
  | nil => intro st; rfl
  | cons a rest ih =>
    intro st
    simp only [List.foldl_cons, lastWith]
    rw [ih]
    unfold lastWith
    congr 1
    unfold staleStep
    by_cases hk : a.Key ∈ ds
    · rw [if_pos hk]
      simp only [PeekNameTypeRecord_Set, hk, true_and, decide_eq_true_eq]
    · rw [if_neg hk]
      simp [hk]

theorem lastWith_congr {p q : RecordIntent → Bool} (l : List RecordIntent)
    (h : ∀ a ∈ l, p a = q a) : ∀ acc, lastWith p acc l = lastWith q acc l := by
  induction l with
  | nil => intro acc; rfl
  | cons a rest ih =>
    intro acc
    simp only [lastWith, List.foldl_cons]
    rw [h a (List.mem_cons_self _ _)]
    exact ih (fun x hx => h x (List.mem_cons_of_mem _ hx)) _

theorem Record_eq_iff_parts (r s : dns.Record) :
    r = s ↔ r.GetName = s.GetName ∧ r.GetType = s.GetType ∧ r.GetValue = s.GetValue :=
  ⟨fun h => by rw [h]; exact ⟨rfl, rfl, rfl⟩, fun h => Record_eq_of_parts h.2.1 h.1 h.2.2⟩

/-- The intent the index holds at the leaf of a desired intent is the last
actual intent with the record of that desired intent. -/
theorem index_peek_desired (desired act : List RecordIntent) {d : RecordIntent}
    (hd : d ∈ desired) :
    (staleAndIndex desired act).2.PeekNameTypeRecord d.Record.GetName d.Record.GetType
        d.Record.GetValue =
      lastWith (fun a => decide (a.Record = d.Record)) none act := by
  unfold staleAndIndex
  rw [index_peek]
  apply lastWith_congr
  intro a _
  have hiff : (a.Key ∈ desired.map RecordIntent.Key ∧ a.Record.GetName = d.Record.GetName ∧
      a.Record.GetType = d.Record.GetType ∧ a.Record.GetValue = d.Record.GetValue) ↔
      a.Record = d.Record := by
    rw [Record_eq_iff_parts]
    constructor
    · exact fun h => h.2
    · intro h
      refine ⟨?_, h⟩
      rw [Key_eq_of_Record_eq ((Record_eq_iff_parts _ _).2 h)]
      exact List.mem_map_of_mem _ hd
  exact decide_eq_decide.2 hiff

theorem Set_LeafUnique {m : NestedRecordMap} (h : LeafUnique m) (n t v : String)
    (x : RecordIntent) : LeafUnique (m.Set n t v x) := by
  intro a ha c hc hn ht hv
  rcases (mem_Set_iff m n t v x a).1 ha with ⟨ha, hav⟩ | rfl <;>
    rcases (mem_Set_iff m n t v x c).1 hc with ⟨hc, hcv⟩ | rfl
  · exact h a ha c hc hn ht hv
  · exact absurd ⟨hn, ht, hv⟩ hav
  · exact absurd ⟨hn.symm, ht.symm, hv.symm⟩ hcv
  · rfl

theorem staleStep_foldl_LeafUnique (ds : List String) (act : List RecordIntent) :
    ∀ (st : IntentMap × NestedRecordMap), LeafUnique st.2 →
      LeafUnique (act.foldl (staleStep ds) st).2 := by
  induction act with
  | nil => intro st h; exact h
  | cons a rest ih =>
    intro st h
    apply ih
    unfold staleStep
    split
    · exact Set_LeafUnique h _ _ _ _
    · exact h

theorem index_LeafUnique (desired act : List RecordIntent) :
    LeafUnique (staleAndIndex desired act).2 :=
  staleStep_foldl_LeafUnique _ act _ (fun _ h => absurd h (List.not_mem_nil _))

theorem PeekNameTypeRecord_of_mem {m : NestedRecordMap} (hu : LeafUnique m) {e : Leaf}
    (he : e ∈ m) : m.PeekNameTypeRecord e.name e.recordType e.value = some e.intent := by
  cases hp : m.PeekNameTypeRecord e.name e.recordType e.value with
  | none => exact absurd ⟨rfl, rfl, rfl⟩ (PeekNameTypeRecord_eq_none hp e he)
  | some x =>
    obtain ⟨e2, he2, hat, rfl⟩ := PeekNameTypeRecord_eq_some hp
    rw [hu e2 he2 e he hat.1 hat.2.1 hat.2.2]

theorem decision_ite_eq_none_iff (a d : RecordIntent) (X : IntentMap) :
    (if a.Equal d = true then none
      else if d.Force = true ∨ d.Created < a.Created then some X else none) = none ↔
      (a.Equal d = true ∨ (d.Force = false ∧ ¬ d.Created < a.Created)) := by
  by_cases he : a.Equal d = true
  · rw [if_pos he]
    exact ⟨fun _ => Or.inl he, fun _ => rfl⟩
  · rw [if_neg he]
    by_cases hC : d.Force = true ∨ d.Created < a.Created
    · rw [if_pos hC]
      constructor
      · intro h; exact Option.noConfusion h
      · rintro (h | ⟨hf, hnc⟩)
        · exact absurd h he
        · rcases hC with hC | hC
          · rw [hf] at hC; exact absurd hC (by decide)
          · exact absurd hC hnc
    · rw [if_neg hC]
      constructor
      · intro _
        right
        constructor
        · cases hf : d.Force
          · rfl
          · exact absurd (Or.inl hf) hC
        · exact fun h => hC (Or.inr h)
      · intro _; rfl

/-- For a conflict-free desired list, step 2 ends in `continue` for a desired
intent exactly when the index holds, at the leaf of that intent, an intent equal
to it or one it neither forces out nor predates. -/
theorem reconcileDecision_eq_none_iff {desired actual : List RecordIntent}
    (hcf : ConflictFree desired) (hkf : KeysFaithful (desired ++ actual))
    {en : List RecordIntent → List RecordIntent} (hen : ∀ l, (en l).Perm l)
    {d : RecordIntent} (hd : d ∈ desired) :
    reconcileDecision en (staleAndIndex desired actual).2 d = none ↔
      ∃ a, (staleAndIndex desired actual).2.PeekNameTypeRecord d.Record.GetName
          d.Record.GetType d.Record.GetValue = some a ∧
        (a.Equal d = true ∨ (d.Force = false ∧ ¬ d.Created < a.Created)) := by
  have hleaf : ∀ (t : String) (x : RecordIntent),
      x ∈ NestedRecordMap.PeekNameTypeRecords en (staleAndIndex desired actual).2
        d.Record.GetName t →
      t = d.Record.GetType ∧
        (t = "CNAME" → (staleAndIndex desired actual).2.PeekNameTypeRecord d.Record.GetName
          d.Record.GetType d.Record.GetValue = some x) := by
    intro t x hx
    obtain ⟨e, he, hat, rfl⟩ := (mem_PeekNameTypeRecords_iff hen _ _ _ x).1 hx
    have h1 := index_leaf_at_desired hcf hkf hd he hat.1
    have h2 := mem_index desired actual e he
    refine ⟨hat.2.symm.trans h1.1, fun hc => ?_⟩
    have hrec := h1.2 (Or.inl (hat.2.trans hc))
    have := PeekNameTypeRecord_of_mem (index_LeafUnique desired actual) he
    rw [h2.2.2.1, h2.2.2.2.1, h2.2.2.2.2, hrec] at this
    exact this
  cases hr : d.Record with
  | ARecord n v =>
    have hn : d.Record.GetName = n := by rw [hr]; rfl
    have ht : d.Record.GetType = "A" := by rw [hr]; rfl
    rw [reconcileDecision_ARecord hr]
    simp only [dns.Record.GetName, dns.Record.GetType, dns.Record.GetValue]
    cases hp : NestedRecordMap.PeekNameTypeRecords en (staleAndIndex desired actual).2 n "CNAME" with
    | cons a0 rest =>
      have := (hleaf "CNAME" a0 (by rw [hn, hp]; exact List.mem_cons_self _ _)).1
      rw [ht] at this
      exact absurd this (by decide)
    | nil =>
      cases hq : (staleAndIndex desired actual).2.PeekNameTypeRecord n "A" v with
      | none => simp
      | some a =>
        simp only [Option.some.injEq, exists_eq_left']
        exact decision_ite_eq_none_iff a d _
  | CNAMERecord n v =>
    have hn : d.Record.GetName = n := by rw [hr]; rfl
    have ht : d.Record.GetType = "CNAME" := by rw [hr]; rfl
    have hv : d.Record.GetValue = v := by rw [hr]; rfl
    rw [reconcileDecision_CNAMERecord hr]
    simp only [dns.Record.GetName, dns.Record.GetType, dns.Record.GetValue]
    cases hp : NestedRecordMap.PeekNameTypeRecords en (staleAndIndex desired actual).2 n "A" with
    | cons a0 rest =>
      have := (hleaf "A" a0 (by rw [hn, hp]; exact List.mem_cons_self _ _)).1
      rw [ht] at this
      exact absurd this (by decide)
    | nil =>
      cases hq : NestedRecordMap.PeekNameTypeRecords en (staleAndIndex desired actual).2 n
          "CNAME" with
      | cons a0 rest =>
        have hheld := (hleaf "CNAME" a0 (by rw [hn, hq]; exact List.mem_cons_self _ _)).2 rfl
        rw [hn, ht, hv] at hheld
        rw [hheld]
        simp only [Option.some.injEq, exists_eq_left']
        exact decision_ite_eq_none_iff a0 d _
      | nil =>
        constructor
        · intro h; exact Option.noConfusion h
        rintro ⟨a, ha, _⟩
        exfalso
        obtain ⟨e, he, hat, rfl⟩ := PeekNameTypeRecord_eq_some ha
        have : e.intent ∈ NestedRecordMap.PeekNameTypeRecords en (staleAndIndex desired actual).2
            n "CNAME" :=
          (mem_PeekNameTypeRecords_iff hen _ _ _ _).2 ⟨e, he, ⟨hat.1, hat.2.1⟩, rfl⟩
        rw [hq] at this
        exact absurd this (List.not_mem_nil _)

theorem lastWith_append (p : RecordIntent → Bool) (acc : Option RecordIntent)
    (l1 l2 : List RecordIntent) :
    lastWith p acc (l1 ++ l2) = lastWith p (lastWith p acc l1) l2 := by
  unfold lastWith
  rw [List.foldl_append]

theorem lastWith_of_none {p : RecordIntent → Bool} (l : List RecordIntent)
    (h : ∀ a ∈ l, p a = false) : ∀ acc, lastWith p acc l = acc := by
  induction l with
  | nil => intro acc; rfl
  | cons a rest ih =>
    intro acc
    simp only [lastWith, List.foldl_cons]
    rw [h a (List.mem_cons_self _ _)]
    exact ih (fun x hx => h x (List.mem_cons_of_mem _ hx)) acc

theorem lastWith_of_unique {p : RecordIntent → Bool} {d : RecordIntent} (l : List RecordIntent)
    (hall : ∀ a ∈ l, p a = true → a = d) :
    ∀ acc, (acc = some d ∨ (d ∈ l ∧ p d = true)) → lastWith p acc l = some d := by
  induction l with
  | nil =>
    intro acc h
    rcases h with h | ⟨h, _⟩
    · exact h
    · exact absurd h (List.not_mem_nil _)
  | cons a rest ih =>
    intro acc h
    simp only [lastWith, List.foldl_cons]
    apply ih (fun x hx => hall x (List.mem_cons_of_mem _ hx))
    by_cases hp : p a = true
    · left
      rw [if_pos hp, hall a (List.mem_cons_self _ _) hp]
    · rw [if_neg hp]
      rcases h with h | ⟨h, hpd⟩
      · exact Or.inl h
      · rcases List.mem_cons.1 h with h | h
        · rw [h] at hpd; exact absurd hpd hp
        · exact Or.inr ⟨h, hpd⟩

theorem lastWith_filter {p q : RecordIntent → Bool} (l : List RecordIntent)
    (h : ∀ a ∈ l, p a = true → q a = true) :
    ∀ acc, lastWith p acc (l.filter q) = lastWith p acc l := by
  induction l with
  | nil => intro acc; rfl
  | cons a rest ih =>
    intro acc
    have ih2 := ih (fun x hx => h x (List.mem_cons_of_mem _ hx))
    by_cases hq : q a = true
    · rw [List.filter_cons_of_pos hq]
      simp only [lastWith, List.foldl_cons]
      exact ih2 _
    · rw [List.filter_cons_of_neg hq]
      have hp : ¬ p a = true := fun hp => hq (h a (List.mem_cons_self _ _) hp)
      simp only [lastWith, List.foldl_cons, if_neg hp]
      exact ih2 _

/-- An entry of `toAddMap` whose key is the key of no later desired intent stays. -/
theorem reconcileLoop_toAdd_persist (o : IterOrder) (v : Validator) (actual : List RecordIntent)
    (abnt : NestedRecordMap) (ds : List RecordIntent) (kv : String × RecordIntent)
    (hds : ∀ d ∈ ds, d.Key ≠ kv.1) :
    ∀ (i : Nat) (st : PlanState), kv ∈ st.toAddMap →
      kv ∈ (reconcileLoop o v actual abnt i ds st).toAddMap := by
  induction ds with
  | nil => intro i st h; exact h
  | cons d rest ih =>
    intro i st h
    apply ih (fun x hx => hds x (List.mem_cons_of_mem _ hx))
    unfold reconcileStep
    split
    · exact h
    · split
      · exact (IntentMap.mem_set_iff _ _ _ kv).2
          (Or.inl ⟨h, fun hk => hds d (List.mem_cons_self _ _) hk.symm⟩)
      · exact h

/-- With a validator that accepts everything, a desired intent that step 2
does not skip is in `toAddMap` when the second loop ends. -/
theorem reconcileLoop_toAdd_of_decided (o : IterOrder) (actual : List RecordIntent)
    (abnt : NestedRecordMap) (ds : List RecordIntent) (d : RecordIntent)
    (hdec : ∀ i, reconcileDecision (o.enum i) abnt d ≠ none) :
    (ds.map RecordIntent.Key).Nodup → d ∈ ds → ∀ (i : Nat) (st : PlanState),
      (d.Key, d) ∈ (reconcileLoop o acceptAll actual abnt i ds st).toAddMap := by
  induction ds with
  | nil => intro _ h; exact absurd h (List.not_mem_nil _)
  | cons d0 rest ih =>
    intro hnd hd i st
    rw [List.map_cons, List.nodup_cons] at hnd
    rcases List.mem_cons.1 hd with h | hd
    · subst h
      show (d.Key, d) ∈ (reconcileLoop o acceptAll actual abnt (i + 1) rest
        (reconcileStep (o.enum i) acceptAll actual abnt st d)).toAddMap
      apply reconcileLoop_toAdd_persist
      · intro x hx hk
        have hk2 : x.Key = d.Key := hk
        exact hnd.1 (hk2 ▸ List.mem_map_of_mem _ hx)
      · unfold reconcileStep
        cases hq : reconcileDecision (o.enum i) abnt d with
        | none => exact absurd hq (hdec i)
        | some ev =>
          simp only [acceptAll, if_true]
          exact (IntentMap.mem_set_iff _ _ _ _).2 (Or.inr rfl)
    · exact ih hnd.2 hd (i + 1) _

/-- Every entry of `toAddMap` comes from a desired intent that step 2 did not skip. -/
theorem reconcileLoop_toAdd_decided (o : IterOrder) (v : Validator) (actual : List RecordIntent)
    (abnt : NestedRecordMap) (ds : List RecordIntent) :
    ∀ (i : Nat) (st : PlanState) (kv : String × RecordIntent),
      kv ∈ (reconcileLoop o v actual abnt i ds st).toAddMap →
      kv ∈ st.toAddMap ∨
        (kv.2 ∈ ds ∧ kv.1 = kv.2.Key ∧ ∃ j, reconcileDecision (o.enum j) abnt kv.2 ≠ none) := by
  induction ds with
  | nil => intro i st kv h; exact Or.inl h
  | cons d rest ih =>
    intro i st kv h
    rcases ih (i + 1) _ kv h with h | ⟨h1, h2, h3⟩
    · unfold reconcileStep at h
      cases hq : reconcileDecision (o.enum i) abnt d with
      | none =>
        rw [hq] at h
        exact Or.inl h
      | some ev =>
        rw [hq] at h
        simp only at h
        split at h
        · rcases (IntentMap.mem_set_iff _ _ _ kv).1 h with ⟨h, _⟩ | rfl
          · exact Or.inl h
          · exact Or.inr ⟨List.mem_cons_self _ _, rfl, i, by rw [hq]; exact Option.noConfusion⟩
        · exact Or.inl h
    · exact Or.inr ⟨List.mem_cons_of_mem _ h1, h2, h3⟩

/-- Every key of `toRemoveMap` was there before the second loop or is the key
of an eviction some desired intent proposed. -/
theorem reconcileLoop_toRemove_keys (o : IterOrder) (v : Validator) (actual : List RecordIntent)
    (abnt : NestedRecordMap) (ds : List RecordIntent) :
    ∀ (i : Nat) (st : PlanState) (k : String),
      k ∈ (reconcileLoop o v actual abnt i ds st).toRemoveMap.keys →
      k ∈ st.toRemoveMap.keys ∨
        ∃ d ∈ ds, ∃ j ev, reconcileDecision (o.enum j) abnt d = some ev ∧ k ∈ ev.keys := by
  induction ds with
  | nil => intro i st k h; exact Or.inl h
  | cons d rest ih =>
    intro i st k h
    rcases ih (i + 1) _ k h with h | ⟨x, hx, h⟩
    · unfold reconcileStep at h
      cases hq : reconcileDecision (o.enum i) abnt d with
      | none =>
        rw [hq] at h
        exact Or.inl h
      | some ev =>
        rw [hq] at h
        simp only at h
        split at h
        · rcases (IntentMap.mem_keys_merge _ _ k).1 h with h | h
          · exact Or.inl h
          · exact Or.inr ⟨d, List.mem_cons_self _ _, i, ev, hq, h⟩
        · exact Or.inl h
    · exact Or.inr ⟨x, List.mem_cons_of_mem _ hx, h⟩

/-- When step 2 skips every desired intent, the second loop changes nothing. -/
theorem reconcileLoop_of_all_skipped (o : IterOrder) (v : Validator) (actual : List RecordIntent)
    (abnt : NestedRecordMap) (ds : List RecordIntent)
    (h : ∀ d ∈ ds, ∀ i, reconcileDecision (o.enum i) abnt d = none) :
    ∀ (i : Nat) (st : PlanState), reconcileLoop o v actual abnt i ds st = st := by
  induction ds with
  | nil => intro i st; rfl
  | cons d rest ih =>
    intro i st
    simp only [reconcileLoop]
    rw [show reconcileStep (o.enum i) v actual abnt st d = st by
      unfold reconcileStep; rw [h d (List.mem_cons_self _ _) i]]
    exact ih (fun x hx => h x (List.mem_cons_of_mem _ hx)) (i + 1) st

theorem Equal_self (d : RecordIntent) : d.Equal d = true := by
  simp [RecordIntent.Equal]

theorem KeysFaithful_of_subset {l1 l2 : List RecordIntent} (h : KeysFaithful l2)
    (hsub : ∀ x ∈ l1, x ∈ l2) : KeysFaithful l1 :=
  fun x hx y hy hk => h x (hsub x hx) y (hsub y hy) hk

/-- When every actual key is a desired key, step 1 removes nothing. -/
theorem staleAndIndex_fst_eq_nil (desired actual : List RecordIntent)
    (h : ∀ a ∈ actual, a.Key ∈ desired.map RecordIntent.Key) :
    (staleAndIndex desired actual).1 = [] := by
  apply List.eq_nil_iff_forall_not_mem.2
  intro kv hkv
  rcases staleStep_foldl_fst _ actual _ kv hkv with h1 | ⟨h1, h2, h3⟩
  · exact absurd h1 (List.not_mem_nil _)
  · exact h3 (h2 ▸ h kv.2 h1)

theorem mem_toRemove_keys_iff (o : IterOrder) (v : Validator) (desired actual : List RecordIntent)
    (k : String) :
    k ∈ (ReconcileAndValidate o v desired actual).2.map RecordIntent.Key ↔
      k ∈ (reconcileFinal o v desired actual).toRemoveMap.keys := by
  constructor
  · intro h
    obtain ⟨r, hr, rfl⟩ := List.mem_map.1 h
    rw [mem_toRemove_iff] at hr
    exact (IntentMap.mem_keys_iff _ _).2 ⟨r, hr⟩
  · intro h
    obtain ⟨r, hr, hk⟩ := exists_toRemove_of_key o v desired actual k h
    exact hk ▸ List.mem_map_of_mem _ hr

/-- C6, reconcile idempotence: for a conflict-free desired list whose keys
identify records and a validator that accepts every intent, reconciling again
after the plan was applied to the registry (removes, then adds) gives an empty
`toAdd` and an empty `toRemove`. -/
theorem reconcile_idempotent (o1 o2 : IterOrder) (desired actual : List RecordIntent)
    (hcf : ConflictFree desired) (hkf : KeysFaithful (desired ++ actual)) :
    ReconcileAndValidate o2 acceptAll desired
      (applyPlan actual (ReconcileAndValidate o1 acceptAll desired actual)) = ([], []) := by
  have hinj : ∀ x ∈ desired, ∀ y ∈ desired, x.Key = y.Key → x = y :=
    fun x hx y hy h => List.inj_on_of_nodup_map hcf.1 hx hy h
  -- what the first plan adds
  have hadd : ∀ x ∈ (ReconcileAndValidate o1 acceptAll desired actual).1,
      x ∈ desired ∧ ∃ j, reconcileDecision (o1.enum j) (staleAndIndex desired actual).2 x ≠ none := by
    intro x hx
    rw [mem_toAdd_iff] at hx
    rcases reconcileLoop_toAdd_decided o1 acceptAll actual _ desired 0 _ _ hx with h | ⟨h1, _, h3⟩
    · exact absurd h (List.not_mem_nil _)
    · exact ⟨h1, h3⟩
  -- the registry after the first plan
  have hmem : ∀ a ∈ applyPlan actual (ReconcileAndValidate o1 acceptAll desired actual),
      (a ∈ actual ∨ a ∈ desired) ∧ a.Key ∈ desired.map RecordIntent.Key := by
    intro a ha
    rcases List.mem_append.1 ha with ha | ha
    · rw [List.mem_filter, decide_eq_true_eq, mem_toRemove_keys_iff] at ha
      refine ⟨Or.inl ha.1, ?_⟩
      by_contra hstale
      apply ha.2
      apply reconcileLoop_keys_mono
      rw [mem_keys_staleAndIndex]
      exact ⟨a, ha.1, hstale, rfl⟩
    · exact ⟨Or.inr (hadd a ha).1, List.mem_map_of_mem _ (hadd a ha).1⟩
  have hkf2 : KeysFaithful
      (desired ++ applyPlan actual (ReconcileAndValidate o1 acceptAll desired actual)) := by
    apply KeysFaithful_of_subset hkf
    intro x hx
    rcases List.mem_append.1 hx with hx | hx
    · exact List.mem_append_left _ hx
    · rcases (hmem x hx).1 with h | h
      · exact List.mem_append_right _ h
      · exact List.mem_append_left _ h
  -- step 2 of the second run skips every desired intent
  have hskip : ∀ d ∈ desired, ∀ i, reconcileDecision (o2.enum i)
      (staleAndIndex desired
        (applyPlan actual (ReconcileAndValidate o1 acceptAll desired actual))).2 d = none := by
    intro d hd i
    rw [reconcileDecision_eq_none_iff hcf hkf2 (o2.perm i) hd, index_peek_desired _ _ hd]
    unfold applyPlan
    rw [lastWith_append]
    have hall : ∀ a ∈ (ReconcileAndValidate o1 acceptAll desired actual).1,
        decide (a.Record = d.Record) = true → a = d := by
      intro a ha hrec
      exact hinj a (hadd a ha).1 d hd (Key_eq_of_Record_eq (of_decide_eq_true hrec))
    by_cases hN : ∃ a, (staleAndIndex desired actual).2.PeekNameTypeRecord d.Record.GetName
        d.Record.GetType d.Record.GetValue = some a ∧
        (a.Equal d = true ∨ (d.Force = false ∧ ¬ d.Created < a.Created))
    · -- the first run skipped `d`
      have hnone : ∀ j, reconcileDecision (o1.enum j) (staleAndIndex desired actual).2 d = none :=
        fun j => (reconcileDecision_eq_none_iff hcf hkf (o1.perm j) hd).2 hN
      have hnotadd : ∀ a ∈ (ReconcileAndValidate o1 acceptAll desired actual).1,
          decide (a.Record = d.Record) = false := by
        intro a ha
        by_contra hrec
        have : a = d := hall a ha (by simpa using hrec)
        subst this
        obtain ⟨j, hj⟩ := (hadd a ha).2
        exact hj (hnone j)
      have hkeep : ∀ a ∈ actual, decide (a.Record = d.Record) = true →
          decide (a.Key ∉ (ReconcileAndValidate o1 acceptAll desired actual).2.map
            RecordIntent.Key) = true := by
        intro a _ hrec
        rw [decide_eq_true_eq, mem_toRemove_keys_iff,
          Key_eq_of_Record_eq (of_decide_eq_true hrec)]
        intro hk
        rcases reconcileLoop_toRemove_keys o1 acceptAll actual _ desired 0 _ _ hk with
          h | ⟨x, hx, j, ev, hev, hkev⟩
        · rw [mem_keys_staleAndIndex] at h
          obtain ⟨b, _, hb, hbk⟩ := h
          exact hb (hbk ▸ List.mem_map_of_mem _ hd)
        · obtain ⟨y, hy⟩ := (IntentMap.mem_keys_iff _ _).1 hkev
          have hown := (reconcileDecision_evicts_own hcf hkf (o1.perm j) hx hev _ hy).1
          have hxd : x = d := hinj x hx d hd hown.symm
          rw [hxd, hnone j] at hev
          exact Option.noConfusion hev
      rw [lastWith_of_none _ hnotadd, lastWith_filter _ hkeep, ← index_peek_desired _ _ hd]
      exact hN
    · -- the first run added `d`
      have hsome : ∀ j, reconcileDecision (o1.enum j) (staleAndIndex desired actual).2 d ≠ none :=
        fun j h => hN ((reconcileDecision_eq_none_iff hcf hkf (o1.perm j) hd).1 h)
      have hdadd : d ∈ (ReconcileAndValidate o1 acceptAll desired actual).1 := by
        rw [mem_toAdd_iff]
        exact reconcileLoop_toAdd_of_decided o1 actual _ desired d hsome hcf.1 hd 0 _
      refine ⟨d, ?_, Or.inl (Equal_self d)⟩
      exact lastWith_of_unique _ hall _ (Or.inr ⟨hdadd, by simp⟩)
  have hfinal : reconcileFinal o2 acceptAll desired
      (applyPlan actual (ReconcileAndValidate o1 acceptAll desired actual)) = ⟨[], []⟩ := by
    unfold reconcileFinal
    rw [reconcileLoop_of_all_skipped o2 acceptAll _ _ desired hskip,
      staleAndIndex_fst_eq_nil _ _ (fun a ha => (hmem a ha).2)]
  have hout : ∀ l, ReconcileAndValidate o2 acceptAll desired l =
      (o2.enum desired.length (reconcileFinal o2 acceptAll desired l).toAddMap.values,
        o2.enum (desired.length + 1) (reconcileFinal o2 acceptAll desired l).toRemoveMap.values) :=
    fun _ => rfl
  rw [hout, hfinal]
  simp [IntentMap.values, IterOrder.enum_nil]

/-- Witness for C6: the first plan replaces the younger actual A at `api.x`,
removes a stale CNAME and adds a missing CNAME; after it the plan is empty. -/
theorem reconcile_idempotent_witness :
    ReconcileAndValidate IterOrder.insertion acceptAll
        [sampleA "api.x" "10.0.0.1" "c1" 1 false, sampleCNAME "web.x" "svc.y" "c1" 1 false,
          sampleA "db.x" "10.0.0.3" "c1" 9 false]
        [sampleA "api.x" "10.0.0.1" "c2" 5 false, sampleCNAME "old.x" "svc.y" "c2" 5 false,
          sampleA "db.x" "10.0.0.3" "c2" 2 true] =
      ([sampleA "api.x" "10.0.0.1" "c1" 1 false, sampleCNAME "web.x" "svc.y" "c1" 1 false],
        [sampleCNAME "old.x" "svc.y" "c2" 5 false, sampleA "api.x" "10.0.0.1" "c2" 5 false]) ∧
      ReconcileAndValidate IterOrder.reversed acceptAll
        [sampleA "api.x" "10.0.0.1" "c1" 1 false, sampleCNAME "web.x" "svc.y" "c1" 1 false,
          sampleA "db.x" "10.0.0.3" "c1" 9 false]
        (applyPlan
          [sampleA "api.x" "10.0.0.1" "c2" 5 false, sampleCNAME "old.x" "svc.y" "c2" 5 false,
            sampleA "db.x" "10.0.0.3" "c2" 2 true]
          (ReconcileAndValidate IterOrder.insertion acceptAll
            [sampleA "api.x" "10.0.0.1" "c1" 1 false, sampleCNAME "web.x" "svc.y" "c1" 1 false,
              sampleA "db.x" "10.0.0.3" "c1" 9 false]
            [sampleA "api.x" "10.0.0.1" "c2" 5 false, sampleCNAME "old.x" "svc.y" "c2" 5 false,
              sampleA "db.x" "10.0.0.3" "c2" 2 true])) = ([], []) :=
  ⟨by decide,
    reconcile_idempotent IterOrder.insertion IterOrder.reversed
      [sampleA "api.x" "10.0.0.1" "c1" 1 false, sampleCNAME "web.x" "svc.y" "c1" 1 false,
        sampleA "db.x" "10.0.0.3" "c1" 9 false]
      [sampleA "api.x" "10.0.0.1" "c2" 5 false, sampleCNAME "old.x" "svc.y" "c2" 5 false,
        sampleA "db.x" "10.0.0.3" "c2" 2 true]
      (by decide) (by decide)⟩

/-! ## The replacement policies and the force flag -/

theorem shouldReplaceExisting_true_of_not_force {new existing : RecordIntent}
    (h : shouldReplaceExisting new existing = true) (hf : new.Force = false) :
    existing.Force = false ∧ new.Created < existing.Created := by
  unfold shouldReplaceExisting at h
  rw [hf] at h
  cases he : existing.Force <;> simp [he] at h
  exact ⟨rfl, h⟩

theorem shouldReplaceExisting_false_of_force {new existing : RecordIntent}
    (h : shouldReplaceExisting new existing = false) (hf : new.Force = true) :
    existing.Force = true ∧ ¬ new.Created < existing.Created := by
  unfold shouldReplaceExisting at h
  rw [hf] at h
  cases he : existing.Force <;> simp [he] at h
  exact ⟨rfl, not_lt.2 h⟩

/-- The five flags after the loop of `shouldReplaceAllExisting`. -/
theorem replaceFlags_foldl (new : RecordIntent) (l : List RecordIntent) :
    ∀ f : ReplaceFlags,
      (l.foldl (replaceFlagsStep new) f).anyForce = (f.anyForce || l.any (fun e => e.Force)) ∧
      (l.foldl (replaceFlagsStep new) f).allForce = (f.allForce && l.all (fun e => e.Force)) ∧
      (l.foldl (replaceFlagsStep new) f).allNonForce =
        (f.allNonForce && l.all (fun e => !e.Force)) ∧
      (l.foldl (replaceFlagsStep new) f).newCreatedBeforeAllOldWithForce =
        (f.newCreatedBeforeAllOldWithForce &&
          l.all (fun e => !e.Force || decide (new.Created < e.Created))) ∧
      (l.foldl (replaceFlagsStep new) f).newCreatedBeforeAll =
        (f.newCreatedBeforeAll && l.all (fun e => decide (new.Created < e.Created))) := by
  induction l with
  | nil => intro f; simp
  | cons a rest ih =>
    intro f
    simp only [List.foldl_cons, List.any_cons, List.all_cons]
    obtain ⟨h1, h2, h3, h4, h5⟩ := ih (replaceFlagsStep new f a)
    rw [h1, h2, h3, h4, h5]
    unfold replaceFlagsStep
    cases hf : a.Force <;> by_cases hc : new.Created < a.Created <;>
      simp [hf, hc, Bool.and_assoc, Bool.or_assoc]

/-- `shouldReplaceAllExisting` in closed form, for a non-empty list. -/
theorem shouldReplaceAllExisting_eq (new : RecordIntent) (l : List RecordIntent) (hl : l ≠ []) :
    shouldReplaceAllExisting new l =
      if l.any (fun e => e.Force) = true ∧ new.Force = false then false
      else if new.Force = true ∧ l.all (fun e => !e.Force) = true then true
      else if new.Force = true ∧ l.all (fun e => e.Force) = false then
        l.all (fun e => !e.Force || decide (new.Created < e.Created))
      else l.all (fun e => decide (new.Created < e.Created)) := by
  unfold shouldReplaceAllExisting
  have hlen : ¬ l.length = 0 := fun h => hl (List.length_eq_zero.1 h)
  rw [if_neg hlen]
  obtain ⟨h1, h2, h3, h4, h5⟩ := replaceFlags_foldl new l ⟨false, true, true, true, true⟩
  simp only [h1, h2, h3, h4, h5, Bool.false_or, Bool.true_and]
  split
  · rfl
  · split
    · rfl
    · split
      · cases List.all l (fun e => !e.Force || decide (new.Created < e.Created)) <;> rfl
      · cases List.all l (fun e => decide (new.Created < e.Created)) <;> rfl

theorem shouldReplaceAllExisting_true_of_not_force {new : RecordIntent} {l : List RecordIntent}
    (hl : l ≠ []) (h : shouldReplaceAllExisting new l = true) (hf : new.Force = false) :
    ∀ e ∈ l, e.Force = false := by
  rw [shouldReplaceAllExisting_eq new l hl, hf] at h
  intro e he
  by_contra hef
  have hany : l.any (fun e => e.Force) = true :=
    List.any_eq_true.2 ⟨e, he, by simpa using hef⟩
  simp [hany] at h

theorem shouldReplaceAllExisting_false_of_force {new : RecordIntent} {l : List RecordIntent}
    (hl : l ≠ []) (h : shouldReplaceAllExisting new l = false) (hf : new.Force = true) :
    ∃ e ∈ l, e.Force = true := by
  rw [shouldReplaceAllExisting_eq new l hl, hf] at h
  by_contra hno
  have hall : l.all (fun e => !e.Force) = true := by
    rw [List.all_eq_true]
    intro e he
    cases hef : e.Force
    · rfl
    · exact absurd ⟨e, he, hef⟩ hno
  simp [hall] at h

/-- Two CNAME leaves at one name are the same leaf when CNAME intents that
share a name share their value. -/
theorem cname_leaf_unique {m : NestedRecordMap} (hinv : FilterInv m) {ri : RecordIntent}
    (hsame : CnameSameValue (ri :: m.map Leaf.intent)) {e1 e2 : Leaf} (h1 : e1 ∈ m)
    (h2 : e2 ∈ m) {n : String} (ha1 : e1.at n "CNAME") (ha2 : e2.at n "CNAME") : e1 = e2 := by
  have c1 := hinv.coherent e1 h1
  have c2 := hinv.coherent e2 h2
  apply hinv.leafUnique e1 h1 e2 h2 (ha1.1.trans ha2.1.symm) (ha1.2.trans ha2.2.symm)
  rw [c1.2.2, c2.2.2]
  exact hsame _ (List.mem_cons_of_mem _ (List.mem_map_of_mem _ h1)) _
    (List.mem_cons_of_mem _ (List.mem_map_of_mem _ h2))
    (c1.2.1 ▸ ha1.2) (c2.2.1 ▸ ha2.2) (by rw [← c1.1, ← c2.1, ha1.1, ha2.1])

/-- What one iteration of `FilterRecordIntents` does with the force flag: either
the incoming intent is dropped, and if it has `force` a leaf of its name has
`force`; or it is inserted, and if it has no `force` none of the leaves it
displaces has `force`. -/
theorem filterStep_force {en : List RecordIntent → List RecordIntent}
    (hen : ∀ l, (en l).Perm l) {m : NestedRecordMap} {ri : RecordIntent} (hinv : FilterInv m)
    (hsame : CnameSameValue (ri :: m.map Leaf.intent)) :
    (filterStep en m ri = m ∧
        (ri.Force = true → ∃ e ∈ m, e.name = ri.Record.GetName ∧ e.intent.Force = true)) ∨
      ((∀ e, e ∈ filterStep en m ri ↔
          (e ∈ m ∧ ¬ e.at ri.Record.GetName (otherType ri.Record) ∧
            ¬ e.atValue ri.Record.GetName ri.Record.GetType ri.Record.GetValue) ∨
          e = ⟨ri.Record.GetName, ri.Record.GetType, ri.Record.GetValue, ri⟩) ∧
        (ri.Force = false → ∀ e ∈ m,
          (e.at ri.Record.GetName (otherType ri.Record) ∨
            e.atValue ri.Record.GetName ri.Record.GetType ri.Record.GetValue) →
          e.intent.Force = false)) := by
  cases hr : ri.Record with
  | ARecord n v =>
    have hstep : filterStep en m ri =
        match m.PeekNameTypeRecords en n "CNAME" with
        | c :: _ =>
          if shouldReplaceExisting ri c = true then (m.DeleteNameType n "CNAME").Set n "A" v ri
          else m
        | [] =>
          match m.PeekNameTypeRecord n "A" v with
          | some x => if shouldReplaceExisting ri x = true then m.Set n "A" v ri else m
          | none => m.Set n "A" v ri := by
      unfold filterStep
      simp only [hr, dns.Record.GetName, dns.Record.GetValue]
    simp only [dns.Record.GetName, dns.Record.GetValue, dns.Record.GetType, otherType]
    cases hpC : m.PeekNameTypeRecords en n "CNAME" with
    | cons c rest =>
      obtain ⟨ec, hec, hat, rfl⟩ :=
        (mem_PeekNameTypeRecords_iff hen m n "CNAME" c).1 (by rw [hpC]; exact List.mem_cons_self _ _)
      rw [hpC] at hstep
      simp only at hstep
      by_cases hs : shouldReplaceExisting ri ec.intent = true
      · rw [if_pos hs] at hstep
        right
        refine ⟨fun e => by rw [hstep, mem_Set_iff, mem_DeleteNameType_iff, and_assoc], ?_⟩
        intro hf e he hdel
        rcases hdel with hdel | hdel
        · rw [cname_leaf_unique hinv hsame he hec hdel hat]
          exact (shouldReplaceExisting_true_of_not_force hs hf).1
        · exact absurd (hdel.1.trans hat.1.symm) (hinv.noCoexist e he ec hec hdel.2.1 hat.2)
      · left
        rw [hstep, if_neg hs]
        exact ⟨rfl, fun hf => ⟨ec, hec, hat.1,
          (shouldReplaceExisting_false_of_force (by simpa using hs) hf).1⟩⟩
    | nil =>
      have hno := PeekNameTypeRecords_eq_nil hen hpC
      rw [hpC] at hstep
      simp only at hstep
      have hset : ∀ e, e ∈ m.Set n "A" v ri ↔
          (e ∈ m ∧ ¬ e.at n "CNAME" ∧ ¬ e.atValue n "A" v) ∨ e = ⟨n, "A", v, ri⟩ := by
        intro e
        rw [mem_Set_iff]
        constructor
        · rintro (⟨h1, h2⟩ | h)
          · exact Or.inl ⟨h1, hno e h1, h2⟩
          · exact Or.inr h
        · rintro (⟨h1, _, h2⟩ | h)
          · exact Or.inl ⟨h1, h2⟩
          · exact Or.inr h
      cases hpA : m.PeekNameTypeRecord n "A" v with
      | some x =>
        obtain ⟨ex, hex, hatx, rfl⟩ := PeekNameTypeRecord_eq_some hpA
        rw [hpA] at hstep
        simp only at hstep
        by_cases hs : shouldReplaceExisting ri ex.intent = true
        · rw [if_pos hs] at hstep
          right
          refine ⟨fun e => by rw [hstep]; exact hset e, ?_⟩
          intro hf e he hdel
          rcases hdel with hdel | hdel
          · exact absurd hdel (hno e he)
          · rw [hinv.leafUnique e he ex hex (hdel.1.trans hatx.1.symm)
              (hdel.2.1.trans hatx.2.1.symm) (hdel.2.2.trans hatx.2.2.symm)]
            exact (shouldReplaceExisting_true_of_not_force hs hf).1
        · left
          rw [hstep, if_neg hs]
          exact ⟨rfl, fun hf => ⟨ex, hex, hatx.1,
            (shouldReplaceExisting_false_of_force (by simpa using hs) hf).1⟩⟩
      | none =>
        have hnoA := PeekNameTypeRecord_eq_none hpA
        rw [hpA] at hstep
        simp only at hstep
        right
        refine ⟨fun e => by rw [hstep]; exact hset e, ?_⟩
        intro _ e he hdel
        rcases hdel with hdel | hdel
        · exact absurd hdel (hno e he)
        · exact absurd hdel (hnoA e he)
  | CNAMERecord n v =>
    have hstep : filterStep en m ri =
        match m.PeekNameTypeRecords en n "A" with
        | a0 :: rest =>
          if shouldReplaceAllExisting ri (a0 :: rest) = true then
            (m.DeleteNameType n "A").Set n "CNAME" v ri
          else m
        | [] =>
          match m.PeekNameTypeRecords en n "CNAME" with
          | c :: _ => if shouldReplaceExisting ri c = true then m.Set n "CNAME" v ri else m
          | [] => m.Set n "CNAME" v ri := by
      unfold filterStep
      simp only [hr, dns.Record.GetName, dns.Record.GetValue]
      cases m.PeekNameTypeRecords en n "A" <;> rfl
    have hri : ri.Record.GetType = "CNAME" ∧ ri.Record.GetName = n ∧ ri.Record.GetValue = v := by
      rw [hr]; exact ⟨rfl, rfl, rfl⟩
    simp only [dns.Record.GetName, dns.Record.GetValue, dns.Record.GetType, otherType]
    cases hpA : m.PeekNameTypeRecords en n "A" with
    | cons a0 rest =>
      obtain ⟨ea, hea, hata, ha0⟩ :=
        (mem_PeekNameTypeRecords_iff hen m n "A" a0).1 (by rw [hpA]; exact List.mem_cons_self _ _)
      rw [hpA] at hstep
      simp only at hstep
      by_cases hs : shouldReplaceAllExisting ri (a0 :: rest) = true
      · rw [if_pos hs] at hstep
        right
        refine ⟨fun e => by rw [hstep, mem_Set_iff, mem_DeleteNameType_iff, and_assoc], ?_⟩
        intro hf e he hdel
        rcases hdel with hdel | hdel
        · apply shouldReplaceAllExisting_true_of_not_force (List.cons_ne_nil _ _) hs hf
          rw [← hpA]
          exact (mem_PeekNameTypeRecords_iff hen m n "A" _).2 ⟨e, he, hdel, rfl⟩
        · exact absurd (hata.1.trans hdel.1.symm) (hinv.noCoexist ea hea e he hata.2 hdel.2.1)
      · left
        rw [hstep, if_neg hs]
        refine ⟨rfl, fun hf => ?_⟩
        obtain ⟨x, hx, hxf⟩ := shouldReplaceAllExisting_false_of_force (List.cons_ne_nil _ _)
          (by simpa using hs) hf
        rw [← hpA] at hx
        obtain ⟨e, he, hat, rfl⟩ := (mem_PeekNameTypeRecords_iff hen m n "A" x).1 hx
        exact ⟨e, he, hat.1, hxf⟩
    | nil =>
      have hno := PeekNameTypeRecords_eq_nil hen hpA
      rw [hpA] at hstep
      simp only at hstep
      have hset : ∀ e, e ∈ m.Set n "CNAME" v ri ↔
          (e ∈ m ∧ ¬ e.at n "A" ∧ ¬ e.atValue n "CNAME" v) ∨ e = ⟨n, "CNAME", v, ri⟩ := by
        intro e
        rw [mem_Set_iff]
        constructor
        · rintro (⟨h1, h2⟩ | h)
          · exact Or.inl ⟨h1, hno e h1, h2⟩
          · exact Or.inr h
        · rintro (⟨h1, _, h2⟩ | h)
          · exact Or.inl ⟨h1, h2⟩
          · exact Or.inr h
      cases hpC : m.PeekNameTypeRecords en n "CNAME" with
      | cons c rest =>
        obtain ⟨ec, hec, hat, rfl⟩ :=
          (mem_PeekNameTypeRecords_iff hen m n "CNAME" c).1
            (by rw [hpC]; exact List.mem_cons_self _ _)
        rw [hpC] at hstep
        simp only at hstep
        by_cases hs : shouldReplaceExisting ri ec.intent = true
        · rw [if_pos hs] at hstep
          right
          refine ⟨fun e => by rw [hstep]; exact hset e, ?_⟩
          intro hf e he hdel
          rcases hdel with hdel | hdel
          · exact absurd hdel (hno e he)
          · rw [cname_leaf_unique hinv hsame he hec ⟨hdel.1, hdel.2.1⟩ hat]
            exact (shouldReplaceExisting_true_of_not_force hs hf).1
        · left
          rw [hstep, if_neg hs]
          exact ⟨rfl, fun hf => ⟨ec, hec, hat.1,
            (shouldReplaceExisting_false_of_force (by simpa using hs) hf).1⟩⟩
      | nil =>
        have hnoC := PeekNameTypeRecords_eq_nil hen hpC
        rw [hpC] at hstep
        simp only at hstep
        right
        refine ⟨fun e => by rw [hstep]; exact hset e, ?_⟩
        intro _ e he hdel
        rcases hdel with hdel | hdel
        · exact absurd hdel (hno e he)
        · exact absurd ⟨hdel.1, hdel.2.1⟩ (hnoC e he)

theorem filterStep_subset {en : List RecordIntent → List RecordIntent}
    (hen : ∀ l, (en l).Perm l) (m : NestedRecordMap) (ri : RecordIntent) :
    ∀ e ∈ filterStep en m ri, e ∈ m ∨ e.intent = ri := by
  intro e he
  rcases filterStep_mem hen m ri with heq | hmem
  · rw [heq] at he; exact Or.inl he
  · rcases (hmem e).1 he with ⟨h, _⟩ | rfl
    · exact Or.inl h
    · exact Or.inr rfl

/-- One iteration of `FilterRecordIntents` keeps a force leaf at every name
that had one, and at the name of the incoming intent when it has `force`. -/
theorem filterStep_force_kept {en : List RecordIntent → List RecordIntent}
    (hen : ∀ l, (en l).Perm l) {m : NestedRecordMap} {ri : RecordIntent} (hinv : FilterInv m)
    (hsame : CnameSameValue (ri :: m.map Leaf.intent)) (n : String)
    (h : (∃ e ∈ m, e.name = n ∧ e.intent.Force = true) ∨
      (ri.Force = true ∧ ri.Record.GetName = n)) :
    ∃ e ∈ filterStep en m ri, e.name = n ∧ e.intent.Force = true := by
  rcases filterStep_force hen hinv hsame with ⟨heq, hdrop⟩ | ⟨hmem, hdel⟩
  · rw [heq]
    rcases h with h | ⟨hf, hn⟩
    · exact h
    · obtain ⟨e, he, hname, hef⟩ := hdrop hf
      exact ⟨e, he, hname.trans hn, hef⟩
  · have hnew : (⟨ri.Record.GetName, ri.Record.GetType, ri.Record.GetValue, ri⟩ : Leaf) ∈
        filterStep en m ri := (hmem _).2 (Or.inr rfl)
    rcases h with ⟨e, he, hname, hef⟩ | ⟨hf, hn⟩
    · by_cases hK : e.at ri.Record.GetName (otherType ri.Record) ∨
          e.atValue ri.Record.GetName ri.Record.GetType ri.Record.GetValue
      · have hen2 : e.name = ri.Record.GetName := hK.elim (fun h => h.1) (fun h => h.1)
        cases hrf : ri.Force with
        | false => rw [hdel hrf e he hK] at hef; exact absurd hef (by decide)
        | true => exact ⟨_, hnew, hen2.symm.trans hname, hrf⟩
      · exact ⟨e, (hmem e).2 (Or.inl ⟨he, not_or.1 hK⟩), hname, hef⟩
    · exact ⟨_, hnew, hn, hf⟩

theorem CnameSameValue_of_subset {l1 l2 : List RecordIntent} (h : CnameSameValue l2)
    (hsub : ∀ x ∈ l1, x ∈ l2) : CnameSameValue l1 :=
  fun x hx y hy => h x (hsub x hx) y (hsub y hy)

/-- The loop of `FilterRecordIntents` keeps a force leaf at every name at which
an intent with `force` was seen. -/
theorem filterLoop_force (o : IterOrder) (l : List RecordIntent) :
    ∀ (i : Nat) (m : NestedRecordMap) (s : List RecordIntent), CnameSameValue (s ++ l) →
      FilterInv m → (∀ e ∈ m, e.intent ∈ s) →
      (∀ x ∈ s, x.Force = true → ∃ e ∈ m, e.name = x.Record.GetName ∧ e.intent.Force = true) →
      ∀ x ∈ s ++ l, x.Force = true →
        ∃ e ∈ filterLoop o i l m, e.name = x.Record.GetName ∧ e.intent.Force = true := by
  induction l with
  | nil =>
    intro i m s _ _ _ hforce x hx hf
    rw [List.append_nil] at hx
    exact hforce x hx hf
  | cons ri rest ih =>
    intro i m s hcn hinv hsub hforce x hx hf
    have hsame : CnameSameValue (ri :: m.map Leaf.intent) := by
      apply CnameSameValue_of_subset hcn
      intro y hy
      rcases List.mem_cons.1 hy with rfl | hy
      · exact List.mem_append_right _ (List.mem_cons_self _ _)
      · obtain ⟨e, he, rfl⟩ := List.mem_map.1 hy
        exact List.mem_append_left _ (hsub e he)
    have happ : (s ++ [ri]) ++ rest = s ++ ri :: rest := by simp
    apply ih (i + 1) (filterStep (o.enum i) m ri) (s ++ [ri]) (happ ▸ hcn)
      (filterStep_FilterInv (o.perm i) m ri hinv)
    · intro e he
      rcases filterStep_subset (o.perm i) m ri e he with h | h
      · exact List.mem_append_left _ (hsub e h)
      · exact List.mem_append_right _ (by rw [h]; exact List.mem_singleton_self _)
    · intro y hy hyf
      apply filterStep_force_kept (o.perm i) hinv hsame
      rcases List.mem_append.1 hy with hy | hy
      · exact Or.inl (hforce y hy hyf)
      · rw [List.mem_singleton.1 hy] at hyf ⊢
        exact Or.inr ⟨hyf, rfl⟩
    · rw [happ]; exact hx
    · exact hf

/-- C9, force monotonicity of the filter: when the CNAME intents of the input
that share a DNS name also share their value, every DNS name at which the input
has an intent with `force` has an intent with `force` in the output of
`FilterRecordIntents`. -/
theorem filter_keeps_force_at_name (o : IterOrder) (recordIntents : List RecordIntent)
    (hcn : CnameSameValue recordIntents) :
    ∀ x ∈ recordIntents, x.Force = true →
      ∃ y ∈ FilterRecordIntents o recordIntents,
        y.Force = true ∧ y.Record.GetName = x.Record.GetName := by
  intro x hx hf
  have hinv := filterLoop_FilterInv o recordIntents 0 _ FilterInv_empty
  obtain ⟨e, he, hname, hef⟩ := filterLoop_force o recordIntents 0 NewNestedRecordMap []
    (by simpa using hcn) FilterInv_empty (fun _ h => absurd h (List.not_mem_nil _))
    (fun _ h => absurd h (List.not_mem_nil _)) x (by simpa using hx) hf
  refine ⟨e.intent, (mem_GetAllValues_iff (o.perm _) _ _).2 ⟨e, he, rfl⟩, hef, ?_⟩
  rw [← (hinv.coherent e he).1, hname]

/-- Witness for C9: a force A at `api.x` that comes after an older non-force
CNAME of that name; the output holds a force intent at `api.x`. -/
theorem filter_keeps_force_at_name_witness :
    CnameSameValue
        [sampleCNAME "api.x" "svc.y" "c1" 1 false, sampleA "api.x" "10.0.0.1" "c2" 5 true,
          sampleCNAME "api.x" "svc.y" "c3" 0 false] ∧
      ∃ y ∈ FilterRecordIntents IterOrder.insertion
          [sampleCNAME "api.x" "svc.y" "c1" 1 false, sampleA "api.x" "10.0.0.1" "c2" 5 true,
            sampleCNAME "api.x" "svc.y" "c3" 0 false],
        y.Force = true ∧
          y.Record.GetName = (sampleA "api.x" "10.0.0.1" "c2" 5 true).Record.GetName :=
  ⟨by decide,
    filter_keeps_force_at_name IterOrder.insertion
      [sampleCNAME "api.x" "svc.y" "c1" 1 false, sampleA "api.x" "10.0.0.1" "c2" 5 true,
        sampleCNAME "api.x" "svc.y" "c3" 0 false]
      (by decide) (sampleA "api.x" "10.0.0.1" "c2" 5 true) (by decide) (by decide)⟩

/-! ## The filtered list reconciled against itself -/

/-- Code at the failing input of C7: the filter keeps two CNAME intents for
`api.x`, and reconciling the filtered list against itself adds the older CNAME
and removes both, in the insertion order and in the reversed order of map
enumeration. -/
theorem filtered_desired_against_itself_is_not_a_noop :
    ReconcileAndValidate IterOrder.insertion acceptAll
        (FilterRecordIntents IterOrder.insertion
          [sampleCNAME "api.x" "a.y" "c1" 5 false, sampleCNAME "api.x" "b.y" "c2" 1 false])
        (FilterRecordIntents IterOrder.insertion
          [sampleCNAME "api.x" "a.y" "c1" 5 false, sampleCNAME "api.x" "b.y" "c2" 1 false]) =
      ([sampleCNAME "api.x" "b.y" "c2" 1 false],
        [sampleCNAME "api.x" "a.y" "c1" 5 false, sampleCNAME "api.x" "b.y" "c2" 1 false]) ∧
      (ReconcileAndValidate IterOrder.reversed acceptAll
        (FilterRecordIntents IterOrder.reversed
          [sampleCNAME "api.x" "a.y" "c1" 5 false, sampleCNAME "api.x" "b.y" "c2" 1 false])
        (FilterRecordIntents IterOrder.reversed
          [sampleCNAME "api.x" "a.y" "c1" 5 false, sampleCNAME "api.x" "b.y" "c2" 1 false])).1 =
      [sampleCNAME "api.x" "b.y" "c2" 1 false] := by
  constructor <;> decide

/-! ## A CNAME against actual A records -/

/-- Counterexample to C8: scenario 5 of the specification.  The two actual A
records are stale and removed, and the force CNAME is added. -/
theorem force_CNAME_wins_over_older_force_A :
    ReconcileAndValidate IterOrder.insertion acceptAll
        [sampleCNAME "api.x" "svc.y" "c1" 3 true]
        [sampleA "api.x" "1.1.1.1" "c2" 2 true, sampleA "api.x" "2.2.2.2" "c3" 4 false] =
      ([sampleCNAME "api.x" "svc.y" "c1" 3 true],
        [sampleA "api.x" "1.1.1.1" "c2" 2 true, sampleA "api.x" "2.2.2.2" "c3" 4 false]) := by
  decide

/-- When no actual key is a desired key, step 1 indexes nothing. -/
theorem staleAndIndex_snd_eq_nil (desired actual : List RecordIntent)
    (h : ∀ a ∈ actual, ∀ d ∈ desired, d.Key ≠ a.Key) :
    (staleAndIndex desired actual).2 = [] := by
  apply List.eq_nil_iff_forall_not_mem.2
  intro e he
  obtain ⟨hact, ⟨d, hd, hk⟩, _⟩ := mem_index desired actual e he
  exact h e.intent hact d hd hk

theorem IntentMap.merge_nil (m : IntentMap) : m.merge [] = m := rfl

/-- C8, amended: a CNAME intent `d` against actual records that are all A
records (at its name or not, with `force` or not, older or not): every actual
record is stale and removed in step 1, and `d` is added exactly when the
validator accepts it against the empty simulated set. -/
theorem CNAME_against_only_A_records (o : IterOrder) (v : Validator) (d : RecordIntent)
    (actual : List RecordIntent) (hd : d.Record.GetType = "CNAME")
    (hact : ∀ a ∈ actual, a.Record.GetType = "A") :
    (ReconcileAndValidate o v [d] actual).1 = (if v d [] = true then [d] else []) ∧
      (∀ a ∈ actual, ∃ r ∈ (ReconcileAndValidate o v [d] actual).2, r.Key = a.Key) ∧
      (∀ r ∈ (ReconcileAndValidate o v [d] actual).2, r ∈ actual) := by
  have hne : ∀ a ∈ actual, ∀ x ∈ [d], x.Key ≠ a.Key := by
    intro a ha x hx
    rw [List.mem_singleton.1 hx]
    exact Key_ne_of_GetType_ne (by rw [hd, hact a ha]; decide)
  have hidx := staleAndIndex_snd_eq_nil [d] actual hne
  have hstale : ∀ a ∈ actual, a.Key ∈ (staleAndIndex [d] actual).1.keys := by
    intro a ha
    rw [mem_keys_staleAndIndex]
    refine ⟨a, ha, ?_, rfl⟩
    simp only [List.map_cons, List.map_nil, List.mem_singleton]
    exact fun h => hne a ha d (List.mem_singleton_self _) h.symm
  have hsim : simulate actual (staleAndIndex [d] actual).1 [] = [] := by
    unfold simulate
    apply List.filter_eq_nil_iff.2
    intro a ha
    simp only [IntentMap.keys, List.map_nil, List.append_nil, decide_eq_true_eq, not_not]
    exact hstale a ha
  have hfinal : reconcileFinal o v [d] actual =
      if v d [] = true then ⟨[(d.Key, d)], (staleAndIndex [d] actual).1⟩
      else ⟨[], (staleAndIndex [d] actual).1⟩ := by
    simp only [reconcileFinal, reconcileLoop, reconcileStep, hidx,
      reconcileDecision_empty_index, hsim, IntentMap.merge_nil]
    rfl
  have hrem : (reconcileFinal o v [d] actual).toRemoveMap = (staleAndIndex [d] actual).1 := by
    rw [hfinal]; split <;> rfl
  refine ⟨?_, ?_, ?_⟩
  · simp only [ReconcileAndValidate, hfinal]
    split <;> simp [IntentMap.values, IterOrder.enum_nil, IterOrder.enum_singleton]
  · intro a ha
    apply exists_toRemove_of_key
    rw [hrem]
    exact hstale a ha
  · intro r hr
    rw [mem_toRemove_iff, hrem] at hr
    rcases staleStep_foldl_fst _ actual _ _ hr with h | ⟨h, _⟩
    · exact absurd h (List.not_mem_nil _)
    · exact h

/-- Witness for the amended C8, at scenario 5 of the specification. -/
theorem CNAME_against_only_A_records_witness :
    (ReconcileAndValidate IterOrder.insertion acceptAll
        [sampleCNAME "api.x" "svc.y" "c1" 3 true]
        [sampleA "api.x" "1.1.1.1" "c2" 2 true, sampleA "api.x" "2.2.2.2" "c3" 4 false]).1 =
      [sampleCNAME "api.x" "svc.y" "c1" 3 true] :=
  (CNAME_against_only_A_records IterOrder.insertion acceptAll
    (sampleCNAME "api.x" "svc.y" "c1" 3 true)
    [sampleA "api.x" "1.1.1.1" "c2" 2 true, sampleA "api.x" "2.2.2.2" "c3" 4 false]
    (by decide) (by decide)).1

/-! ## The force flag in the reconciler -/

/-- Counterexample to C10: a non-force desired A evicts the actual A of the
same key that has `force`, because it is older. -/
theorem nonforce_desired_evicts_force_actual :
    (∀ d ∈ [sampleA "api.x" "1.1.1.1" "c1" 1 false], d.Force = false) ∧
      (sampleA "api.x" "1.1.1.1" "c2" 5 true).Force = true ∧
      (sampleA "api.x" "1.1.1.1" "c2" 5 true).Key = (sampleA "api.x" "1.1.1.1" "c1" 1 false).Key ∧
      sampleA "api.x" "1.1.1.1" "c2" 5 true ∈
        (ReconcileAndValidate IterOrder.insertion acceptAll
          [sampleA "api.x" "1.1.1.1" "c1" 1 false] [sampleA "api.x" "1.1.1.1" "c2" 5 true]).2 := by
  decide

/-- A property of the entries of `toRemoveMap` that holds before the second
loop and for every proposed eviction holds when the loop ends. -/
theorem reconcileLoop_toRemove_inv (o : IterOrder) (v : Validator) (actual : List RecordIntent)
    (abnt : NestedRecordMap) (Q : String × RecordIntent → Prop) (ds : List RecordIntent)
    (hev : ∀ d ∈ ds, ∀ i ev, reconcileDecision (o.enum i) abnt d = some ev → ∀ kv ∈ ev, Q kv) :
    ∀ (i : Nat) (st : PlanState), (∀ kv ∈ st.toRemoveMap, Q kv) →
      ∀ kv ∈ (reconcileLoop o v actual abnt i ds st).toRemoveMap, Q kv := by
  induction ds with
  | nil => intro i st h; exact h
  | cons d rest ih =>
    intro i st h
    apply ih (fun x hx => hev x (List.mem_cons_of_mem _ hx)) (i + 1)
    intro kv hkv
    unfold reconcileStep at hkv
    cases hq : reconcileDecision (o.enum i) abnt d with
    | none =>
      rw [hq] at hkv
      exact h kv hkv
    | some ev =>
      rw [hq] at hkv
      simp only at hkv
      split at hkv
      · rcases IntentMap.mem_merge ev _ kv hkv with h1 | h1
        · exact h kv h1
        · exact hev d (List.mem_cons_self _ _) i ev hq kv h1
      · exact h kv hkv

/-- A desired intent without `force` only proposes evictions at its own name,
and only when it was created strictly before an indexed intent of that name
and of the type of the evicted intent. -/
theorem reconcileDecision_evicts_by_age {en : List RecordIntent → List RecordIntent}
    (hen : ∀ l, (en l).Perm l) {abnt : NestedRecordMap} {d : RecordIntent}
    (hf : d.Force = false) {ev : IntentMap} (h : reconcileDecision en abnt d = some ev) :
    ∀ kv ∈ ev, ∃ er ∈ abnt, ∃ e0 ∈ abnt, er.intent = kv.2 ∧ er.name = d.Record.GetName ∧
      e0.name = d.Record.GetName ∧ e0.recordType = er.recordType ∧
      d.Created < e0.intent.Created := by
  have hnf : ¬ d.Force = true := by rw [hf]; decide
  have hlist : ∀ (t : String) (a0 : RecordIntent) (rest : List RecordIntent),
      abnt.PeekNameTypeRecords en d.Record.GetName t = a0 :: rest →
      (∀ x ∈ a0 :: rest, ∃ e ∈ abnt, e.intent = x ∧ e.name = d.Record.GetName ∧
        e.recordType = t) := by
    intro t a0 rest hp x hx
    rw [← hp] at hx
    obtain ⟨e, he, hat, hx⟩ := (mem_PeekNameTypeRecords_iff hen _ _ _ x).1 hx
    exact ⟨e, he, hx, hat.1, hat.2⟩
  cases hr : d.Record with
  | ARecord n v =>
    have hn : d.Record.GetName = n := by rw [hr]; rfl
    rw [reconcileDecision_ARecord hr] at h
    rw [hn] at hlist
    simp only [dns.Record.GetName]
    cases hp : abnt.PeekNameTypeRecords en n "CNAME" with
    | cons a0 rest =>
      rw [hp] at h
      simp only at h
      split at h
      · rename_i hc
        cases h
        intro kv hkv
        obtain ⟨er, her, h1, h2, h3⟩ := hlist "CNAME" a0 rest hp kv.2 (mem_evictAll hkv).1
        obtain ⟨e0, he0, g1, g2, g3⟩ := hlist "CNAME" a0 rest hp a0 (List.mem_cons_self _ _)
        exact ⟨er, her, e0, he0, h1, h2, g2, g3.trans h3.symm,
          g1 ▸ hc.resolve_left hnf⟩
      · exact Option.noConfusion h
    | nil =>
      rw [hp] at h
      simp only at h
      cases hq : abnt.PeekNameTypeRecord n "A" v with
      | none =>
        rw [hq] at h
        cases h
        intro kv hkv; exact absurd hkv (List.not_mem_nil _)
      | some a =>
        rw [hq] at h
        simp only at h
        obtain ⟨e, he, hat, rfl⟩ := PeekNameTypeRecord_eq_some hq
        split at h
        · exact Option.noConfusion h
        · split at h
          · rename_i hc
            cases h
            intro kv hkv
            rcases (IntentMap.mem_set_iff [] _ _ kv).1 hkv with ⟨hkv, _⟩ | rfl
            · exact absurd hkv (List.not_mem_nil _)
            · exact ⟨e, he, e, he, rfl, hat.1, hat.1, rfl, hc.resolve_left hnf⟩
          · exact Option.noConfusion h
  | CNAMERecord n v =>
    have hn : d.Record.GetName = n := by rw [hr]; rfl
    rw [reconcileDecision_CNAMERecord hr] at h
    rw [hn] at hlist
    simp only [dns.Record.GetName]
    cases hp : abnt.PeekNameTypeRecords en n "A" with
    | cons a0 rest =>
      rw [hp] at h
      simp only at h
      split at h
      · rename_i hc
        cases h
        intro kv hkv
        have hmem := (mem_evictAll hkv).1
        obtain ⟨er, her, h1, h2, _⟩ := hlist "A" a0 rest hp kv.2 hmem
        exact ⟨er, her, er, her, h1, h2, h2, rfl, h1 ▸ hc.resolve_left hnf kv.2 hmem⟩
      · exact Option.noConfusion h
    | nil =>
      rw [hp] at h
      simp only at h
      cases hq : abnt.PeekNameTypeRecords en n "CNAME" with
      | nil =>
        rw [hq] at h
        cases h
        intro kv hkv; exact absurd hkv (List.not_mem_nil _)
      | cons a0 rest =>
        rw [hq] at h
        simp only at h
        split at h
        · exact Option.noConfusion h
        · split at h
          · rename_i hc
            cases h
            intro kv hkv
            obtain ⟨er, her, h1, h2, h3⟩ := hlist "CNAME" a0 rest hq kv.2 (mem_evictAll hkv).1
            obtain ⟨e0, he0, g1, g2, g3⟩ := hlist "CNAME" a0 rest hq a0 (List.mem_cons_self _ _)
            exact ⟨er, her, e0, he0, h1, h2, g2, g3.trans h3.symm,
              g1 ▸ hc.resolve_left hnf⟩
          · exact Option.noConfusion h

/-- C10, amended: when no desired intent has `force`, an intent of `toRemove`
whose key is a desired key was evicted on age alone: some desired intent of its
DNS name was created strictly before an actual intent of that name and of its
type.  The force flag of the actual intent plays no part. -/
theorem nonforce_desired_evicts_only_by_age (o : IterOrder) (v : Validator)
    (desired actual : List RecordIntent) (hnf : ∀ d ∈ desired, d.Force = false) :
    ∀ r ∈ (ReconcileAndValidate o v desired actual).2, (∃ d ∈ desired, d.Key = r.Key) →
      ∃ d ∈ desired, ∃ a ∈ actual, d.Record.GetName = r.Record.GetName ∧
        a.Record.GetName = r.Record.GetName ∧ a.Record.GetType = r.Record.GetType ∧
        d.Created < a.Created := by
  intro r hr hkey
  rw [mem_toRemove_iff] at hr
  have hQ := reconcileLoop_toRemove_inv o v actual (staleAndIndex desired actual).2
    (fun kv => kv.1 ∉ desired.map RecordIntent.Key ∨
      ∃ d ∈ desired, ∃ a ∈ actual, d.Record.GetName = kv.2.Record.GetName ∧
        a.Record.GetName = kv.2.Record.GetName ∧ a.Record.GetType = kv.2.Record.GetType ∧
        d.Created < a.Created) desired
    (by
      intro d hd i ev hev kv hkv
      right
      obtain ⟨er, her, e0, he0, h1, h2, h3, h4, h5⟩ :=
        reconcileDecision_evicts_by_age (o.perm i) (hnf d hd) hev kv hkv
      obtain ⟨_, _, c1, c2, _⟩ := mem_index desired actual er her
      obtain ⟨hact, _, g1, g2, _⟩ := mem_index desired actual e0 he0
      refine ⟨d, hd, e0.intent, hact, ?_, ?_, ?_, h5⟩
      · rw [← h1, ← c1, h2]
      · rw [← h1, ← c1, h2, ← g1, h3]
      · rw [← h1, ← c2, ← g2, h4])
    0 ⟨[], (staleAndIndex desired actual).1⟩
    (by
      intro kv hkv
      left
      rcases staleStep_foldl_fst _ actual _ kv hkv with h | ⟨_, _, h⟩
      · exact absurd h (List.not_mem_nil _)
      · exact h)
    (r.Key, r) hr
  rcases hQ with h | h
  · obtain ⟨d, hd, hk⟩ := hkey
    exact absurd (hk ▸ List.mem_map_of_mem _ hd) h
  · exact h

/-- Witness for the amended C10, at the input of the counterexample. -/
theorem nonforce_desired_evicts_only_by_age_witness :
    ∃ d ∈ [sampleA "api.x" "1.1.1.1" "c1" 1 false],
      ∃ a ∈ [sampleA "api.x" "1.1.1.1" "c2" 5 true],
        d.Record.GetName = (sampleA "api.x" "1.1.1.1" "c2" 5 true).Record.GetName ∧
        a.Record.GetName = (sampleA "api.x" "1.1.1.1" "c2" 5 true).Record.GetName ∧
        a.Record.GetType = (sampleA "api.x" "1.1.1.1" "c2" 5 true).Record.GetType ∧
        d.Created < a.Created :=
  nonforce_desired_evicts_only_by_age IterOrder.insertion acceptAll
    [sampleA "api.x" "1.1.1.1" "c1" 1 false] [sampleA "api.x" "1.1.1.1" "c2" 5 true]
    (by decide) (sampleA "api.x" "1.1.1.1" "c2" 5 true) (by decide)
    ⟨sampleA "api.x" "1.1.1.1" "c1" 1 false, by decide, by decide⟩

/-! ## The pairwise and the set policy in closed form -/

/-- `shouldReplaceExisting` decides the priority order. -/
theorem shouldReplaceExisting_eq_true_iff (new existing : RecordIntent) :
    shouldReplaceExisting new existing = true ↔ HigherPriority new existing := by
  unfold shouldReplaceExisting HigherPriority
  cases hn : new.Force <;> cases he : existing.Force <;> simp

theorem shouldReplaceExisting_eq_false_iff (new existing : RecordIntent) :
    shouldReplaceExisting new existing = false ↔ ¬ HigherPriority new existing := by
  rw [← shouldReplaceExisting_eq_true_iff]
  cases shouldReplaceExisting new existing <;> simp

/-- C11: `shouldReplaceExisting new existing` is true exactly when `new` has
`force` and `existing` has not, or the force flags agree and `new` was created
strictly before `existing`; with equal force flags the older intent wins, and
with equal force flags and equal `created` the incumbent is kept. -/
theorem shouldReplaceExisting_iff (new existing : RecordIntent) :
    (shouldReplaceExisting new existing = true ↔
        (new.Force = true ∧ existing.Force = false) ∨
          (new.Force = existing.Force ∧ new.Created < existing.Created)) ∧
      (new.Force = existing.Force →
        (shouldReplaceExisting new existing = true ↔ new.Created < existing.Created)) ∧
      (new.Force = existing.Force → new.Created = existing.Created →
        shouldReplaceExisting new existing = false) := by
  refine ⟨shouldReplaceExisting_eq_true_iff new existing, ?_, ?_⟩
  · intro hf
    rw [shouldReplaceExisting_eq_true_iff]
    unfold HigherPriority
    rw [hf]
    cases existing.Force <;> simp
  · intro hf hc
    rw [shouldReplaceExisting_eq_false_iff]
    unfold HigherPriority
    rw [hf, hc]
    cases existing.Force <;> simp

/-- C12: against a list of existing intents that all have the force flag of
`new`, `shouldReplaceAllExisting` is true exactly when `new` was created
strictly before every one of them. -/
theorem shouldReplaceAllExisting_same_force (new : RecordIntent) (existing : List RecordIntent)
    (hsame : ∀ e ∈ existing, e.Force = new.Force) :
    shouldReplaceAllExisting new existing = true ↔
      ∀ e ∈ existing, new.Created < e.Created := by
  cases existing with
  | nil => simp [shouldReplaceAllExisting]
  | cons a rest =>
    rw [shouldReplaceAllExisting_eq new (a :: rest) (List.cons_ne_nil _ _)]
    cases hf : new.Force with
    | false =>
      have hany : (a :: rest).any (fun e => e.Force) = false := by
        rw [List.any_eq_false]
        intro e he
        rw [hsame e he, hf]
        decide
      rw [if_neg (by rw [hany]; simp), if_neg (by simp), if_neg (by simp)]
      simp [List.all_eq_true]
    | true =>
      have hall : (a :: rest).all (fun e => e.Force) = true := by
        rw [List.all_eq_true]
        intro e he
        rw [hsame e he, hf]
      have hnon : ¬ ((a :: rest).all (fun e => !e.Force) = true) := by
        rw [List.all_eq_true]
        intro h
        have := h a (List.mem_cons_self _ _)
        rw [hsame a (List.mem_cons_self _ _), hf] at this
        exact absurd this (by decide)
      rw [if_neg (by simp), if_neg (fun h => hnon h.2), if_neg (by rw [hall]; simp)]
      simp [List.all_eq_true]

/-- Witness for C12: a non-force intent created at 1 replaces two non-force
intents created at 2 and 3. -/
theorem shouldReplaceAllExisting_same_force_witness :
    shouldReplaceAllExisting (sampleCNAME "api.x" "svc.y" "c1" 1 false)
      [sampleA "api.x" "1.1.1.1" "c2" 2 false, sampleA "api.x" "2.2.2.2" "c3" 3 false] = true :=
  (shouldReplaceAllExisting_same_force (sampleCNAME "api.x" "svc.y" "c1" 1 false)
    [sampleA "api.x" "1.1.1.1" "c2" 2 false, sampleA "api.x" "2.2.2.2" "c3" 3 false]
    (by decide)).2 (by decide)

/-- C13: a force intent against a list of existing intents of which at least
one has no `force` replaces them all exactly when it was created strictly
before every existing intent that has `force`. -/
theorem shouldReplaceAllExisting_mixed_force (new : RecordIntent) (existing : List RecordIntent)
    (hf : new.Force = true) (hmixed : ∃ e ∈ existing, e.Force = false) :
    shouldReplaceAllExisting new existing = true ↔
      ∀ e ∈ existing, e.Force = true → new.Created < e.Created := by
  obtain ⟨x, hx, hxf⟩ := hmixed
  have hne : existing ≠ [] := List.ne_nil_of_mem hx
  rw [shouldReplaceAllExisting_eq new existing hne, hf]
  have hnotall : existing.all (fun e => e.Force) = false := by
    rw [List.all_eq_false]
    exact ⟨x, hx, by rw [hxf]; decide⟩
  rw [if_neg (by simp)]
  by_cases hnon : existing.all (fun e => !e.Force) = true
  · rw [if_pos ⟨rfl, hnon⟩]
    simp only [true_iff]
    intro e he hef
    rw [List.all_eq_true] at hnon
    have := hnon e he
    rw [hef] at this
    exact absurd this (by decide)
  · rw [if_neg (fun h => hnon h.2), if_pos ⟨rfl, hnotall⟩, List.all_eq_true]
    constructor
    · intro h e he hef
      have := h e he
      rw [hef] at this
      simpa using this
    · intro h e he
      cases hef : e.Force
      · rfl
      · simpa using h e he hef

/-- Witness for C13: a force intent created at 3 replaces a force intent
created at 5 and a non-force intent created at 1. -/
theorem shouldReplaceAllExisting_mixed_force_witness :
    shouldReplaceAllExisting (sampleCNAME "api.x" "svc.y" "c1" 3 true)
      [sampleA "api.x" "1.1.1.1" "c2" 5 true, sampleA "api.x" "2.2.2.2" "c3" 1 false] = true :=
  (shouldReplaceAllExisting_mixed_force (sampleCNAME "api.x" "svc.y" "c1" 3 true)
    [sampleA "api.x" "1.1.1.1" "c2" 5 true, sampleA "api.x" "2.2.2.2" "c3" 1 false]
    (by decide) ⟨sampleA "api.x" "2.2.2.2" "c3" 1 false, by decide, by decide⟩).2 (by decide)

/-! ## One desired intent against one actual intent -/

/-- One desired intent against one actual intent of another key: the actual
intent is stale and removed, and the desired intent is added exactly when the
validator accepts it against the empty simulated set. -/
theorem reconcile_one_against_stale (o : IterOrder) (v : Validator) (d c : RecordIntent)
    (hne : c.Key ≠ d.Key) :
    ReconcileAndValidate o v [d] [c] = (if v d [] = true then [d] else [], [c]) := by
  have hstale : staleAndIndex [d] [c] = ([(c.Key, c)], []) := by
    simp [staleAndIndex, staleStep, hne, IntentMap.set, NewNestedRecordMap]
  have hsim : simulate [c] [(c.Key, c)] [] = [] := by
    simp [simulate, IntentMap.keys]
  have hfinal : reconcileFinal o v [d] [c] =
      if v d [] = true then ⟨[(d.Key, d)], [(c.Key, c)]⟩ else ⟨[], [(c.Key, c)]⟩ := by
    simp only [reconcileFinal, hstale, reconcileLoop, reconcileStep,
      reconcileDecision_empty_index, hsim, IntentMap.merge_nil]
    rfl
  simp only [ReconcileAndValidate, hfinal]
  split <;> simp [IntentMap.values, IterOrder.enum_nil, IterOrder.enum_singleton]

/-- C14: a desired A intent `d` against an actual CNAME intent `c` of the same
DNS name, with `d.force` or `d` created strictly before `c`, and a validator
that accepts `d` (against the simulated set the reconciler builds, which is
empty): `ReconcileAndValidate [d] [c]` returns `toAdd = [d]` and
`toRemove = [c]`. -/
theorem A_replaces_conflicting_CNAME (o : IterOrder) (v : Validator) (d c : RecordIntent)
    (hd : d.Record.GetType = "A") (hc : c.Record.GetType = "CNAME")
    (_hname : d.Record.GetName = c.Record.GetName)
    (_hwins : d.Force = true ∨ d.Created < c.Created) (hacc : v d [] = true) :
    ReconcileAndValidate o v [d] [c] = ([d], [c]) := by
  rw [reconcile_one_against_stale o v d c (Key_ne_of_GetType_ne (by rw [hd, hc]; decide)),
    if_pos hacc]

/-- Witness for C14, scenario "A replaces CNAME by age". -/
theorem A_replaces_conflicting_CNAME_witness :
    ReconcileAndValidate IterOrder.insertion acceptAll
        [sampleA "api.x" "10.0.0.1" "c1" 1 false] [sampleCNAME "api.x" "svc.y" "c2" 5 false] =
      ([sampleA "api.x" "10.0.0.1" "c1" 1 false], [sampleCNAME "api.x" "svc.y" "c2" 5 false]) :=
  A_replaces_conflicting_CNAME IterOrder.insertion acceptAll
    (sampleA "api.x" "10.0.0.1" "c1" 1 false) (sampleCNAME "api.x" "svc.y" "c2" 5 false)
    (by decide) (by decide) (by decide) (by decide) (by decide)

/-- C16, same-slot replacement: a desired A intent `d` against an actual intent
`a` of the same key (keys identifying records).  When `a` is `Equal` to `d`
nothing happens; otherwise `d` replaces `a` exactly when `d` has `force` or was
created strictly before `a`, and the validator accepts `d` against the empty
simulated set; in every other case both outputs are empty. -/
theorem same_slot_replacement (o : IterOrder) (v : Validator) (d a : RecordIntent)
    (hd : d.Record.GetType = "A") (hkey : a.Key = d.Key) (hkf : KeysFaithful [d, a]) :
    ReconcileAndValidate o v [d] [a] =
      if a.Equal d = true then ([], [])
      else if (d.Force = true ∨ d.Created < a.Created) ∧ v d [] = true then ([d], [a])
      else ([], []) := by
  have hrec : a.Record = d.Record :=
    hkf a (by simp) d (by simp) hkey
  cases hr : d.Record with
  | CNAMERecord n w =>
    rw [hr] at hd
    simp [dns.Record.GetType] at hd
  | ARecord n w =>
    have hstale : staleAndIndex [d] [a] = ([], [⟨n, "A", w, a⟩]) := by
      simp [staleAndIndex, staleStep, hkey, NestedRecordMap.Set, NewNestedRecordMap, hrec, hr,
        dns.Record.GetName, dns.Record.GetType, dns.Record.GetValue]
    have hpC : NestedRecordMap.PeekNameTypeRecords (o.enum 0) [⟨n, "A", w, a⟩] n "CNAME" = [] := by
      simp [NestedRecordMap.PeekNameTypeRecords, Leaf.at, IterOrder.enum_nil]
    have hpA : NestedRecordMap.PeekNameTypeRecord [⟨n, "A", w, a⟩] n "A" w = some a := by
      simp [NestedRecordMap.PeekNameTypeRecord, Leaf.atValue]
    have hdec : reconcileDecision (o.enum 0) [⟨n, "A", w, a⟩] d =
        if a.Equal d = true then none
        else if d.Force = true ∨ d.Created < a.Created then some (IntentMap.set [] a.Key a)
        else none := by
      rw [reconcileDecision_ARecord hr, hpC]
      simp only [hpA]
    have hsim : simulate [a] [] (IntentMap.set [] a.Key a) = [] := by
      simp [simulate, IntentMap.keys, IntentMap.set]
    have hout : ReconcileAndValidate o v [d] [a] =
        (o.enum 1 (reconcileFinal o v [d] [a]).toAddMap.values,
          o.enum 2 (reconcileFinal o v [d] [a]).toRemoveMap.values) := rfl
    have hfinal : reconcileFinal o v [d] [a] =
        if a.Equal d = true then ⟨[], []⟩
        else if (d.Force = true ∨ d.Created < a.Created) ∧ v d [] = true then
          ⟨[(d.Key, d)], [(a.Key, a)]⟩
        else ⟨[], []⟩ := by
      simp only [reconcileFinal, hstale, reconcileLoop]
      unfold reconcileStep
      rw [hdec]
      by_cases he : a.Equal d = true
      · rw [if_pos he, if_pos he]
      · rw [if_neg he, if_neg he]
        by_cases hw : d.Force = true ∨ d.Created < a.Created
        · rw [if_pos hw]
          simp only [hsim]
          by_cases hv : v d [] = true
          · rw [if_pos hv, if_pos ⟨hw, hv⟩]
            rfl
          · rw [if_neg hv, if_neg (fun h => hv h.2)]
        · rw [if_neg hw, if_neg (fun h => hw h.1)]
    rw [hout, hfinal]
    by_cases he : a.Equal d = true
    · simp [he, IntentMap.values, IterOrder.enum_nil]
    · by_cases hw : (d.Force = true ∨ d.Created < a.Created) ∧ v d [] = true
      · simp [he, hw, IntentMap.values, IterOrder.enum_singleton]
      · simp [he, hw, IntentMap.values, IterOrder.enum_nil]

/-- Witness for C16: the desired A is older than the actual A of the same key,
which another container owns and which has `force`; it replaces it. -/
theorem same_slot_replacement_witness :
    KeysFaithful [sampleA "api.x" "10.0.0.1" "c1" 1 false, sampleA "api.x" "10.0.0.1" "c2" 5 true] ∧
      ReconcileAndValidate IterOrder.insertion acceptAll
          [sampleA "api.x" "10.0.0.1" "c1" 1 false] [sampleA "api.x" "10.0.0.1" "c2" 5 true] =
        ([sampleA "api.x" "10.0.0.1" "c1" 1 false], [sampleA "api.x" "10.0.0.1" "c2" 5 true]) :=
  ⟨by decide,
    (same_slot_replacement IterOrder.insertion acceptAll
      (sampleA "api.x" "10.0.0.1" "c1" 1 false) (sampleA "api.x" "10.0.0.1" "c2" 5 true)
      (by decide) (by decide) (by decide)).trans (by decide)⟩

/-! ## Evictions and their replacement -/

/-- A property of the state that every iteration of the second loop keeps
holds when the loop ends. -/
theorem reconcileLoop_state_inv (o : IterOrder) (v : Validator) (actual : List RecordIntent)
    (abnt : NestedRecordMap) (P : PlanState → Prop) (ds : List RecordIntent)
    (hstep : ∀ d ∈ ds, ∀ i st, P st → P (reconcileStep (o.enum i) v actual abnt st d)) :
    ∀ (i : Nat) (st : PlanState), P st → P (reconcileLoop o v actual abnt i ds st) := by
  induction ds with
  | nil => intro i st h; exact h
  | cons d rest ih =>
    intro i st h
    exact ih (fun x hx => hstep x (List.mem_cons_of_mem _ hx)) (i + 1) _
      (hstep d (List.mem_cons_self _ _) i st h)

/-- Every eviction a desired intent proposes is the intent of a leaf of the
index at the name of that desired intent. -/
theorem reconcileDecision_evicts_at_name {en : List RecordIntent → List RecordIntent}
    (hen : ∀ l, (en l).Perm l) {abnt : NestedRecordMap} {d : RecordIntent} {ev : IntentMap}
    (h : reconcileDecision en abnt d = some ev) :
    ∀ kv ∈ ev, ∃ e ∈ abnt, e.intent = kv.2 ∧ e.name = d.Record.GetName := by
  have hlist : ∀ (t : String) (l : List RecordIntent),
      abnt.PeekNameTypeRecords en d.Record.GetName t = l →
      ∀ kv ∈ evictAll l, ∃ e ∈ abnt, e.intent = kv.2 ∧ e.name = d.Record.GetName := by
    intro t l hp kv hkv
    have hx := (mem_evictAll hkv).1
    rw [← hp] at hx
    obtain ⟨e, he, hat, hx⟩ := (mem_PeekNameTypeRecords_iff hen _ _ _ kv.2).1 hx
    exact ⟨e, he, hx, hat.1⟩
  have hnil : ∀ kv ∈ ([] : IntentMap), ∃ e ∈ abnt, e.intent = kv.2 ∧ e.name = d.Record.GetName :=
    fun kv hkv => absurd hkv (List.not_mem_nil _)
  cases hr : d.Record with
  | ARecord n w =>
    have hn : d.Record.GetName = n := by rw [hr]; rfl
    rw [reconcileDecision_ARecord hr] at h
    rw [hn] at hlist hnil
    simp only [dns.Record.GetName]
    cases hp : abnt.PeekNameTypeRecords en n "CNAME" with
    | cons a0 rest =>
      rw [hp] at h
      simp only at h
      split at h
      · cases h; exact hlist "CNAME" _ hp
      · exact Option.noConfusion h
    | nil =>
      rw [hp] at h
      simp only at h
      cases hq : abnt.PeekNameTypeRecord n "A" w with
      | none =>
        rw [hq] at h
        cases h
        exact hnil
      | some a =>
        rw [hq] at h
        simp only at h
        obtain ⟨e, he, hat, rfl⟩ := PeekNameTypeRecord_eq_some hq
        split at h
        · exact Option.noConfusion h
        · split at h
          · cases h
            intro kv hkv
            rcases (IntentMap.mem_set_iff [] _ _ kv).1 hkv with ⟨hkv, _⟩ | rfl
            · exact absurd hkv (List.not_mem_nil _)
            · exact ⟨e, he, rfl, hat.1⟩
          · exact Option.noConfusion h
  | CNAMERecord n w =>
    have hn : d.Record.GetName = n := by rw [hr]; rfl
    rw [reconcileDecision_CNAMERecord hr] at h
    rw [hn] at hlist hnil
    simp only [dns.Record.GetName]
    cases hp : abnt.PeekNameTypeRecords en n "A" with
    | cons a0 rest =>
      rw [hp] at h
      simp only at h
      split at h
      · cases h; exact hlist "A" _ hp
      · exact Option.noConfusion h
    | nil =>
      rw [hp] at h
      simp only at h
      cases hq : abnt.PeekNameTypeRecords en n "CNAME" with
      | nil =>
        rw [hq] at h
        cases h
        exact hnil
      | cons a0 rest =>
        rw [hq] at h
        simp only at h
        split at h
        · exact Option.noConfusion h
        · split at h
          · cases h; exact hlist "CNAME" _ hq
          · exact Option.noConfusion h

/-- C17: when the keys of the desired intents identify their records, every
intent of `toRemove` whose key is a desired key (an eviction, not a stale
removal) has the DNS name of some intent of `toAdd`. -/
theorem eviction_comes_with_replacement (o : IterOrder) (v : Validator)
    (desired actual : List RecordIntent) (hkf : KeysFaithful desired) :
    ∀ r ∈ (ReconcileAndValidate o v desired actual).2, (∃ d ∈ desired, d.Key = r.Key) →
      ∃ x ∈ (ReconcileAndValidate o v desired actual).1,
        x.Record.GetName = r.Record.GetName := by
  intro r hr hkey
  rw [mem_toRemove_iff] at hr
  have hinv := reconcileLoop_state_inv o v actual (staleAndIndex desired actual).2
    (fun st => ∀ kv ∈ st.toRemoveMap, kv.1 ∈ desired.map RecordIntent.Key →
      ∃ d ∈ desired, d.Key ∈ st.toAddMap.keys ∧ d.Record.GetName = kv.2.Record.GetName)
    desired
    (by
      intro d hd i st hst
      unfold reconcileStep
      cases hq : reconcileDecision (o.enum i) (staleAndIndex desired actual).2 d with
      | none => exact hst
      | some ev =>
        simp only
        split
        · intro kv hkv hk
          rcases IntentMap.mem_merge ev _ kv hkv with h1 | h1
          · obtain ⟨d0, hd0, hk0, hn0⟩ := hst kv h1 hk
            exact ⟨d0, hd0, (IntentMap.mem_keys_set _ _ _ _).2 (Or.inl hk0), hn0⟩
          · obtain ⟨e, he, hint, hname⟩ := reconcileDecision_evicts_at_name (o.perm i) hq kv h1
            refine ⟨d, hd, (IntentMap.mem_keys_set _ _ _ _).2 (Or.inr rfl), ?_⟩
            rw [← hint, ← (mem_index desired actual e he).2.2.1, hname]
        · exact hst)
    0 ⟨[], (staleAndIndex desired actual).1⟩
    (by
      intro kv hkv hk
      rcases staleStep_foldl_fst _ actual _ kv hkv with h | ⟨_, _, h⟩
      · exact absurd h (List.not_mem_nil _)
      · exact absurd hk h)
  obtain ⟨d0, hd0, hk0⟩ := hkey
  obtain ⟨d, hd, hdk, hdn⟩ := hinv (r.Key, r) hr (hk0 ▸ List.mem_map_of_mem _ hd0)
  obtain ⟨x, hx⟩ := (IntentMap.mem_keys_iff _ _).1 hdk
  rcases reconcileLoop_toAdd_own o v actual _ desired 0 _ _ hx with h | ⟨hxd, hxk⟩
  · exact absurd h (List.not_mem_nil _)
  · have hxk2 : d.Key = x.Key := hxk
    refine ⟨x, ?_, ?_⟩
    · rw [mem_toAdd_iff, ← hxk2]
      exact hx
    · rw [← hkf d hd x hxd hxk2]
      exact hdn

/-- Witness for C17: the actual A at `api.x` is evicted together with the
addition of the desired A at `api.x`; the stale CNAME at `old.x` is removed
without a replacement. -/
theorem eviction_comes_with_replacement_witness :
    ReconcileAndValidate IterOrder.insertion acceptAll
        [sampleA "api.x" "10.0.0.1" "c1" 1 false]
        [sampleA "api.x" "10.0.0.1" "c2" 5 false, sampleCNAME "old.x" "svc.y" "c2" 5 false] =
      ([sampleA "api.x" "10.0.0.1" "c1" 1 false],
        [sampleCNAME "old.x" "svc.y" "c2" 5 false, sampleA "api.x" "10.0.0.1" "c2" 5 false]) ∧
      ∃ x ∈ (ReconcileAndValidate IterOrder.insertion acceptAll
          [sampleA "api.x" "10.0.0.1" "c1" 1 false]
          [sampleA "api.x" "10.0.0.1" "c2" 5 false, sampleCNAME "old.x" "svc.y" "c2" 5 false]).1,
        x.Record.GetName = (sampleA "api.x" "10.0.0.1" "c2" 5 false).Record.GetName :=
  ⟨by decide,
    eviction_comes_with_replacement IterOrder.insertion acceptAll
      [sampleA "api.x" "10.0.0.1" "c1" 1 false]
      [sampleA "api.x" "10.0.0.1" "c2" 5 false, sampleCNAME "old.x" "svc.y" "c2" 5 false]
      (by decide) (sampleA "api.x" "10.0.0.1" "c2" 5 false) (by decide)
      ⟨sampleA "api.x" "10.0.0.1" "c1" 1 false, by decide, by decide⟩⟩

/-! ## The event handler and the state tracker -/

theorem StateTracker.Get_Upsert (t : StateTracker) (id name : String) (created : Int)
    (intents : List RecordIntent) (status : String) :
    (t.Upsert id name created intents status).Get id = some ⟨name, created, status, intents⟩ := by
  unfold StateTracker.Get StateTracker.Upsert
  rw [List.find?_append]
  have : List.find? (fun kv => decide (kv.1 = id))
      (List.filter (fun kv => decide (kv.1 ≠ id)) t) = none := by
    rw [List.find?_eq_none]
    intro kv hkv
    have := (List.mem_filter.1 hkv).2
    simpa using this
  rw [this]
  simp

/-- Counterexample to C19: the container `c1` is tracked with one intent; a
`start` event for `c1` whose intent build succeeds with the empty list leaves
the entry with its old intent, not with the built (empty) list. -/
theorem handleEvent_keeps_entry_on_empty_build :
    (handleEvent (fun _ => Except.ok [])
        (NewStateTracker.Upsert "c1" "web" 1 [sampleA "api.x" "10.0.0.1" "c1" 1 false] "running")
        ⟨"c1", "web", "start", 2, []⟩).Get "c1" =
      some ⟨"web", 1, "running", [sampleA "api.x" "10.0.0.1" "c1" 1 false]⟩ := by
  decide

/-- C19, amended: an event with an empty id leaves the tracker unchanged; a
`start` event with a non-empty id whose intent build succeeds with a non-empty
list upserts the entry of that id, which afterwards is running with exactly the
built intents; when the build succeeds with the empty list, or fails, the
tracker is left unchanged; any other status marks the id removed. -/
theorem handleEvent_effect
    (build : ContainerEvent → Except String (List RecordIntent)) (t : StateTracker)
    (evt : ContainerEvent) :
    (evt.ID = "" → handleEvent build t evt = t) ∧
      (evt.ID ≠ "" → evt.Status = "start" → ∀ intents, build evt = Except.ok intents →
        intents ≠ [] →
        handleEvent build t evt = t.Upsert evt.ID evt.Name evt.Created intents "running" ∧
          (handleEvent build t evt).Get evt.ID =
            some ⟨evt.Name, evt.Created, "running", intents⟩) ∧
      (evt.ID ≠ "" → evt.Status = "start" → build evt = Except.ok [] →
        handleEvent build t evt = t) ∧
      (evt.ID ≠ "" → evt.Status = "start" → ∀ err, build evt = Except.error err →
        handleEvent build t evt = t) ∧
      (evt.ID ≠ "" → evt.Status ≠ "start" → handleEvent build t evt = t.MarkRemoved evt.ID) := by
  refine ⟨?_, ?_, ?_, ?_, ?_⟩
  · intro h
    unfold handleEvent
    rw [if_pos h]
  · intro hid hs intents hb hne
    have hstep : handleEvent build t evt =
        t.Upsert evt.ID evt.Name evt.Created intents "running" := by
      unfold handleEvent
      rw [if_neg hid, if_pos hs, hb]
      simp only
      rw [if_pos (List.length_pos.2 hne)]
    exact ⟨hstep, by rw [hstep, StateTracker.Get_Upsert]⟩
  · intro hid hs hb
    unfold handleEvent
    rw [if_neg hid, if_pos hs, hb]
    rfl
  · intro hid hs err hb
    unfold handleEvent
    rw [if_neg hid, if_pos hs, hb]
  · intro hid hs
    unfold handleEvent
    rw [if_neg hid, if_neg hs]

/-- Witness for the amended C19: a `start` event with a non-empty build
replaces the entry of `c1`. -/
theorem handleEvent_effect_witness :
    (handleEvent (fun _ => Except.ok [sampleA "api.x" "10.0.0.2" "c1" 2 false])
        (NewStateTracker.Upsert "c1" "web" 1 [sampleA "api.x" "10.0.0.1" "c1" 1 false] "running")
        ⟨"c1", "web", "start", 2, []⟩).Get "c1" =
      some ⟨"web", 2, "running", [sampleA "api.x" "10.0.0.2" "c1" 2 false]⟩ :=
  ((handleEvent_effect (fun _ => Except.ok [sampleA "api.x" "10.0.0.2" "c1" 2 false])
    (NewStateTracker.Upsert "c1" "web" 1 [sampleA "api.x" "10.0.0.1" "c1" 1 false] "running")
    ⟨"c1", "web", "start", 2, []⟩).2.1 (by decide) (by decide) _ rfl (by decide)).2

/-! ## The priority order -/

theorem HigherPriority_irrefl (a : RecordIntent) : ¬ HigherPriority a a := by
  unfold HigherPriority
  cases a.Force <;> simp

theorem HigherPriority_asymm {a b : RecordIntent} (h : HigherPriority a b) :
    ¬ HigherPriority b a := by
  unfold HigherPriority at h ⊢
  cases ha : a.Force <;> cases hb : b.Force <;> simp [ha, hb] at h ⊢ <;> omega

theorem HigherPriority_trans {a b c : RecordIntent} (h1 : HigherPriority a b)
    (h2 : HigherPriority b c) : HigherPriority a c := by
  unfold HigherPriority at h1 h2 ⊢
  cases ha : a.Force <;> cases hb : b.Force <;> cases hc : c.Force <;>
    simp [ha, hb, hc] at h1 h2 ⊢ <;> omega

/-- An intent that beats `b` beats every intent that does not beat `b`. -/
theorem HigherPriority_of_not {a b c : RecordIntent} (h1 : HigherPriority a b)
    (h2 : ¬ HigherPriority c b) : HigherPriority a c := by
  unfold HigherPriority at h1 h2 ⊢
  cases ha : a.Force <;> cases hb : b.Force <;> cases hc : c.Force <;>
    simp [ha, hb, hc] at h1 h2 ⊢ <;> omega

/-- Two intents of which neither beats the other agree on `force` and `created`. -/
theorem tie_of_not_HigherPriority {a b : RecordIntent} (h1 : ¬ HigherPriority a b)
    (h2 : ¬ HigherPriority b a) : a.Force = b.Force ∧ a.Created = b.Created := by
  unfold HigherPriority at h1 h2
  cases ha : a.Force <;> cases hb : b.Force <;> simp [ha, hb] at h1 h2 ⊢ <;> omega

/-! ## Intents of one record, met one after the other -/

theorem pickBest_some (b ri : RecordIntent) :
    pickBest (some b) ri = if HigherPriority ri b then some ri else some b := by
  show (if shouldReplaceExisting ri b = true then some ri else some b) = _
  by_cases h : HigherPriority ri b
  · rw [if_pos h, if_pos ((shouldReplaceExisting_eq_true_iff ri b).2 h)]
  · rw [if_neg h, if_neg (fun h2 => h ((shouldReplaceExisting_eq_true_iff ri b).1 h2))]

/-- Feeding `s` after the incumbent `b`: the survivor beats every intent met
before it and is beaten by none met after it. -/
theorem foldl_pickBest_split (s : List RecordIntent) :
    ∀ (pre : List RecordIntent) (b : RecordIntent) (post : List RecordIntent),
      (∀ y ∈ pre, HigherPriority b y) → (∀ y ∈ post, ¬ HigherPriority y b) →
      ∃ pre2 x post2, pre ++ b :: post ++ s = pre2 ++ x :: post2 ∧
        s.foldl pickBest (some b) = some x ∧
        (∀ y ∈ pre2, HigherPriority x y) ∧ (∀ y ∈ post2, ¬ HigherPriority y x) := by
  induction s with
  | nil =>
    intro pre b post h1 h2
    exact ⟨pre, b, post, by simp, rfl, h1, h2⟩
  | cons ri rest ih =>
    intro pre b post h1 h2
    simp only [List.foldl_cons, pickBest_some]
    by_cases h : HigherPriority ri b
    · rw [if_pos h]
      obtain ⟨pre2, x, post2, heq, hfold, g1, g2⟩ := ih (pre ++ b :: post) ri []
        (by
          intro y hy
          rcases List.mem_append.1 hy with hy | hy
          · exact HigherPriority_trans h (h1 y hy)
          · rcases List.mem_cons.1 hy with rfl | hy
            · exact h
            · exact HigherPriority_of_not h (h2 y hy))
        (fun _ hy => absurd hy (List.not_mem_nil _))
      exact ⟨pre2, x, post2, by rw [← heq]; simp, hfold, g1, g2⟩
    · rw [if_neg h]
      obtain ⟨pre2, x, post2, heq, hfold, g1, g2⟩ := ih pre b (post ++ [ri]) h1
        (by
          intro y hy
          rcases List.mem_append.1 hy with hy | hy
          · exact h2 y hy
          · rw [List.mem_singleton.1 hy]; exact h)
      exact ⟨pre2, x, post2, by rw [← heq]; simp, hfold, g1, g2⟩

/-- Feeding a non-empty list from scratch. -/
theorem foldl_pickBest_none_split (a : RecordIntent) (s : List RecordIntent) :
    ∃ pre x post, a :: s = pre ++ x :: post ∧ (a :: s).foldl pickBest none = some x ∧
      (∀ y ∈ pre, HigherPriority x y) ∧ (∀ y ∈ post, ¬ HigherPriority y x) := by
  obtain ⟨pre2, x, post2, heq, hfold, g1, g2⟩ := foldl_pickBest_split s [] a []
    (fun _ hy => absurd hy (List.not_mem_nil _)) (fun _ hy => absurd hy (List.not_mem_nil _))
  exact ⟨pre2, x, post2, by rw [← heq]; simp, hfold, g1, g2⟩

theorem bestOf_eq_filter (r : dns.Record) (l : List RecordIntent) :
    ∀ acc, bestOf r acc l = (l.filter (fun a => decide (a.Record = r))).foldl pickBest acc := by
  induction l with
  | nil => intro acc; rfl
  | cons a rest ih =>
    intro acc
    unfold bestOf at ih ⊢
    by_cases h : a.Record = r
    · rw [List.filter_cons_of_pos (by simpa using h)]
      simp only [List.foldl_cons, if_pos h]
      exact ih _
    · rw [List.filter_cons_of_neg (by simpa using h)]
      simp only [List.foldl_cons, if_neg h]
      exact ih _

/-- The survivor of a record is an intent of the list with that record that no
intent of the list with that record beats. -/
theorem bestOf_eq_some {r : dns.Record} {l : List RecordIntent} {x : RecordIntent}
    (h : bestOf r none l = some x) :
    x ∈ l ∧ x.Record = r ∧ ∀ y ∈ l, y.Record = r → ¬ HigherPriority y x := by
  rw [bestOf_eq_filter] at h
  cases hs : l.filter (fun a => decide (a.Record = r)) with
  | nil => rw [hs] at h; exact Option.noConfusion h
  | cons a s =>
    rw [hs] at h
    obtain ⟨pre, z, post, heq, hfold, g1, g2⟩ := foldl_pickBest_none_split a s
    rw [hfold] at h
    cases h
    have hmem : ∀ y, y ∈ a :: s ↔ y ∈ l ∧ y.Record = r := by
      intro y
      rw [← hs, List.mem_filter]
      simp
    have hx : x ∈ a :: s := by rw [heq]; simp
    refine ⟨((hmem x).1 hx).1, ((hmem x).1 hx).2, ?_⟩
    intro y hy hyr
    have hy2 : y ∈ pre ++ x :: post := heq ▸ (hmem y).2 ⟨hy, hyr⟩
    rcases List.mem_append.1 hy2 with hy2 | hy2
    · exact HigherPriority_asymm (g1 y hy2)
    · rcases List.mem_cons.1 hy2 with rfl | hy2
      · exact HigherPriority_irrefl _
      · exact g2 y hy2

theorem bestOf_isSome {r : dns.Record} {l : List RecordIntent} {y : RecordIntent} (hy : y ∈ l)
    (hyr : y.Record = r) : ∃ x, bestOf r none l = some x := by
  rw [bestOf_eq_filter]
  cases hs : l.filter (fun a => decide (a.Record = r)) with
  | nil =>
    have : y ∈ l.filter (fun a => decide (a.Record = r)) :=
      List.mem_filter.2 ⟨hy, by simpa using hyr⟩
    rw [hs] at this
    exact absurd this (List.not_mem_nil _)
  | cons a s =>
    obtain ⟨_, z, _, _, hfold, _, _⟩ := foldl_pickBest_none_split a s
    exact ⟨z, hfold⟩

/-! ## The filter on lists without conflicts between records -/

/-- The body of the loop of `FilterRecordIntents` for an A record. -/
theorem filterStep_ARecord {en : List RecordIntent → List RecordIntent} {m : NestedRecordMap}
    {ri : RecordIntent} {n v : String} (hr : ri.Record = dns.Record.ARecord n v) :
    filterStep en m ri =
      match m.PeekNameTypeRecords en n "CNAME" with
      | c :: _ =>
        if shouldReplaceExisting ri c = true then (m.DeleteNameType n "CNAME").Set n "A" v ri
        else m
      | [] =>
        match m.PeekNameTypeRecord n "A" v with
        | some x => if shouldReplaceExisting ri x = true then m.Set n "A" v ri else m
        | none => m.Set n "A" v ri := by
  unfold filterStep
  simp only [hr, dns.Record.GetName, dns.Record.GetValue]

/-- The body of the loop of `FilterRecordIntents` for a CNAME record. -/
theorem filterStep_CNAMERecord {en : List RecordIntent → List RecordIntent}
    {m : NestedRecordMap} {ri : RecordIntent} {n v : String}
    (hr : ri.Record = dns.Record.CNAMERecord n v) :
    filterStep en m ri =
      match m.PeekNameTypeRecords en n "A" with
      | a0 :: rest =>
        if shouldReplaceAllExisting ri (a0 :: rest) = true then
          (m.DeleteNameType n "A").Set n "CNAME" v ri
        else m
      | [] =>
        match m.PeekNameTypeRecords en n "CNAME" with
        | c :: _ => if shouldReplaceExisting ri c = true then m.Set n "CNAME" v ri else m
        | [] => m.Set n "CNAME" v ri := by
  unfold filterStep
  simp only [hr, dns.Record.GetName, dns.Record.GetValue]
  cases m.PeekNameTypeRecords en n "A" <;> rfl

/-- On a list without conflicts between records, the body of the loop only
looks at the leaf of the record of the incoming intent: it overwrites it when
the incoming intent beats the incumbent, and creates it when there is none. -/
theorem filterStep_slot {en : List RecordIntent → List RecordIntent}
    (hen : ∀ l, (en l).Perm l) {m : NestedRecordMap} {ri : RecordIntent} (hinv : FilterInv m)
    (hK : SlotWise (ri :: m.map Leaf.intent)) :
    filterStep en m ri =
      match m.PeekNameTypeRecord ri.Record.GetName ri.Record.GetType ri.Record.GetValue with
      | some x =>
        if shouldReplaceExisting ri x = true then
          m.Set ri.Record.GetName ri.Record.GetType ri.Record.GetValue ri
        else m
      | none => m.Set ri.Record.GetName ri.Record.GetType ri.Record.GetValue ri := by
  have hri : ri ∈ ri :: m.map Leaf.intent := List.mem_cons_self _ _
  have hleaf : ∀ e ∈ m, e.intent ∈ ri :: m.map Leaf.intent :=
    fun e he => List.mem_cons_of_mem _ (List.mem_map_of_mem _ he)
  cases hr : ri.Record with
  | ARecord n v =>
    have hn : ri.Record.GetName = n := by rw [hr]; rfl
    have ht : ri.Record.GetType = "A" := by rw [hr]; rfl
    rw [filterStep_ARecord hr]
    simp only [dns.Record.GetName, dns.Record.GetType, dns.Record.GetValue]
    cases hpC : m.PeekNameTypeRecords en n "CNAME" with
    | cons c rest =>
      exfalso
      obtain ⟨ec, hec, hat, rfl⟩ :=
        (mem_PeekNameTypeRecords_iff hen m n "CNAME" c).1 (by rw [hpC]; exact List.mem_cons_self _ _)
      have hc := hinv.coherent ec hec
      exact hK.1 ri hri ec.intent (hleaf ec hec) ht (hc.2.1 ▸ hat.2) (by rw [hn, ← hc.1, hat.1])
    | nil => rfl
  | CNAMERecord n v =>
    have hn : ri.Record.GetName = n := by rw [hr]; rfl
    have ht : ri.Record.GetType = "CNAME" := by rw [hr]; rfl
    have hv : ri.Record.GetValue = v := by rw [hr]; rfl
    rw [filterStep_CNAMERecord hr]
    simp only [dns.Record.GetName, dns.Record.GetType, dns.Record.GetValue]
    cases hpA : m.PeekNameTypeRecords en n "A" with
    | cons a0 rest =>
      exfalso
      obtain ⟨ea, hea, hat, _⟩ :=
        (mem_PeekNameTypeRecords_iff hen m n "A" a0).1 (by rw [hpA]; exact List.mem_cons_self _ _)
      have hc := hinv.coherent ea hea
      exact hK.1 ea.intent (hleaf ea hea) ri hri (hc.2.1 ▸ hat.2) ht (by rw [hn, ← hc.1, hat.1])
    | nil =>
      simp only
      cases hpC : m.PeekNameTypeRecords en n "CNAME" with
      | nil =>
        have hno := PeekNameTypeRecords_eq_nil hen hpC
        cases hq : m.PeekNameTypeRecord n "CNAME" v with
        | none => rfl
        | some x =>
          obtain ⟨e, he, hat, _⟩ := PeekNameTypeRecord_eq_some hq
          exact absurd ⟨hat.1, hat.2.1⟩ (hno e he)
      | cons c rest =>
        obtain ⟨ec, hec, hat, rfl⟩ :=
          (mem_PeekNameTypeRecords_iff hen m n "CNAME" c).1
            (by rw [hpC]; exact List.mem_cons_self _ _)
        have hc := hinv.coherent ec hec
        have hval : ec.value = v := by
          rw [hc.2.2, ← hv]
          exact hK.2 ec.intent (hleaf ec hec) ri hri (hc.2.1 ▸ hat.2) ht
            (by rw [hn, ← hc.1, hat.1])
        have hq := PeekNameTypeRecord_of_mem hinv.leafUnique hec
        rw [hat.1, hat.2, hval] at hq
        rw [hq]

/-- On a list without conflicts between records, what one iteration does to
the leaf of a record. -/
theorem filterStep_peek {en : List RecordIntent → List RecordIntent}
    (hen : ∀ l, (en l).Perm l) {m : NestedRecordMap} {ri : RecordIntent} (hinv : FilterInv m)
    (hK : SlotWise (ri :: m.map Leaf.intent)) (r : dns.Record) :
    (filterStep en m ri).PeekNameTypeRecord r.GetName r.GetType r.GetValue =
      if ri.Record = r then pickBest (m.PeekNameTypeRecord r.GetName r.GetType r.GetValue) ri
      else m.PeekNameTypeRecord r.GetName r.GetType r.GetValue := by
  rw [filterStep_slot hen hinv hK]
  have hcond : (ri.Record.GetName = r.GetName ∧ ri.Record.GetType = r.GetType ∧
      ri.Record.GetValue = r.GetValue) ↔ ri.Record = r := (Record_eq_iff_parts _ _).symm
  by_cases hrr : ri.Record = r
  · rw [if_pos hrr, ← hrr]
    cases hp : m.PeekNameTypeRecord ri.Record.GetName ri.Record.GetType ri.Record.GetValue with
    | none =>
      simp only
      rw [PeekNameTypeRecord_Set, if_pos ⟨rfl, rfl, rfl⟩]
      rfl
    | some x =>
      simp only
      show _ = (if shouldReplaceExisting ri x = true then some ri else some x)
      by_cases hs : shouldReplaceExisting ri x = true
      · rw [if_pos hs, if_pos hs, PeekNameTypeRecord_Set, if_pos ⟨rfl, rfl, rfl⟩]
      · rw [if_neg hs, if_neg hs, hp]
  · rw [if_neg hrr]
    have hset : (m.Set ri.Record.GetName ri.Record.GetType ri.Record.GetValue
        ri).PeekNameTypeRecord r.GetName r.GetType r.GetValue =
        m.PeekNameTypeRecord r.GetName r.GetType r.GetValue := by
      rw [PeekNameTypeRecord_Set, if_neg (fun h => hrr (hcond.1 h))]
    cases hp : m.PeekNameTypeRecord ri.Record.GetName ri.Record.GetType ri.Record.GetValue with
    | none => exact hset
    | some x =>
      simp only
      by_cases hs : shouldReplaceExisting ri x = true
      · rw [if_pos hs]; exact hset
      · rw [if_neg hs]

theorem SlotWise_of_subset {l1 l2 : List RecordIntent} (h : SlotWise l2)
    (hsub : ∀ x ∈ l1, x ∈ l2) : SlotWise l1 :=
  ⟨fun a ha c hc => h.1 a (hsub a ha) c (hsub c hc), CnameSameValue_of_subset h.2 hsub⟩

/-- On a list without conflicts between records, the leaf of a record ends
with the survivor among the intents of that record. -/
theorem filterLoop_peek (o : IterOrder) (r : dns.Record) (l : List RecordIntent) :
    ∀ (i : Nat) (m : NestedRecordMap) (seen : List RecordIntent), SlotWise (seen ++ l) →
      FilterInv m → (∀ e ∈ m, e.intent ∈ seen) →
      (filterLoop o i l m).PeekNameTypeRecord r.GetName r.GetType r.GetValue =
        bestOf r (m.PeekNameTypeRecord r.GetName r.GetType r.GetValue) l := by
  induction l with
  | nil => intro i m seen _ _ _; rfl
  | cons ri rest ih =>
    intro i m seen hK hinv hsub
    have hK1 : SlotWise (ri :: m.map Leaf.intent) := by
      apply SlotWise_of_subset hK
      intro y hy
      rcases List.mem_cons.1 hy with rfl | hy
      · exact List.mem_append_right _ (List.mem_cons_self _ _)
      · obtain ⟨e, he, rfl⟩ := List.mem_map.1 hy
        exact List.mem_append_left _ (hsub e he)
    have happ : (seen ++ [ri]) ++ rest = seen ++ ri :: rest := by simp
    have := ih (i + 1) (filterStep (o.enum i) m ri) (seen ++ [ri]) (happ ▸ hK)
      (filterStep_FilterInv (o.perm i) m ri hinv)
      (by
        intro e he
        rcases filterStep_subset (o.perm i) m ri e he with h | h
        · exact List.mem_append_left _ (hsub e h)
        · exact List.mem_append_right _ (by rw [h]; exact List.mem_singleton_self _))
    show (filterLoop o (i + 1) rest (filterStep (o.enum i) m ri)).PeekNameTypeRecord
      r.GetName r.GetType r.GetValue = _
    rw [this, filterStep_peek (o.perm i) hinv hK1 r]
    rfl

/-- On a list without conflicts between records, the output of
`FilterRecordIntents` holds exactly the survivors of the records. -/
theorem mem_FilterRecordIntents_iff (o : IterOrder) {l : List RecordIntent} (hK : SlotWise l)
    (x : RecordIntent) :
    x ∈ FilterRecordIntents o l ↔ bestOf x.Record none l = some x := by
  have hinv := filterLoop_FilterInv o l 0 _ FilterInv_empty
  have hpeek := filterLoop_peek o x.Record l 0 NewNestedRecordMap [] (by simpa using hK)
    FilterInv_empty (fun _ h => absurd h (List.not_mem_nil _))
  have hnil : NestedRecordMap.PeekNameTypeRecord NewNestedRecordMap x.Record.GetName
      x.Record.GetType x.Record.GetValue = none := rfl
  rw [hnil] at hpeek
  unfold FilterRecordIntents
  rw [mem_GetAllValues_iff (o.perm _), ← hpeek]
  constructor
  · rintro ⟨e, he, rfl⟩
    have hc := hinv.coherent e he
    have := PeekNameTypeRecord_of_mem hinv.leafUnique he
    rw [hc.1, hc.2.1, hc.2.2] at this
    exact this
  · intro h
    obtain ⟨e, he, _, hx⟩ := PeekNameTypeRecord_eq_some h
    exact ⟨e, he, hx⟩

/-! ## The output of the filter has no repetition -/

/-- One iteration of `FilterRecordIntents` leaves the map as it is, or writes
the leaf of the incoming intent, after deleting the leaves of the other type at
its name or without deleting. -/
theorem filterStep_form (en : List RecordIntent → List RecordIntent) (m : NestedRecordMap)
    (ri : RecordIntent) :
    filterStep en m ri = m ∨
      filterStep en m ri = m.Set ri.Record.GetName ri.Record.GetType ri.Record.GetValue ri ∨
      filterStep en m ri =
        (m.DeleteNameType ri.Record.GetName (otherType ri.Record)).Set ri.Record.GetName
          ri.Record.GetType ri.Record.GetValue ri := by
  cases hr : ri.Record with
  | ARecord n v =>
    rw [filterStep_ARecord hr]
    simp only [dns.Record.GetName, dns.Record.GetType, dns.Record.GetValue, otherType]
    cases m.PeekNameTypeRecords en n "CNAME" with
    | cons c rest =>
      simp only
      split
      · exact Or.inr (Or.inr rfl)
      · exact Or.inl rfl
    | nil =>
      simp only
      cases m.PeekNameTypeRecord n "A" v with
      | none => exact Or.inr (Or.inl rfl)
      | some x =>
        simp only
        split
        · exact Or.inr (Or.inl rfl)
        · exact Or.inl rfl
  | CNAMERecord n v =>
    rw [filterStep_CNAMERecord hr]
    simp only [dns.Record.GetName, dns.Record.GetType, dns.Record.GetValue, otherType]
    cases m.PeekNameTypeRecords en n "A" with
    | cons a0 rest =>
      simp only
      split
      · exact Or.inr (Or.inr rfl)
      · exact Or.inl rfl
    | nil =>
      simp only
      cases m.PeekNameTypeRecords en n "CNAME" with
      | nil => exact Or.inr (Or.inl rfl)
      | cons c rest =>
        simp only
        split
        · exact Or.inr (Or.inl rfl)
        · exact Or.inl rfl

theorem Set_Nodup {m : NestedRecordMap} (h : m.Nodup) (n t v : String) (x : RecordIntent) :
    (m.Set n t v x).Nodup := by
  unfold NestedRecordMap.Set
  apply List.Nodup.append (h.filter _) (List.nodup_singleton _)
  intro e he hnew
  rw [List.mem_singleton] at hnew
  have := (List.mem_filter.1 he).2
  rw [hnew] at this
  simp [Leaf.atValue] at this

theorem DeleteNameType_Nodup {m : NestedRecordMap} (h : m.Nodup) (n t : String) :
    (m.DeleteNameType n t).Nodup :=
  h.filter _

theorem filterStep_Nodup (en : List RecordIntent → List RecordIntent) {m : NestedRecordMap}
    (ri : RecordIntent) (h : m.Nodup) : (filterStep en m ri).Nodup := by
  rcases filterStep_form en m ri with heq | heq | heq
  · rw [heq]; exact h
  · rw [heq]; exact Set_Nodup h _ _ _ _
  · rw [heq]; exact Set_Nodup (DeleteNameType_Nodup h _ _) _ _ _ _

theorem filterLoop_Nodup (o : IterOrder) (l : List RecordIntent) :
    ∀ (i : Nat) (m : NestedRecordMap), m.Nodup → (filterLoop o i l m).Nodup := by
  induction l with
  | nil => intro i m h; exact h
  | cons ri rest ih =>
    intro i m h
    exact ih (i + 1) _ (filterStep_Nodup (o.enum i) ri h)

/-- The output of `FilterRecordIntents` never holds an intent twice. -/
theorem FilterRecordIntents_Nodup (o : IterOrder) (l : List RecordIntent) :
    (FilterRecordIntents o l).Nodup := by
  have hinv := filterLoop_FilterInv o l 0 _ FilterInv_empty
  have hnd := filterLoop_Nodup o l 0 NewNestedRecordMap List.nodup_nil
  unfold FilterRecordIntents NestedRecordMap.GetAllValues
  rw [(o.perm _ _).nodup_iff]
  apply List.Nodup.map_on _ hnd
  intro e1 h1 e2 h2 heq
  have c1 := hinv.coherent e1 h1
  have c2 := hinv.coherent e2 h2
  exact hinv.leafUnique e1 h1 e2 h2 (by rw [c1.1, c2.1, heq]) (by rw [c1.2.1, c2.2.1, heq])
    (by rw [c1.2.2, c2.2.2, heq])

theorem eq_singleton_of_nodup {l : List RecordIntent} {r : RecordIntent} (hnd : l.Nodup)
    (hr : r ∈ l) (hall : ∀ x ∈ l, x = r) : l = [r] := by
  cases l with
  | nil => exact absurd hr (List.not_mem_nil _)
  | cons a t =>
    have ha : a = r := hall a (List.mem_cons_self _ _)
    cases t with
    | nil => rw [ha]
    | cons b t2 =>
      have hb : b = r := hall b (List.mem_cons_of_mem _ (List.mem_cons_self _ _))
      rw [List.nodup_cons] at hnd
      exact absurd (by rw [ha, hb]; exact List.mem_cons_self _ _) hnd.1

/-! ## Conflict-free input -/

theorem SlotWise_of_ConflictFree {l : List RecordIntent} (h : ConflictFree l) : SlotWise l :=
  ⟨h.2.1, fun c1 h1 c2 h2 t1 t2 hn => by rw [h.2.2 c1 h1 c2 h2 t1 t2 hn]⟩

/-- C20: on a conflict-free input list (pairwise distinct keys, no DNS name
holding both an A and a CNAME, at most one CNAME per name) the output of
`FilterRecordIntents` holds exactly the intents of the input, each once,
whatever their force flags and creation times. -/
theorem filter_keeps_conflict_free_input (o : IterOrder) (l : List RecordIntent)
    (hcf : ConflictFree l) : (FilterRecordIntents o l).Perm l := by
  have hK := SlotWise_of_ConflictFree hcf
  rw [List.perm_ext_iff_of_nodup (FilterRecordIntents_Nodup o l) (List.Nodup.of_map _ hcf.1)]
  intro x
  rw [mem_FilterRecordIntents_iff o hK]
  constructor
  · intro h
    exact (bestOf_eq_some h).1
  · intro hx
    obtain ⟨r, hr⟩ := bestOf_isSome hx rfl
    obtain ⟨hrl, hrr, _⟩ := bestOf_eq_some hr
    rw [hr, List.inj_on_of_nodup_map hcf.1 hrl hx (Key_eq_of_Record_eq hrr)]

/-- Witness for C20: three intents without conflict, one of them with `force`
and the youngest first; the output is the input. -/
theorem filter_keeps_conflict_free_input_witness :
    ConflictFree
        [sampleA "api.x" "10.0.0.1" "c1" 9 false, sampleA "api.x" "10.0.0.2" "c2" 1 true,
          sampleCNAME "web.x" "svc.y" "c3" 5 false] ∧
      (FilterRecordIntents IterOrder.reversed
        [sampleA "api.x" "10.0.0.1" "c1" 9 false, sampleA "api.x" "10.0.0.2" "c2" 1 true,
          sampleCNAME "web.x" "svc.y" "c3" 5 false]).Perm
        [sampleA "api.x" "10.0.0.1" "c1" 9 false, sampleA "api.x" "10.0.0.2" "c2" 1 true,
          sampleCNAME "web.x" "svc.y" "c3" 5 false] :=
  ⟨by decide,
    filter_keeps_conflict_free_input IterOrder.reversed
      [sampleA "api.x" "10.0.0.1" "c1" 9 false, sampleA "api.x" "10.0.0.2" "c2" 1 true,
        sampleCNAME "web.x" "svc.y" "c3" 5 false]
      (by decide)⟩

/-! ## Intents of one record -/

theorem SlotWise_of_all_A {l : List RecordIntent} {n v : String}
    (hA : ∀ x ∈ l, x.Record = dns.Record.ARecord n v) : SlotWise l := by
  have hno : ∀ c ∈ l, ¬ c.Record.GetType = "CNAME" := by
    intro c hc h
    rw [hA c hc] at h
    simp [dns.Record.GetType] at h
  exact ⟨fun _ _ c hc _ h => absurd h (hno c hc), fun c hc _ _ h => absurd h (hno c hc)⟩

/-- C18: on a non-empty list of A intents of one DNS name and one value,
`FilterRecordIntents` returns exactly one intent `r`; no intent of the list has
strictly higher priority than `r` (force before non-force, then earliest
created), and every intent before `r` in the input has strictly lower priority,
so `r` is the first of the intents of highest priority.  In particular, when no
later intent beats the first one (as with intents identical in force and
created), the first one is kept. -/
theorem same_slot_keeps_first_of_highest_priority (o : IterOrder) (l : List RecordIntent)
    (n v : String) (hne : l ≠ []) (hA : ∀ x ∈ l, x.Record = dns.Record.ARecord n v) :
    (∃ pre r post, l = pre ++ r :: post ∧ FilterRecordIntents o l = [r] ∧
        (∀ x ∈ l, ¬ HigherPriority x r) ∧ (∀ x ∈ pre, HigherPriority r x)) ∧
      (∀ first rest, l = first :: rest → (∀ x ∈ rest, ¬ HigherPriority x first) →
        FilterRecordIntents o l = [first]) := by
  have hK := SlotWise_of_all_A hA
  have main : ∃ pre r post, l = pre ++ r :: post ∧ FilterRecordIntents o l = [r] ∧
      (∀ x ∈ l, ¬ HigherPriority x r) ∧ (∀ x ∈ pre, HigherPriority r x) := by
    cases l with
    | nil => exact absurd rfl hne
    | cons a s =>
      obtain ⟨pre, r, post, heq, hfold, g1, g2⟩ := foldl_pickBest_none_split a s
      have hfilter : (a :: s).filter (fun x => decide (x.Record = dns.Record.ARecord n v)) =
          a :: s := by
        rw [List.filter_eq_self]
        intro x hx
        simpa using hA x hx
      have hbest : bestOf (dns.Record.ARecord n v) none (a :: s) = some r := by
        rw [bestOf_eq_filter, hfilter, hfold]
      have hrl : r ∈ a :: s := by rw [heq]; simp
      refine ⟨pre, r, post, heq, ?_, ?_, g1⟩
      · apply eq_singleton_of_nodup (FilterRecordIntents_Nodup o _)
        · rw [mem_FilterRecordIntents_iff o hK, hA r hrl]
          exact hbest
        · intro x hx
          rw [mem_FilterRecordIntents_iff o hK] at hx
          have hxl := (bestOf_eq_some hx).1
          rw [hA x hxl, hbest] at hx
          exact (Option.some.inj hx).symm
      · intro x hx
        rw [heq] at hx
        rcases List.mem_append.1 hx with hx | hx
        · exact HigherPriority_asymm (g1 x hx)
        · rcases List.mem_cons.1 hx with rfl | hx
          · exact HigherPriority_irrefl _
          · exact g2 x hx
  refine ⟨main, ?_⟩
  intro first rest hl hfirst
  obtain ⟨pre, r, post, heq, hout, _, hpre⟩ := main
  rw [hout]
  cases pre with
  | nil =>
    rw [hl] at heq
    simp only [List.nil_append, List.cons.injEq] at heq
    rw [heq.1]
  | cons p pre2 =>
    exfalso
    rw [hl] at heq
    simp only [List.cons_append, List.cons.injEq] at heq
    have hbeats : HigherPriority r first := heq.1 ▸ hpre p (List.mem_cons_self _ _)
    have hr : r ∈ rest := by rw [heq.2]; simp
    exact hfirst r hr hbeats

/-- Witness for C18, scenario "force tie favors incumbent pairwise": two A
intents of `api.x` and `1.1.1.1` identical in force and created, from two
containers; the first ingested is kept. -/
theorem same_slot_keeps_first_of_highest_priority_witness :
    FilterRecordIntents IterOrder.insertion
        [sampleA "api.x" "1.1.1.1" "c1" 5 true, sampleA "api.x" "1.1.1.1" "c2" 5 true] =
      [sampleA "api.x" "1.1.1.1" "c1" 5 true] :=
  (same_slot_keeps_first_of_highest_priority IterOrder.insertion
    [sampleA "api.x" "1.1.1.1" "c1" 5 true, sampleA "api.x" "1.1.1.1" "c2" 5 true]
    "api.x" "1.1.1.1" (by decide) (by decide)).2 _ _ rfl (by decide)

/-! ## The order of the input -/

/-- Counterexample to C15.  Two A intents of one record that tie in force and
created: each input order keeps the intent it meets first.  And without any
tie: an A created at 3, an A created at 1 and a CNAME created at 2 at one name
give two different outputs in two input orders. -/
theorem filter_depends_on_input_order :
    ([sampleA "api.x" "1.1.1.1" "c1" 5 true, sampleA "api.x" "1.1.1.1" "c2" 5 true].Perm
        [sampleA "api.x" "1.1.1.1" "c2" 5 true, sampleA "api.x" "1.1.1.1" "c1" 5 true] ∧
      sampleA "api.x" "1.1.1.1" "c1" 5 true ∈ FilterRecordIntents IterOrder.insertion
        [sampleA "api.x" "1.1.1.1" "c1" 5 true, sampleA "api.x" "1.1.1.1" "c2" 5 true] ∧
      sampleA "api.x" "1.1.1.1" "c1" 5 true ∉ FilterRecordIntents IterOrder.insertion
        [sampleA "api.x" "1.1.1.1" "c2" 5 true, sampleA "api.x" "1.1.1.1" "c1" 5 true]) ∧
    ([sampleA "api.x" "1.1.1.1" "c1" 3 false, sampleA "api.x" "2.2.2.2" "c2" 1 false,
          sampleCNAME "api.x" "svc.y" "c3" 2 false].Perm
        [sampleA "api.x" "1.1.1.1" "c1" 3 false, sampleCNAME "api.x" "svc.y" "c3" 2 false,
          sampleA "api.x" "2.2.2.2" "c2" 1 false] ∧
      sampleA "api.x" "1.1.1.1" "c1" 3 false ∈ FilterRecordIntents IterOrder.insertion
        [sampleA "api.x" "1.1.1.1" "c1" 3 false, sampleA "api.x" "2.2.2.2" "c2" 1 false,
          sampleCNAME "api.x" "svc.y" "c3" 2 false] ∧
      sampleA "api.x" "1.1.1.1" "c1" 3 false ∉ FilterRecordIntents IterOrder.insertion
        [sampleA "api.x" "1.1.1.1" "c1" 3 false, sampleCNAME "api.x" "svc.y" "c3" 2 false,
          sampleA "api.x" "2.2.2.2" "c2" 1 false]) := by
  refine ⟨⟨List.Perm.swap _ _ _, by decide, by decide⟩,
    ⟨List.Perm.cons _ (List.Perm.swap _ _ _), by decide, by decide⟩⟩

/-- On a list without conflicts between records and without ties, the output
of `FilterRecordIntents` holds the intents that no intent of their record beats. -/
theorem mem_FilterRecordIntents_iff_unbeaten (o : IterOrder) {l : List RecordIntent}
    (hK : SlotWise l) (hnt : NoTies l) (x : RecordIntent) :
    x ∈ FilterRecordIntents o l ↔
      x ∈ l ∧ ∀ y ∈ l, y.Record = x.Record → ¬ HigherPriority y x := by
  rw [mem_FilterRecordIntents_iff o hK]
  constructor
  · intro h
    exact ⟨(bestOf_eq_some h).1, (bestOf_eq_some h).2.2⟩
  · rintro ⟨hx, hbest⟩
    obtain ⟨r, hr⟩ := bestOf_isSome hx rfl
    obtain ⟨hrl, hrr, hrbest⟩ := bestOf_eq_some hr
    have htie := tie_of_not_HigherPriority (hbest r hrl hrr) (hrbest x hx rfl)
    rw [hr, hnt r hrl x hx hrr htie.1 htie.2]

/-- C15, amended: on a list in which no DNS name holds both an A and a CNAME
intent, the CNAME intents of one name share their value and no two different
intents of one record tie in force and created, the set of intents
`FilterRecordIntents` returns is the same for every permutation of the input
(and every enumeration order of the maps). -/
theorem filter_order_independent_without_conflicts_and_ties (o1 o2 : IterOrder)
    (l1 l2 : List RecordIntent) (hperm : l1.Perm l2) (hK : SlotWise l1) (hnt : NoTies l1) :
    ∀ x, x ∈ FilterRecordIntents o1 l1 ↔ x ∈ FilterRecordIntents o2 l2 := by
  intro x
  have hK2 : SlotWise l2 := SlotWise_of_subset hK (fun y hy => hperm.mem_iff.2 hy)
  have hnt2 : NoTies l2 := fun a ha b hb =>
    hnt a (hperm.mem_iff.2 ha) b (hperm.mem_iff.2 hb)
  rw [mem_FilterRecordIntents_iff_unbeaten o1 hK hnt,
    mem_FilterRecordIntents_iff_unbeaten o2 hK2 hnt2, hperm.mem_iff]
  constructor
  · rintro ⟨h1, h2⟩
    exact ⟨h1, fun y hy => h2 y (hperm.mem_iff.2 hy)⟩
  · rintro ⟨h1, h2⟩
    exact ⟨h1, fun y hy => h2 y (hperm.mem_iff.1 hy)⟩

/-- Witness for the amended C15: two A intents of one record with different
ages, an A of another value created at the same time as one of them, and a
CNAME at another name; the older A of the shared record survives in both input
orders. -/
theorem filter_order_independent_without_conflicts_and_ties_witness :
    sampleA "api.x" "1.1.1.1" "c2" 1 false ∈ FilterRecordIntents IterOrder.reversed
      [sampleCNAME "web.x" "svc.y" "c4" 5 false, sampleA "api.x" "2.2.2.2" "c3" 5 false,
        sampleA "api.x" "1.1.1.1" "c2" 1 false, sampleA "api.x" "1.1.1.1" "c1" 5 false] :=
  (filter_order_independent_without_conflicts_and_ties IterOrder.insertion IterOrder.reversed
    [sampleA "api.x" "1.1.1.1" "c1" 5 false, sampleA "api.x" "1.1.1.1" "c2" 1 false,
      sampleA "api.x" "2.2.2.2" "c3" 5 false, sampleCNAME "web.x" "svc.y" "c4" 5 false]
    [sampleCNAME "web.x" "svc.y" "c4" 5 false, sampleA "api.x" "2.2.2.2" "c3" 5 false,
      sampleA "api.x" "1.1.1.1" "c2" 1 false, sampleA "api.x" "1.1.1.1" "c1" 5 false]
    (List.reverse_perm _).symm (by decide) (by decide)
    (sampleA "api.x" "1.1.1.1" "c2" 1 false)).1 (by decide)


end core
